import Mathlib

/-!
# Verification of the Thrill Digger Calculator probability engine

This file is a shallow embedding, in Lean 4, of the probability engine in
`src/solver.h` (class `ThrillDiggerSolver`), together with proofs about it.

Modelling conventions:
* C++ `double` values are modelled as `ℚ`.  Every arithmetic operation the
  engine performs on counts and probabilities (integer-valued additions and
  multiplications of counts, one final division, polynomial convolution) is
  exact in `ℚ`, so `ℚ` is a faithful model of the intended real-number
  semantics; floating-point rounding itself is not modelled.
* C++ `int` values are modelled as `ℤ` where they can be negative (clue
  ranges, `remainingBad` before branching) and as `ℕ` where they are used as
  indices and sizes.
* The 40-entry C++ arrays `grid` and `badProb` are modelled as functions
  `ℕ → CellContent` and `ℕ → ℚ`; the engine only ever reads and writes
  indices `0..39`.
* In-place array mutation is modelled by explicit lists of (index, value)
  writes applied functionally, in the same order as the C++ loops.
* The iteration order of the C++ `std::unordered_map` holding the connected
  components is unspecified; the embedding enumerates component roots in
  order of first appearance (a deterministic refinement).  Over `ℚ` the
  final probabilities do not depend on the order in which components are
  combined, since convolution is commutative and associative and the writes
  go to pairwise distinct cells.
* `std::sort` with the strictly-greater comparator is modelled by the stable
  `List.mergeSort` with the corresponding greater-or-equal relation; the
  comparator only drives the enumeration heuristic, tie order is irrelevant.
* The path-compressing union-find `find` is modelled by a fuel-bounded
  parent-chasing `find` without compression; compression changes no `find`
  result, only the internal parent array.
-/

namespace ThrillDigger

/-- Grid dimensions for Expert mode (C++ `ROWS`). -/
def ROWS : ℕ := 5

/-- C++ `COLS`. -/
def COLS : ℕ := 8

/-- C++ `TOTAL_CELLS` (= 40). -/
def TOTAL_CELLS : ℕ := ROWS * COLS

/-- C++ `TOTAL_BAD` (= 16). -/
def TOTAL_BAD : ℕ := 16

/-- C++ `enum class CellContent`. -/
inductive CellContent where
  | Undug
  | Green
  | Blue
  | Red
  | Silver
  | Gold
  | Rupoor
  | Bomb
deriving DecidableEq, Repr, Inhabited

open CellContent

/-- C++ `badNeighborRange`: the (min, max) bad-neighbor rule of a rupee. -/
def badNeighborRange : CellContent → ℤ × ℤ
  | Green => (0, 0)
  | Blue => (1, 2)
  | Red => (3, 4)
  | Silver => (5, 6)
  | Gold => (7, 8)
  | _ => (-1, -1)

/-- C++ `isRevealedGood`: Green through Gold. -/
def isRevealedGood : CellContent → Bool
  | Green | Blue | Red | Silver | Gold => true
  | _ => false

/-- C++ `isRevealedBad`: Rupoor or Bomb. -/
def isRevealedBad : CellContent → Bool
  | Rupoor | Bomb => true
  | _ => false

/-- C++ `isRevealed`: anything other than Undug. -/
def isRevealed (c : CellContent) : Bool := c ≠ Undug

/-- C++ `UnionFind::find`, fuel-bounded parent chasing (no path compression;
compression never changes the result of `find`). -/
def ufFind (parent : List ℕ) : ℕ → ℕ → ℕ
  | 0, x => x
  | fuel + 1, x =>
    let p := parent.getD x x
    if p = x then x else ufFind parent fuel p

/-- C++ `UnionFind::unite`. -/
def ufUnite (parent : List ℕ) (a b : ℕ) : List ℕ :=
  let ra := ufFind parent parent.length a
  let rb := ufFind parent parent.length b
  if ra = rb then parent else parent.set ra rb

/-- C++ `struct Constraint`. -/
structure Constraint where
  frontierLocalIdx : List ℕ
  minBad : ℤ
  maxBad : ℤ
deriving DecidableEq, Repr, Inhabited

/-- C++ `struct LocalConstraint`. -/
structure LocalConstraint where
  localIdx : List ℕ
  minBad : ℤ
  maxBad : ℤ
deriving DecidableEq, Repr, Inhabited

/-- C++ `struct ComponentResult`. -/
structure ComponentResult where
  size : ℕ
  counts : List ℚ
  badCounts : List (List ℚ)
  globalIndices : List ℕ
deriving DecidableEq, Repr, Inhabited

/-- C++ `binomial`: n choose k computed by the multiplicative loop. -/
def binomial (n k : ℕ) : ℚ :=
  if k > n then 0
  else if k = 0 ∨ k = n then 1
  else
    let k2 := if k > n - k then n - k else k
    (List.range k2).foldl (fun result i => result * ((n : ℚ) - (i : ℚ)) / ((i : ℚ) + 1)) 1

/-- The main solver object: board state plus last-computed probabilities
(C++ `class ThrillDiggerSolver`, members `grid` and `badProb`). -/
structure ThrillDiggerSolver where
  grid : ℕ → CellContent
  badProb : ℕ → ℚ

/-- C++ `ThrillDiggerSolver::reset`. -/
def ThrillDiggerSolver.reset (_s : ThrillDiggerSolver) : ThrillDiggerSolver :=
  { grid := fun _ => Undug
    badProb := fun _ => (TOTAL_BAD : ℚ) / (TOTAL_CELLS : ℚ) }

/-- The freshly constructed solver (the C++ constructor calls `reset`). -/
def mkSolver : ThrillDiggerSolver :=
  ThrillDiggerSolver.reset ⟨fun _ => Undug, fun _ => 0⟩

/-- C++ `ThrillDiggerSolver::setCell`. -/
def ThrillDiggerSolver.setCell (s : ThrillDiggerSolver) (row col : ℕ)
    (content : CellContent) : ThrillDiggerSolver :=
  { s with grid := fun i => if i = row * COLS + col then content else s.grid i }

/-- C++ `ThrillDiggerSolver::getNeighbors`: the in-bounds Moore neighbors of
a cell, produced in the same (dr, dc) iteration order as the C++ loops. -/
def getNeighbors (idx : ℕ) : List ℕ :=
  let r : ℤ := (idx / COLS : ℕ)
  let c : ℤ := (idx % COLS : ℕ)
  ([-1, 0, 1] : List ℤ).flatMap fun dr =>
    ([-1, 0, 1] : List ℤ).filterMap fun dc =>
      if dr = 0 ∧ dc = 0 then none
      else
        let nr := r + dr
        let nc := c + dc
        if 0 ≤ nr ∧ nr < (ROWS : ℤ) ∧ 0 ≤ nc ∧ nc < (COLS : ℤ) then
          some (nr * (COLS : ℤ) + nc).toNat
        else none

/-- C++ `ThrillDiggerSolver::convolve` (polynomial multiplication on
coefficient lists).  The C++ version accumulates `result[i+j] += a[i]*b[j]`;
over `ℚ` this equals the convolution sum written here. -/
def convolve (a b : List ℚ) : List ℚ :=
  if a.isEmpty ∨ b.isEmpty then []
  else
    (List.range (a.length + b.length - 1)).map fun t =>
      ((List.range (t + 1)).map fun i => a.getD i 0 * b.getD (t - i) 0).sum

/-- The static inputs of `enumerateComponent` (the parameters the C++
function receives unchanged through the recursion). -/
structure EnumIn where
  compSize : ℕ
  remainingBad : ℕ
  order : List ℕ
  orderPos : List ℕ
  cellConstraints : List (List ℕ)
  localConstraints : List LocalConstraint
deriving Repr

/-- The `badCount` accumulated by the constraint re-check of
`enumerateComponent`: bad cells among the members of `lc` already assigned
at depth `pos`. -/
def badCountAt (E : EnumIn) (pos : ℕ) (assignment : List ℕ)
    (lc : LocalConstraint) : ℕ :=
  (lc.localIdx.map fun li =>
    if E.orderPos.getD li 0 ≤ pos then assignment.getD li 0 else 0).sum

/-- The `unassignedCount` of the constraint re-check: members of `lc` not
yet assigned at depth `pos`. -/
def unassignedAt (E : EnumIn) (pos : ℕ) (lc : LocalConstraint) : ℕ :=
  (lc.localIdx.filter fun li => ¬ (E.orderPos.getD li 0 ≤ pos)).length

/-- The constraint re-check the C++ code performs after tentatively assigning
`cell` at depth `pos` (the `valid` loop body inside `enumerateComponent`). -/
def checkCell (E : EnumIn) (pos : ℕ) (assignment : List ℕ) (cell : ℕ) : Bool :=
  (E.cellConstraints.getD cell []).all fun ci =>
    let lc := E.localConstraints.getD ci default
    if (badCountAt E pos assignment lc : ℤ) > lc.maxBad then false
    else if unassignedAt E pos lc = 0 then
      ¬ ((badCountAt E pos assignment lc : ℤ) < lc.minBad)
    else
      ¬ ((badCountAt E pos assignment lc : ℤ) + (unassignedAt E pos lc : ℤ) < lc.minBad)

/-- The state updated by `enumerateComponent`: (`counts`, `badCnts`). -/
abbrev EnumState := List ℚ × List (List ℚ)

/-- The base-case bookkeeping of `enumerateComponent`: a complete valid
assignment with `numBad` bad cells was found. -/
def bumpLeaf (E : EnumIn) (numBad : ℕ) (assignment : List ℕ)
    (st : EnumState) : EnumState :=
  (st.1.set numBad (st.1.getD numBad 0 + 1),
   (List.range E.compSize).foldl
     (fun bc i =>
       if assignment.getD i 0 ≠ 0 then
         bc.set i ((bc.getD i []).set numBad ((bc.getD i []).getD numBad 0 + 1))
       else bc)
     st.2)

/-- C++ `ThrillDiggerSolver::enumerateComponent`, made structurally
recursive on an explicit `fuel` argument.  The C++ recursion always
increases `pos` by one and stops at `pos = compSize`, so calling with
`fuel ≥ compSize - pos` (the solver calls it with `fuel = compSize`,
`pos = 0`) never reaches the artificial out-of-fuel branch. -/
def enumerateComponent (E : EnumIn) :
    ℕ → ℕ → ℕ → List ℕ → EnumState → EnumState
  | fuel, pos, numBad, assignment, st =>
    if numBad > E.remainingBad then st
    else if pos = E.compSize then bumpLeaf E numBad assignment st
    else
      match fuel with
      | 0 => st
      | fuel + 1 =>
        let cell := E.order.getD pos 0
        let a0 := assignment.set cell 0
        let st0 :=
          if checkCell E pos a0 cell then
            enumerateComponent E fuel (pos + 1) numBad a0 st
          else st
        let a1 := assignment.set cell 1
        if checkCell E pos a1 cell then
          enumerateComponent E fuel (pos + 1) (numBad + 1) a1 st0
        else st0

/-- The complete enumeration run the solver performs for a component:
start at depth 0 with the all-safe partial assignment and zeroed counts. -/
def enumRun (E : EnumIn) : EnumState :=
  enumerateComponent E E.compSize 0 0 (List.replicate E.compSize 0)
    (List.replicate (E.compSize + 1) 0,
     List.replicate E.compSize (List.replicate (E.compSize + 1) 0))

/-- All board cell indices, in the order of the C++ `for (i = 0; i < TOTAL_CELLS; i++)`
loops. -/
def cellsList : List ℕ := List.range TOTAL_CELLS

/-- Step 1 of `solve`: the cells classified as unknown (`unknownCells`). -/
def unknownCells (g : ℕ → CellContent) : List ℕ :=
  cellsList.filter fun i => ¬ (isRevealedBad (g i) || isRevealedGood (g i))

/-- Step 1 of `solve`: the cells classified as clue givers (`constraintCells`). -/
def constraintCells (g : ℕ → CellContent) : List ℕ :=
  cellsList.filter fun i => isRevealedGood (g i)

/-- Step 1 of `solve`: the count of revealed bad cells (`knownBad`). -/
def knownBad (g : ℕ → CellContent) : ℕ :=
  (cellsList.filter fun i => isRevealedBad (g i)).length

/-- `remainingBad = TOTAL_BAD - knownBad`, as the C++ signed `int`. -/
def remainingBadI (g : ℕ → CellContent) : ℤ := (TOTAL_BAD : ℤ) - (knownBad g : ℤ)

/-- `remainingBad` as a natural number; on the branches where the solver uses
it as a count or index it is positive, and there it agrees with `remainingBadI`. -/
def remainingBadN (g : ℕ → CellContent) : ℕ := (remainingBadI g).toNat

/-- Membership in the C++ `frontierSet`: an unknown cell some clue cell
touches.  (Inserted cells are exactly the unknown neighbors of clue cells.) -/
def isFrontier (g : ℕ → CellContent) (n : ℕ) : Bool :=
  (constraintCells g).any fun ci => (getNeighbors ci).contains n

/-- Step 2 of `solve`: the sorted `frontier` vector.  `unknownCells` is an
ascending filter of `0..39`, so filtering it again yields exactly the sorted
duplicate-free listing of `frontierSet`. -/
def frontier (g : ℕ → CellContent) : List ℕ :=
  (unknownCells g).filter (isFrontier g)

/-- Step 2 of `solve`: the `interior` vector. -/
def interior (g : ℕ → CellContent) : List ℕ :=
  (unknownCells g).filter fun n => ¬ isFrontier g n

/-- Step 3 of `solve`, body of the loop over `constraintCells`: the
constraint a single clue cell `ci` contributes, if any.  `front` is the
sorted frontier vector; `std::lower_bound` on it at a present element
returns the element's (unique) index, modelled by `indexOf`. -/
def constraintOfClue (g : ℕ → CellContent) (front : List ℕ) (ci : ℕ) :
    Option Constraint :=
  let range := badNeighborRange (g ci)
  let nbrs := getNeighbors ci
  let knownBadN : ℕ := (nbrs.filter fun n => isRevealedBad (g n)).length
  let fnbrs : List ℕ := nbrs.filterMap fun n =>
    if isRevealedBad (g n) then none
    else if front.contains n then some (front.indexOf n) else none
  let adjMin0 : ℤ := max 0 (range.1 - (knownBadN : ℤ))
  let adjMax0 : ℤ := range.2 - (knownBadN : ℤ)
  let adjMax1 : ℤ := if adjMax0 < 0 then 0 else adjMax0
  let adjMax : ℤ := min adjMax1 (fnbrs.length : ℤ)
  let adjMin : ℤ := min adjMin0 (fnbrs.length : ℤ)
  if fnbrs.isEmpty then none else some ⟨fnbrs, adjMin, adjMax⟩

/-- Step 3 of `solve`: all emitted constraints. -/
def constraintsOf (g : ℕ → CellContent) : List Constraint :=
  (constraintCells g).filterMap (constraintOfClue g (frontier g))

/-- Step 4 of `solve`: the union-find parent array after all `unite` calls. -/
def ufParent (g : ℕ → CellContent) : List ℕ :=
  (constraintsOf g).foldl
    (fun par con =>
      (con.frontierLocalIdx.drop 1).foldl
        (fun par2 fi => ufUnite par2 (con.frontierLocalIdx.getD 0 0) fi) par)
    (List.range (frontier g).length)

/-- The union-find representative of frontier index `i`. -/
def findRoot (g : ℕ → CellContent) (i : ℕ) : ℕ :=
  ufFind (ufParent g) (ufParent g).length i

/-- The component roots, in order of first appearance among frontier indices
(a deterministic stand-in for the C++ `unordered_map` iteration order; see
the header comment). -/
def compRoots (g : ℕ → CellContent) : List ℕ :=
  let parent := ufParent g
  ((List.range (frontier g).length).map fun i =>
    ufFind parent parent.length i).dedup

/-- The members of the component rooted at `r` (pushed in ascending frontier
index order, exactly as the C++ loop does). -/
def compMembers (g : ℕ → CellContent) (r : ℕ) : List ℕ :=
  let parent := ufParent g
  (List.range (frontier g).length).filter fun i =>
    ufFind parent parent.length i = r

/-- Step 5 of `solve`: the constraints relevant to the component rooted at
`r`, remapped through `globalToLocal` (position in the `members` list). -/
def localConstraintsOf (g : ℕ → CellContent) (r : ℕ) : List LocalConstraint :=
  let parent := ufParent g
  let members := compMembers g r
  (constraintsOf g).filterMap fun con =>
    if con.frontierLocalIdx.any (fun fi => ufFind parent parent.length fi = r) then
      some ⟨con.frontierLocalIdx.filterMap
              (fun fi => members.findIdx? fun m => m = fi),
            con.minBad, con.maxBad⟩
    else none

/-- The `cellConstraints` incidence lists `solve` builds for one component
(constraint indices referencing each local cell, in ascending order, as the
C++ push loop produces them). -/
def cellConstraintsOf (g : ℕ → CellContent) (r : ℕ) : List (List ℕ) :=
  let lcs := localConstraintsOf g r
  (List.range (compMembers g r).length).map fun li =>
    (List.range lcs.length).filter fun ci =>
      (lcs.getD ci default).localIdx.contains li

/-- The heuristic cell order `solve` builds for one component (cells sorted
by decreasing number of referencing constraints; `std::sort` with the
strictly-greater comparator, modelled by the stable merge sort with the
corresponding total relation). -/
def orderOf (g : ℕ → CellContent) (r : ℕ) : List ℕ :=
  (List.range (compMembers g r).length).mergeSort fun a b =>
    ((cellConstraintsOf g r).getD b []).length ≤
      ((cellConstraintsOf g r).getD a []).length

/-- The inverse table of `orderOf` (`orderPos[order[i]] = i`). -/
def orderPosOf (g : ℕ → CellContent) (r : ℕ) : List ℕ :=
  (List.range (compMembers g r).length).map fun c =>
    (orderOf g r).findIdx fun x => x = c

/-- The full input bundle `solve` passes to `enumerateComponent` for the
component rooted at `r`. -/
def enumInOf (g : ℕ → CellContent) (r : ℕ) : EnumIn :=
  ⟨(compMembers g r).length, remainingBadN g, orderOf g r, orderPosOf g r,
   cellConstraintsOf g r, localConstraintsOf g r⟩

/-- Step 5 of `solve`, body of the loop over components: the
`ComponentResult` of the component rooted at `r`, together with the direct
`badProb` writes of the oversized-component fallback branch (which is
unreachable on the 40-cell board but present in the source). -/
def compResultOf (g : ℕ → CellContent) (r : ℕ) :
    ComponentResult × List (ℕ × ℚ) :=
  let members := compMembers g r
  let compSize := members.length
  if compSize ≤ 40 then
    let st := enumRun (enumInOf g r)
    (⟨compSize, st.1, st.2, members⟩, [])
  else
    let p : ℚ := (remainingBadI g : ℚ) / ((unknownCells g).length : ℚ)
    (⟨compSize, [], [], members⟩,
     members.map fun mi => ((frontier g).getD mi 0, p))

/-- Step 5 of `solve`: the list `compResults`. -/
def compResultsOf (g : ℕ → CellContent) : List ComponentResult :=
  (compRoots g).map fun r => (compResultOf g r).1

/-- The `badProb` writes of the oversized-component fallback branches. -/
def fallbackWrites (g : ℕ → CellContent) : List (ℕ × ℚ) :=
  (compRoots g).flatMap fun r => (compResultOf g r).2

/-- Step 6 of `solve`: `interiorPoly`, the binomial distribution of the
interior pool. -/
def interiorPolyOf (g : ℕ → CellContent) : List ℚ :=
  (List.range ((interior g).length + 1)).map fun m =>
    binomial (interior g).length m

/-- Step 6 of `solve`: `compProd`, the convolution of all nonempty component
count vectors. -/
def compProdOf (g : ℕ → CellContent) : List ℚ :=
  (compResultsOf g).foldl
    (fun acc cr => if cr.counts.isEmpty then acc else convolve acc cr.counts)
    [1]

/-- Step 6 of `solve`: `totalPoly`. -/
def totalPolyOf (g : ℕ → CellContent) : List ℚ :=
  convolve (interiorPolyOf g) (compProdOf g)

/-- Step 6 of `solve`: `totalWays`, the convolved number of valid worlds at
`remainingBad`.  On the main solver path `remainingBad ≥ 1` and this equals
the C++ `(remainingBad < totalPoly.size()) ? totalPoly[remainingBad] : 0.0`;
for a negative `remainingBad` (only possible on an early-return path) it is
defined as 0, matching "no valid worlds". -/
def worldsTotal (g : ℕ → CellContent) : ℚ :=
  if remainingBadI g < 0 then 0 else (totalPolyOf g).getD (remainingBadN g) 0

/-- Step 7 of `solve`: `withoutComp` for the component at position `ci` of
`compResults` — the convolution of every other nonempty count vector. -/
def withoutCompOf (g : ℕ → CellContent) (ci : ℕ) : List ℚ :=
  ((compResultsOf g).enum).foldl
    (fun acc jc =>
      if jc.1 = ci ∨ jc.2.counts.isEmpty then acc else convolve acc jc.2.counts)
    [1]

/-- Step 7 of `solve`: `totalWithout` for the component at position `ci`. -/
def totalWithoutOf (g : ℕ → CellContent) (ci : ℕ) : List ℚ :=
  convolve (withoutCompOf g ci) (interiorPolyOf g)

/-- Step 7 of `solve`: the numerator of the marginal of local cell `li` of
the component at position `ci` (sum over its own bad count `k`). -/
def numeratorOf (g : ℕ → CellContent) (ci : ℕ) (cr : ComponentResult)
    (li : ℕ) : ℚ :=
  let tw := totalWithoutOf g ci
  let rb := remainingBadN g
  ((List.range (min cr.size rb + 1)).map fun k =>
    let rest := rb - k
    if rest < tw.length then
      (cr.badCounts.getD li []).getD k 0 * tw.getD rest 0
    else 0).sum

/-- Step 7 of `solve`: the `badProb` writes for all frontier cells. -/
def step7Writes (g : ℕ → CellContent) : List (ℕ × ℚ) :=
  let front := frontier g
  let tW := worldsTotal g
  ((compResultsOf g).enum).flatMap fun jc =>
    if jc.2.counts.isEmpty then []
    else
      (List.range jc.2.size).map fun li =>
        (front.getD (jc.2.globalIndices.getD li 0) 0,
         numeratorOf g jc.1 jc.2 li / tW)

/-- Step 8 of `solve`: `interiorNumerator` (the loop over `m` from 1). -/
def interiorNumeratorOf (g : ℕ → CellContent) : ℚ :=
  let cp := compProdOf g
  let nI := (interior g).length
  let rb := remainingBadN g
  ((List.range (min nI rb)).map fun m0 =>
    let m := m0 + 1
    let rest := rb - m
    if rest < cp.length then
      binomial (nI - 1) (m - 1) * cp.getD rest 0
    else 0).sum

/-- Step 1 of `solve`: the writes fixing revealed cells to probability 1
(bad) or 0 (clue). -/
def step1Writes (g : ℕ → CellContent) : List (ℕ × ℚ) :=
  cellsList.filterMap fun i =>
    if isRevealedBad (g i) then some (i, 1)
    else if isRevealedGood (g i) then some (i, 0)
    else none

/-- In-place array writes, applied left to right. -/
def applyWrites (bp : ℕ → ℚ) (ws : List (ℕ × ℚ)) : ℕ → ℚ :=
  ws.foldl (fun b iv => fun j => if j = iv.1 then iv.2 else b j) bp

/-- The final clamp of `solve` applied to one value (the two `if`s of the
C++ clamp loop). -/
def clampQ (x : ℚ) : ℚ :=
  let x1 := if x < 0 then 0 else x
  if x1 > 1 then 1 else x1

/-- The uniform value `remainingBad / unknownCells.size()` used by the
no-clue branch and the contradiction fallback. -/
def uniformProb (g : ℕ → CellContent) : ℚ :=
  (remainingBadI g : ℚ) / ((unknownCells g).length : ℚ)

/-- C++ `ThrillDiggerSolver::solve`, as a function from the board state and
the previous probability array to the new probability array.  The branch
structure mirrors the C++ return paths:
trivial case "no unknown cells"; trivial case `remainingBad ≤ 0`;
trivial case "no clue cells"; the contradiction fallback `totalWays ≤ 0`;
and the main path ending in the clamp loop over all 40 cells. -/
def solveProb (g : ℕ → CellContent) (p : ℕ → ℚ) : ℕ → ℚ :=
  let bp1 := applyWrites p (step1Writes g)
  if (unknownCells g).isEmpty then bp1
  else if remainingBadI g ≤ 0 then
    applyWrites bp1 ((unknownCells g).map fun i => (i, 0))
  else if (constraintCells g).isEmpty then
    let u := uniformProb g
    applyWrites bp1 ((unknownCells g).map fun i => (i, u))
  else
    let bp2 := applyWrites bp1 (fallbackWrites g)
    if worldsTotal g ≤ 0 then
      let u := uniformProb g
      applyWrites bp2 ((unknownCells g).map fun i => (i, u))
    else
      let bp3 := applyWrites bp2 (step7Writes g)
      let bp4 :=
        if 0 < (interior g).length then
          let ip := interiorNumeratorOf g / worldsTotal g
          applyWrites bp3 ((interior g).map fun i => (i, ip))
        else bp3
      fun i => if i < TOTAL_CELLS then clampQ (bp4 i) else bp4 i

/-- C++ `ThrillDiggerSolver::solve` as a state transformer. -/
def ThrillDiggerSolver.solve (s : ThrillDiggerSolver) : ThrillDiggerSolver :=
  { s with badProb := solveProb s.grid s.badProb }

/-! ## Generic lemmas about the write model -/

theorem applyWrites_nil (bp : ℕ → ℚ) : applyWrites bp [] = bp := rfl

theorem applyWrites_cons (bp : ℕ → ℚ) (iv : ℕ × ℚ) (ws : List (ℕ × ℚ)) :
    applyWrites bp (iv :: ws) =
      applyWrites (fun j => if j = iv.1 then iv.2 else bp j) ws := rfl

theorem applyWrites_append (bp : ℕ → ℚ) (ws1 ws2 : List (ℕ × ℚ)) :
    applyWrites bp (ws1 ++ ws2) = applyWrites (applyWrites bp ws1) ws2 := by
  simp [applyWrites, List.foldl_append]

theorem applyWrites_of_not_mem (bp : ℕ → ℚ) (ws : List (ℕ × ℚ)) (i : ℕ)
    (h : i ∉ ws.map Prod.fst) : applyWrites bp ws i = bp i := by
  induction ws generalizing bp with
  | nil => rfl
  | cons iv ws ih =>
    simp only [List.map_cons, List.mem_cons, not_or] at h
    rw [applyWrites_cons, ih _ (by simpa using h.2)]
    simp [h.1]

theorem applyWrites_eq_of_mem (bp : ℕ → ℚ) (ws : List (ℕ × ℚ)) (i : ℕ) (v : ℚ)
    (hnd : (ws.map Prod.fst).Nodup) (hmem : (i, v) ∈ ws) :
    applyWrites bp ws i = v := by
  induction ws generalizing bp with
  | nil => exact absurd hmem (List.not_mem_nil _)
  | cons iv ws ih =>
    simp only [List.map_cons, List.nodup_cons] at hnd
    rcases List.mem_cons.mp hmem with he | hm
    · subst he
      rw [applyWrites_cons,
        applyWrites_of_not_mem _ _ _ (by simpa using hnd.1)]
      simp
    · exact (applyWrites_cons ..).symm ▸ ih _ hnd.2 hm

/-! ## Cell geometry characterization (for claim C9) -/

/-- A cell in one of the four corners of the 5×8 grid. -/
def isCornerCell (idx : ℕ) : Bool :=
  (idx / COLS = 0 ∨ idx / COLS = ROWS - 1) ∧ (idx % COLS = 0 ∨ idx % COLS = COLS - 1)

/-- A cell on the boundary of the 5×8 grid. -/
def isBoundaryCell (idx : ℕ) : Bool :=
  idx / COLS = 0 ∨ idx / COLS = ROWS - 1 ∨ idx % COLS = 0 ∨ idx % COLS = COLS - 1

/-- `n` is an in-bounds cell whose row and column both differ from those of
`idx` by at most one, and is not `idx` itself. -/
def neighborCharacter (idx n : ℕ) : Bool :=
  n ≠ idx ∧ ((n / COLS : ℤ) - (idx / COLS : ℤ)).natAbs ≤ 1 ∧
    ((n % COLS : ℤ) - (idx % COLS : ℤ)).natAbs ≤ 1

/-! ## Claim theorems: C8 and C9 -/

/-- C8: immediately after `reset()`, every cell's content is `Undug` and
every cell's probability is the flat prior `TOTAL_BAD / TOTAL_CELLS`,
which equals 16/40 = 2/5 (= 0.4) on the reference board.  (`reset` is a
total function: it never fails.) -/
theorem C8_reset_prior (s : ThrillDiggerSolver) (i : ℕ) (_hi : i < TOTAL_CELLS) :
    s.reset.grid i = CellContent.Undug ∧
    s.reset.badProb i = (TOTAL_BAD : ℚ) / (TOTAL_CELLS : ℚ) ∧
    s.reset.badProb i = 2 / 5 := by
  refine ⟨rfl, rfl, ?_⟩
  show (TOTAL_BAD : ℚ) / (TOTAL_CELLS : ℚ) = 2 / 5
  norm_num [TOTAL_BAD, TOTAL_CELLS, ROWS, COLS]

/-- Witness for C8 at the concrete cell 0 of a freshly built solver. -/
theorem C8_witness :
    0 < TOTAL_CELLS ∧
    (mkSolver.reset.grid 0 = CellContent.Undug ∧
     mkSolver.reset.badProb 0 = (TOTAL_BAD : ℚ) / (TOTAL_CELLS : ℚ) ∧
     mkSolver.reset.badProb 0 = 2 / 5) :=
  ⟨by decide, C8_reset_prior mkSolver 0 (by decide)⟩

/-- C9: for every cell of the 5×8 grid, `getNeighbors` returns exactly the
in-bounds cells at row/column offsets in {-1,0,+1} other than the cell
itself (listed in ascending order), and consequently corner cells have
exactly 3 neighbors, boundary non-corner cells exactly 5, and interior
cells exactly 8. -/
theorem C9_getNeighbors_spec (idx : ℕ) (hidx : idx < TOTAL_CELLS) :
    getNeighbors idx = (List.range TOTAL_CELLS).filter (neighborCharacter idx) ∧
    (getNeighbors idx).length =
      (if isCornerCell idx then 3 else if isBoundaryCell idx then 5 else 8) := by
  revert hidx
  revert idx
  decide

/-- Witness for C9 at the corner cell 0. -/
theorem C9_witness :
    0 < TOTAL_CELLS ∧
    (getNeighbors 0 = (List.range TOTAL_CELLS).filter (neighborCharacter 0) ∧
     (getNeighbors 0).length =
       (if isCornerCell 0 then 3 else if isBoundaryCell 0 then 5 else 8)) :=
  ⟨by decide, C9_getNeighbors_spec 0 (by decide)⟩

/-! ## Membership lemmas for the classification and frontier lists -/

theorem getNeighbors_lt (idx : ℕ) (h : idx < TOTAL_CELLS) :
    ∀ n ∈ getNeighbors idx, n < TOTAL_CELLS := by
  revert h
  revert idx
  decide

theorem mem_unknownCells (g : ℕ → CellContent) (n : ℕ) :
    n ∈ unknownCells g ↔
      n < TOTAL_CELLS ∧ isRevealedBad (g n) = false ∧ isRevealedGood (g n) = false := by
  simp [unknownCells, cellsList, List.mem_filter, List.mem_range, and_assoc]

theorem mem_constraintCells (g : ℕ → CellContent) (n : ℕ) :
    n ∈ constraintCells g ↔ n < TOTAL_CELLS ∧ isRevealedGood (g n) = true := by
  simp [constraintCells, cellsList, List.mem_filter, List.mem_range]

theorem mem_frontier (g : ℕ → CellContent) (n : ℕ) :
    n ∈ frontier g ↔ n ∈ unknownCells g ∧ isFrontier g n = true := by
  simp [frontier, List.mem_filter]

theorem mem_interior (g : ℕ → CellContent) (n : ℕ) :
    n ∈ interior g ↔ n ∈ unknownCells g ∧ isFrontier g n = false := by
  simp [interior, List.mem_filter]

theorem isFrontier_of_neighbor (g : ℕ → CellContent) (ci n : ℕ)
    (hci : ci < TOTAL_CELLS) (hgood : isRevealedGood (g ci) = true)
    (hn : n ∈ getNeighbors ci) : isFrontier g n = true := by
  simp only [isFrontier, List.any_eq_true]
  refine ⟨ci, (mem_constraintCells g ci).mpr ⟨hci, hgood⟩, ?_⟩
  simpa using hn

theorem filterMap_if_eq_map_filter {α : Type} (l : List ℕ) (p : ℕ → Bool)
    (f : ℕ → α) :
    l.filterMap (fun n => if p n then some (f n) else none) =
      (l.filter p).map f := by
  induction l with
  | nil => rfl
  | cons a l ih =>
    by_cases h : p a <;> simp [List.filterMap_cons, List.filter_cons, h, ih]

/-! ## Claim theorem: C6 (constraint extraction) -/

/-- C6: for a revealed clue cell `ci` with rank range (mn, mx) and
`knownBadN` revealed-bad neighbors, the emitted constraint ranges over
exactly its hidden (Undug) neighbors and has bounds
`min (max 0 (mn - knownBadN)) |hidden|` and `min (max 0 (mx - knownBadN)) |hidden|`
(i.e. the knownBad-adjusted bounds, floored at 0 and clamped to the number
of hidden neighbors); when the hidden-neighbor set is empty no constraint
is emitted. -/
theorem C6_constraint_extraction (g : ℕ → CellContent) (ci : ℕ)
    (hci : ci < TOTAL_CELLS) (hgood : isRevealedGood (g ci) = true) :
    (((getNeighbors ci).filter fun n => g n = Undug) = [] →
       constraintOfClue g (frontier g) ci = none) ∧
    (((getNeighbors ci).filter fun n => g n = Undug) ≠ [] →
       ∃ con, constraintOfClue g (frontier g) ci = some con ∧
         con.frontierLocalIdx =
           ((getNeighbors ci).filter fun n => g n = Undug).map
             (fun n => (frontier g).indexOf n) ∧
         con.frontierLocalIdx.length =
           ((getNeighbors ci).filter fun n => g n = Undug).length ∧
         con.minBad =
           min (max 0 ((badNeighborRange (g ci)).1 -
               (((getNeighbors ci).filter fun n => isRevealedBad (g n)).length : ℤ)))
             ((((getNeighbors ci).filter fun n => g n = Undug).length : ℤ)) ∧
         con.maxBad =
           min (max 0 ((badNeighborRange (g ci)).2 -
               (((getNeighbors ci).filter fun n => isRevealedBad (g n)).length : ℤ)))
             ((((getNeighbors ci).filter fun n => g n = Undug).length : ℤ))) := by
  have hfn :
      ((getNeighbors ci).filterMap fun n =>
        if isRevealedBad (g n) then none
        else if (frontier g).contains n then some ((frontier g).indexOf n)
        else none) =
      (((getNeighbors ci).filter fun n => g n = Undug).map
        fun n => (frontier g).indexOf n) := by
    rw [← filterMap_if_eq_map_filter]
    apply List.filterMap_congr
    intro n hn
    have hnlt : n < TOTAL_CELLS := getNeighbors_lt ci hci n hn
    cases hgn : g n
    case Undug =>
      have hmem : n ∈ frontier g := by
        refine (mem_frontier g n).mpr ⟨(mem_unknownCells g n).mpr ⟨hnlt, ?_, ?_⟩,
          isFrontier_of_neighbor g ci n hci hgood hn⟩ <;> simp [hgn, isRevealedBad, isRevealedGood]
      simp [hgn, isRevealedBad, hmem]
    all_goals {
      first
      | ( -- revealed good contents: not bad, and not in the frontier
         have hnmem : n ∉ frontier g := by
           intro hmem
           have := ((mem_unknownCells g n).mp ((mem_frontier g n).mp hmem).1).2.2
           simp [hgn, isRevealedGood] at this
         simp [hgn, isRevealedBad, hnmem])
      | simp [hgn, isRevealedBad]
    }
  constructor
  · intro hempty
    simp only [constraintOfClue]
    rw [hfn, hempty]
    simp
  · intro hne
    simp only [constraintOfClue]
    rw [hfn]
    rw [if_neg (by simpa [List.isEmpty_iff] using hne)]
    refine ⟨_, rfl, rfl, by simp, by simp, ?_⟩
    have harith : ∀ x : ℤ, (if x < 0 then (0 : ℤ) else x) = max 0 x := by
      intro x
      split <;> omega
    rw [harith]
    simp

/-- A concrete board: a single Green clue at the corner cell 0, everything
else hidden. -/
def gClueOnly : ℕ → CellContent := fun i => if i = 0 then Green else Undug

/-- Witness for C6: the Green clue at cell 0 of `gClueOnly`. -/
theorem C6_witness :
    0 < TOTAL_CELLS ∧ isRevealedGood (gClueOnly 0) = true ∧
    ((((getNeighbors 0).filter fun n => gClueOnly n = Undug) = [] →
       constraintOfClue gClueOnly (frontier gClueOnly) 0 = none) ∧
    (((getNeighbors 0).filter fun n => gClueOnly n = Undug) ≠ [] →
       ∃ con, constraintOfClue gClueOnly (frontier gClueOnly) 0 = some con ∧
         con.frontierLocalIdx =
           ((getNeighbors 0).filter fun n => gClueOnly n = Undug).map
             (fun n => (frontier gClueOnly).indexOf n) ∧
         con.frontierLocalIdx.length =
           ((getNeighbors 0).filter fun n => gClueOnly n = Undug).length ∧
         con.minBad =
           min (max 0 ((badNeighborRange (gClueOnly 0)).1 -
               (((getNeighbors 0).filter fun n => isRevealedBad (gClueOnly n)).length : ℤ)))
             ((((getNeighbors 0).filter fun n => gClueOnly n = Undug).length : ℤ)) ∧
         con.maxBad =
           min (max 0 ((badNeighborRange (gClueOnly 0)).2 -
               (((getNeighbors 0).filter fun n => isRevealedBad (gClueOnly n)).length : ℤ)))
             ((((getNeighbors 0).filter fun n => gClueOnly n = Undug).length : ℤ)))) :=
  ⟨by decide, by decide, C6_constraint_extraction gClueOnly 0 (by decide) (by decide)⟩


/-! ## Generic list helpers for the enumeration proofs -/

theorem getD_set_general {α : Type} (l : List α) (n k : ℕ) (v d : α) :
    (l.set n v).getD k d = if k = n ∧ n < l.length then v else l.getD k d := by
  induction l generalizing n k with
  | nil => simp
  | cons a l ih =>
    cases n with
    | zero =>
      cases k with
      | zero => simp
      | succ j => simp
    | succ m =>
      cases k with
      | zero => simp
      | succ j =>
        have hiff : (j + 1 = m + 1 ∧ m + 1 < (a :: l).length) ↔
            (j = m ∧ m < l.length) := by
          simp only [List.length_cons]
          omega
        rw [List.set_cons_succ, List.getD_cons_succ, List.getD_cons_succ, ih,
          if_congr hiff rfl rfl]

theorem set_eq_self_of_getD (l : List ℕ) (i : ℕ) (v : ℕ)
    (h : l.getD i 0 = v) (hi : i < l.length) : l.set i v = l := by
  apply List.ext_getElem (by simp)
  intro j hj hj2
  rcases eq_or_ne i j with rfl | hne
  · rw [List.getElem_set_self (h := hj)]
    rw [List.getD_eq_getElem _ _ hj2] at h
    exact h.symm
  · exact List.getElem_set_ne hne _

theorem list_sum_eq_range (l : List ℕ) :
    l.sum = ∑ i ∈ Finset.range l.length, l.getD i 0 := by
  induction l with
  | nil => simp
  | cons a l ih =>
    rw [List.sum_cons, List.length_cons, Finset.sum_range_succ', ih]
    simp [add_comm]

theorem sum_le_length (l : List ℕ) (h : ∀ v ∈ l, v ≤ 1) : l.sum ≤ l.length := by
  induction l with
  | nil => simp
  | cons a l ih =>
    have h1 := h a (by simp)
    have h2 := ih fun v hv => h v (by simp [hv])
    simp only [List.sum_cons, List.length_cons]
    omega

theorem sum_set_add (l : List ℕ) (i v : ℕ) (hi : i < l.length)
    (h0 : l.getD i 0 = 0) : (l.set i v).sum = l.sum + v := by
  have hmem : i ∈ Finset.range l.length := by simp [hi]
  rw [list_sum_eq_range, list_sum_eq_range, List.length_set,
    Finset.sum_congr rfl fun j _ => getD_set_general l i j v 0,
    Finset.sum_eq_sum_diff_singleton_add hmem
      (fun j => if j = i ∧ i < l.length then v else l.getD j 0),
    Finset.sum_eq_sum_diff_singleton_add hmem (fun j => l.getD j 0), h0, add_zero]
  congr 1
  · apply Finset.sum_congr rfl
    intro j hj
    have : ¬ (j = i) := by
      intro he
      simp [he] at hj
    simp [this]
  · simp [hi]

/-! ## The model of component assignments

`enumerateComponent` explores bad/safe assignments of the component's
cells.  The model below lists all 0/1 assignments explicitly, so that the
counts the enumeration produces can be compared with honest cardinalities. -/

/-- All 0/1 lists of length `s` (each exactly once). -/
def allAssignments : ℕ → List (List ℕ)
  | 0 => [[]]
  | s + 1 => (allAssignments s).flatMap fun a => [a ++ [0], a ++ [1]]

/-- The number of member cells of a constraint that an assignment marks
bad. -/
def fullCount (lc : LocalConstraint) (x : List ℕ) : ℕ :=
  (lc.localIdx.map fun li => x.getD li 0).sum

/-- An assignment satisfies one local constraint when the number of its
member cells assigned bad lies in the constraint's range. -/
def satisfiesLC (lc : LocalConstraint) (x : List ℕ) : Bool :=
  lc.minBad ≤ (fullCount lc x : ℤ) ∧ (fullCount lc x : ℤ) ≤ lc.maxBad

/-- An assignment satisfies all local constraints of a component. -/
def satisfiesAll (lcs : List LocalConstraint) (x : List ℕ) : Bool :=
  lcs.all fun lc => satisfiesLC lc x

/-- The largest enumeration depth at which a member of constraint `ci` is
assigned (the step at which the constraint becomes fully decided). -/
def lastPos (E : EnumIn) (ci : ℕ) : ℕ :=
  ((E.localConstraints.getD ci default).localIdx.map
    fun li => E.orderPos.getD li 0).foldr max 0

/-- The constraints whose last member is assigned at depth ≥ `pos` are
exactly the ones the backtracking below depth `pos` still checks; an
assignment is acceptable for the subtree at depth `pos` when it satisfies
all of them. -/
def satFrom (E : EnumIn) (pos : ℕ) (x : List ℕ) : Bool :=
  (List.range E.localConstraints.length).all fun ci =>
    (lastPos E ci < pos) || satisfiesLC (E.localConstraints.getD ci default) x

/-- `x` extends the partial assignment `a` on all cells decided before
depth `pos`. -/
def extFrom (E : EnumIn) (pos : ℕ) (a x : List ℕ) : Bool :=
  (List.range E.compSize).all fun c =>
    (pos ≤ E.orderPos.getD c 0) || (x.getD c 0 = a.getD c 0)

/-- The number of complete assignments in the subtree at `(pos, a)` that
the remaining checks accept, restricted by an arbitrary extra predicate. -/
def deltaCount (E : EnumIn) (pos : ℕ) (a : List ℕ) (q : List ℕ → Bool) : ℕ :=
  ((allAssignments E.compSize).filter fun x =>
    extFrom E pos a x && satFrom E pos x && q x).length

theorem mem_allAssignments (s : ℕ) (x : List ℕ) :
    x ∈ allAssignments s ↔ x.length = s ∧ ∀ v ∈ x, v ≤ 1 := by
  induction s generalizing x with
  | zero =>
    simp only [allAssignments, List.mem_singleton]
    constructor
    · rintro rfl
      simp
    · rintro ⟨h, -⟩
      exact List.length_eq_zero.mp h
  | succ s ih =>
    simp only [allAssignments, List.mem_flatMap]
    constructor
    · rintro ⟨a, ha, hx⟩
      rcases (ih a).mp ha with ⟨hlen, hval⟩
      rcases List.mem_cons.mp hx with rfl | hx2
      · constructor
        · simp [hlen]
        · intro v hv
          rcases List.mem_append.mp hv with h | h
          · exact hval v h
          · simp only [List.mem_singleton] at h
            omega
      · rcases List.mem_cons.mp hx2 with rfl | hx3
        · constructor
          · simp [hlen]
          · intro v hv
            rcases List.mem_append.mp hv with h | h
            · exact hval v h
            · simp only [List.mem_singleton] at h
              omega
        · exact absurd hx3 (List.not_mem_nil _)
    · rintro ⟨hlen, hval⟩
      have hne : x ≠ [] := by
        intro h
        rw [h] at hlen
        exact absurd hlen.symm (Nat.succ_ne_zero s)
      refine ⟨x.dropLast, (ih x.dropLast).mpr ⟨by simp [hlen], ?_⟩, ?_⟩
      · intro v hv
        exact hval v (List.dropLast_subset x hv)
      · have hlast := hval (x.getLast hne) (List.getLast_mem hne)
        have hx : x.dropLast ++ [x.getLast hne] = x := List.dropLast_append_getLast hne
        have h01 : x.getLast hne = 0 ∨ x.getLast hne = 1 := by omega
        rcases h01 with h | h
        · refine List.mem_cons.mpr (Or.inl ?_)
          conv_lhs => rw [← hx]
          rw [h]
        · refine List.mem_cons.mpr (Or.inr (List.mem_cons.mpr (Or.inl ?_)))
          conv_lhs => rw [← hx]
          rw [h]

theorem nodup_allAssignments (s : ℕ) : (allAssignments s).Nodup := by
  induction s with
  | zero => simp [allAssignments]
  | succ s ih =>
    rw [allAssignments, List.nodup_flatMap]
    constructor
    · intro a ha
      have : a ++ [0] ≠ a ++ [1] := by simp
      simp [this]
    · rw [List.pairwise_iff_forall_sublist]
      intro a b hab
      have hne : a ≠ b := by
        intro h
        rw [h] at hab
        exact absurd (List.Sublist.nodup hab ih) (by simp)
      intro x hxa hxb
      simp only [Function.onFun, List.mem_cons, List.not_mem_nil, or_false] at hxa hxb
      apply hne
      rcases hxa with rfl | rfl <;> rcases hxb with h | h
      · exact (List.append_inj' h rfl).1
      · have h2 := (List.append_inj' h rfl).2
        simp at h2
      · have h2 := (List.append_inj' h rfl).2
        simp at h2
      · exact (List.append_inj' h rfl).1

/-! ## Claim C10: the global-budget pruning truncates above `remainingBad` -/

theorem bumpRows_getD_above (l : List ℕ) (a : List ℕ) (numBad k : ℕ)
    (hk : k ≠ numBad) (bc : List (List ℚ)) :
    ∀ i, ((l.foldl
        (fun bc i =>
          if a.getD i 0 ≠ 0 then
            bc.set i ((bc.getD i []).set numBad ((bc.getD i []).getD numBad 0 + 1))
          else bc)
        bc).getD i []).getD k 0 = (bc.getD i []).getD k 0 := by
  induction l generalizing bc with
  | nil => intro i; rfl
  | cons j l ih =>
    intro i
    rw [List.foldl_cons]
    rw [ih]
    by_cases hj : a.getD j 0 ≠ 0
    · rw [if_pos hj, getD_set_general]
      by_cases hij : i = j ∧ j < bc.length
      · rw [if_pos hij, getD_set_general, if_neg (by intro hc; exact hk hc.1), hij.1]
      · rw [if_neg hij]
    · rw [if_neg hj]

theorem bumpLeaf_getD_untouched (E : EnumIn) (numBad : ℕ) (a : List ℕ)
    (st : EnumState) (k : ℕ) (hk : k ≠ numBad) :
    (bumpLeaf E numBad a st).1.getD k 0 = st.1.getD k 0 ∧
    ∀ i, ((bumpLeaf E numBad a st).2.getD i []).getD k 0 =
      (st.2.getD i []).getD k 0 := by
  constructor
  · simp only [bumpLeaf]
    rw [getD_set_general, if_neg fun hc => hk hc.1]
  · intro i
    simp only [bumpLeaf]
    exact bumpRows_getD_above _ a numBad k hk st.2 i

theorem enumerateComponent_getD_above (E : EnumIn) (k : ℕ)
    (hk : E.remainingBad < k) :
    ∀ (fuel pos numBad : ℕ) (a : List ℕ) (st : EnumState),
      st.1.getD k 0 = 0 → (∀ i, (st.2.getD i []).getD k 0 = 0) →
      (enumerateComponent E fuel pos numBad a st).1.getD k 0 = 0 ∧
      ∀ i, ((enumerateComponent E fuel pos numBad a st).2.getD i []).getD k 0 = 0 := by
  intro fuel
  induction fuel with
  | zero =>
    intro pos numBad a st h1 h2
    rw [enumerateComponent]
    by_cases hgt : numBad > E.remainingBad
    · rw [if_pos hgt]; exact ⟨h1, h2⟩
    · by_cases hpos : pos = E.compSize
      · rw [if_neg hgt, if_pos hpos]
        refine ⟨((bumpLeaf_getD_untouched E numBad a st k (by omega)).1).trans h1, ?_⟩
        intro i
        exact ((bumpLeaf_getD_untouched E numBad a st k (by omega)).2 i).trans (h2 i)
      · rw [if_neg hgt, if_neg hpos]
        exact ⟨h1, h2⟩
  | succ fuel ih =>
    intro pos numBad a st h1 h2
    rw [enumerateComponent]
    by_cases hgt : numBad > E.remainingBad
    · rw [if_pos hgt]; exact ⟨h1, h2⟩
    · by_cases hpos : pos = E.compSize
      · rw [if_neg hgt, if_pos hpos]
        refine ⟨((bumpLeaf_getD_untouched E numBad a st k (by omega)).1).trans h1, ?_⟩
        intro i
        exact ((bumpLeaf_getD_untouched E numBad a st k (by omega)).2 i).trans (h2 i)
      · rw [if_neg hgt, if_neg hpos]
        simp only
        have hst0 :
            (if checkCell E pos (a.set (E.order.getD pos 0) 0) (E.order.getD pos 0) then
              enumerateComponent E fuel (pos + 1) numBad (a.set (E.order.getD pos 0) 0) st
            else st).1.getD k 0 = 0 ∧
            ∀ i, ((if checkCell E pos (a.set (E.order.getD pos 0) 0) (E.order.getD pos 0) then
              enumerateComponent E fuel (pos + 1) numBad (a.set (E.order.getD pos 0) 0) st
            else st).2.getD i []).getD k 0 = 0 := by
          by_cases hc0 : checkCell E pos (a.set (E.order.getD pos 0) 0) (E.order.getD pos 0)
          · rw [if_pos hc0]
            exact ih (pos + 1) numBad _ st h1 h2
          · rw [if_neg hc0]
            exact ⟨h1, h2⟩
        by_cases hc1 : checkCell E pos (a.set (E.order.getD pos 0) 1) (E.order.getD pos 0)
        · rw [if_pos hc1]
          exact ih (pos + 1) (numBad + 1) _ _ hst0.1 hst0.2
        · rw [if_neg hc1]
          exact hst0

theorem getD_replicate {α : Type} (n k : ℕ) (c d : α) :
    (List.replicate n c).getD k d = if k < n then c else d := by
  induction n generalizing k with
  | zero => simp
  | succ n ih =>
    cases k with
    | zero => simp
    | succ j =>
      rw [List.replicate_succ, List.getD_cons_succ, ih]
      have hiff : (j < n) ↔ (j + 1 < n + 1) := by omega
      rw [if_congr hiff rfl rfl]

/-- C10: for every component run of the solver's backtracking enumeration
and every bad count `k` strictly above the global budget `remainingBad`,
the produced `counts[k]` is 0 and `badCnts[i][k]` is 0 for every cell `i`:
the global-budget pruning truncates the distribution above `remainingBad`,
regardless of whether assignments with `k` bad cells satisfy the local
constraints. -/
theorem C10_budget_truncation (E : EnumIn) (k : ℕ) (hk : E.remainingBad < k) :
    (enumRun E).1.getD k 0 = 0 ∧
    ∀ i, ((enumRun E).2.getD i []).getD k 0 = 0 := by
  apply enumerateComponent_getD_above E k hk
  · rw [getD_replicate, ite_self]
  · intro i
    rw [getD_replicate]
    by_cases hi : i < E.compSize
    · rw [if_pos hi, getD_replicate, ite_self]
    · rw [if_neg hi]
      rfl

/-- Witness for C10: a two-cell unconstrained component with budget 1 and
`k = 2`. -/
theorem C10_witness :
    (⟨2, 1, [0, 1], [0, 1], [[], []], []⟩ : EnumIn).remainingBad < 2 ∧
    ((enumRun ⟨2, 1, [0, 1], [0, 1], [[], []], []⟩).1.getD 2 0 = 0 ∧
     ∀ i, ((enumRun ⟨2, 1, [0, 1], [0, 1], [[], []], []⟩).2.getD i []).getD 2 0 = 0) :=
  ⟨by decide, C10_budget_truncation ⟨2, 1, [0, 1], [0, 1], [[], []], []⟩ 2 (by decide)⟩

/-! ## Counting helpers -/

theorem length_filter_split {α : Type} (l : List α) (p q : α → Bool) :
    (l.filter p).length =
      (l.filter fun x => p x && q x).length +
      (l.filter fun x => p x && !q x).length := by
  induction l with
  | nil => rfl
  | cons a l ih =>
    by_cases hp : p a
    · by_cases hq : q a <;> simp [List.filter_cons, hp, hq, ih] <;> omega
    · simp [List.filter_cons, hp, ih]

theorem length_filter_and_le {α : Type} (l : List α) (p q : α → Bool) :
    (l.filter fun x => p x && q x).length ≤ (l.filter p).length := by
  induction l with
  | nil => exact le_refl _
  | cons a l ih =>
    by_cases hp : p a
    · by_cases hq : q a <;> simp [List.filter_cons, hp, hq] <;> omega
    · simp [List.filter_cons, hp, ih]

theorem length_filter_nodup_unique {α : Type} (l : List α) (p : α → Bool)
    (a : α) (hnd : l.Nodup) (ha : a ∈ l) (hu : ∀ x ∈ l, p x = true → x = a) :
    (l.filter p).length = if p a then 1 else 0 := by
  induction l with
  | nil => exact absurd ha (List.not_mem_nil _)
  | cons b l ih =>
    rw [List.nodup_cons] at hnd
    rcases List.mem_cons.mp ha with rfl | hal
    · have hnil : l.filter p = [] := by
        rw [List.filter_eq_nil_iff]
        intro x hx hpx
        exact hnd.1 ((hu x (by simp [hx]) hpx) ▸ hx)
      by_cases hp : p a <;> simp [List.filter_cons, hp, hnil]
    · have hpb : p b = false := by
        rcases Bool.eq_false_or_eq_true (p b) with h | h
        · exact absurd hal ((hu b (by simp) h) ▸ hnd.1)
        · exact h
      rw [List.filter_cons, if_neg (by simp [hpb])]
      exact ih hnd.2 hal fun x hx hpx => hu x (by simp [hx]) hpx

theorem le_foldr_max (l : List ℕ) (y : ℕ) (hy : y ∈ l) : y ≤ l.foldr max 0 := by
  induction l with
  | nil => exact absurd hy (List.not_mem_nil _)
  | cons a l ih =>
    rcases List.mem_cons.mp hy with rfl | h
    · exact le_max_left _ _
    · exact le_trans (ih h) (le_max_right _ _)

theorem foldr_max_mem (l : List ℕ) (hne : l ≠ []) : l.foldr max 0 ∈ l := by
  induction l with
  | nil => exact absurd rfl hne
  | cons a l ih =>
    cases l with
    | nil => simp
    | cons b t =>
      rw [List.foldr_cons]
      rcases max_choice a ((b :: t).foldr max 0) with h | h
      · rw [h]; exact List.mem_cons_self _ _
      · rw [h]; exact List.mem_cons.mpr (Or.inr (ih (by simp)))

theorem sum_map_split (l : List ℕ) (f : ℕ → ℕ) (p : ℕ → Bool) :
    (l.map f).sum =
      (l.map fun c => if p c then f c else 0).sum +
      (l.map fun c => if p c then 0 else f c).sum := by
  induction l with
  | nil => rfl
  | cons a l ih =>
    by_cases hp : p a <;> simp [hp, ih] <;> omega

theorem sum_map_if_le (l : List ℕ) (f : ℕ → ℕ) (p : ℕ → Bool)
    (h : ∀ c ∈ l, f c ≤ 1) :
    (l.map fun c => if p c then 0 else f c).sum ≤
      (l.filter fun c => !p c).length := by
  induction l with
  | nil => exact le_refl _
  | cons a l ih =>
    have ha := h a (by simp)
    have ihl := ih fun c hc => h c (by simp [hc])
    by_cases hp : p a <;> simp [List.filter_cons, hp] <;> omega

theorem getD_le_one (x : List ℕ) (h : ∀ v ∈ x, v ≤ 1) (c : ℕ) :
    x.getD c 0 ≤ 1 := by
  rcases Nat.lt_or_ge c x.length with hc | hc
  · rw [List.getD_eq_getElem _ _ hc]
    exact h _ (List.getElem_mem hc)
  · rw [List.getD_eq_default _ _ hc]
    exact Nat.zero_le 1

/-! ## Well-formedness of the enumeration inputs

These are exactly the properties of `order`, `orderPos`, `cellConstraints`
and `localConstraints` that `solve` establishes before calling
`enumerateComponent`. -/

abbrev EnumWF (E : EnumIn) : Prop :=
  E.order.Perm (List.range E.compSize) ∧
  E.orderPos.length = E.compSize ∧
  (∀ i < E.compSize, E.orderPos.getD (E.order.getD i 0) 0 = i) ∧
  (∀ lc ∈ E.localConstraints, lc.localIdx ≠ [] ∧ ∀ li ∈ lc.localIdx, li < E.compSize) ∧
  E.cellConstraints.length = E.compSize ∧
  (∀ c < E.compSize, E.cellConstraints.getD c [] =
    (List.range E.localConstraints.length).filter
      fun ci => (E.localConstraints.getD ci default).localIdx.contains c)

theorem EnumWF.order_length {E : EnumIn} (h : EnumWF E) :
    E.order.length = E.compSize := by
  simpa using h.1.length_eq

theorem EnumWF.order_getD_lt {E : EnumIn} (h : EnumWF E) (i : ℕ)
    (hi : i < E.compSize) : E.order.getD i 0 < E.compSize := by
  have hilen : i < E.order.length := by rw [h.order_length]; exact hi
  rw [List.getD_eq_getElem _ _ hilen]
  have : E.order[i] ∈ E.order := List.getElem_mem hilen
  simpa using h.1.mem_iff.mp this

theorem EnumWF.orderPos_inv {E : EnumIn} (h : EnumWF E) (c : ℕ)
    (hc : c < E.compSize) :
    E.order.getD (E.orderPos.getD c 0) 0 = c ∧ E.orderPos.getD c 0 < E.compSize := by
  have hmem : c ∈ E.order := h.1.mem_iff.mpr (by simpa using hc)
  rcases List.mem_iff_getElem.mp hmem with ⟨i, hi, hgi⟩
  have his : i < E.compSize := by rw [← h.order_length]; exact hi
  have h3 := h.2.2.1 i his
  rw [List.getD_eq_getElem _ _ hi, hgi] at h3
  rw [h3]
  exact ⟨by rw [List.getD_eq_getElem _ _ hi, hgi], his⟩

theorem EnumWF.lcs_empty_of_size_zero {E : EnumIn} (h : EnumWF E)
    (hs : E.compSize = 0) : E.localConstraints = [] := by
  rcases hE : E.localConstraints with _ | ⟨lc, t⟩
  · rfl
  · have h4 := h.2.2.2.1 lc (by rw [hE]; simp)
    rcases List.exists_mem_of_ne_nil lc.localIdx h4.1 with ⟨li, hli⟩
    have := h4.2 li hli
    omega

/-- The depth at which the last member of constraint `ci` is assigned is a
valid depth, every member is assigned by then, and it is attained. -/
theorem lastPos_spec {E : EnumIn} (h : EnumWF E) (ci : ℕ)
    (hci : ci < E.localConstraints.length) :
    (∀ li ∈ (E.localConstraints.getD ci default).localIdx,
       E.orderPos.getD li 0 ≤ lastPos E ci) ∧
    (∃ li ∈ (E.localConstraints.getD ci default).localIdx,
       E.orderPos.getD li 0 = lastPos E ci) ∧
    lastPos E ci < E.compSize := by
  have hmemlc : E.localConstraints.getD ci default ∈ E.localConstraints := by
    rw [List.getD_eq_getElem _ _ hci]
    exact List.getElem_mem hci
  have h4 := h.2.2.2.1 _ hmemlc
  refine ⟨?_, ?_, ?_⟩
  · intro li hli
    exact le_foldr_max _ _ (List.mem_map_of_mem _ hli)
  · have hmax := foldr_max_mem
      ((E.localConstraints.getD ci default).localIdx.map fun li => E.orderPos.getD li 0)
      (by simpa using h4.1)
    rcases List.mem_map.mp hmax with ⟨li, hli, hval⟩
    exact ⟨li, hli, hval⟩
  · have hmax := foldr_max_mem
      ((E.localConstraints.getD ci default).localIdx.map fun li => E.orderPos.getD li 0)
      (by simpa using h4.1)
    rcases List.mem_map.mp hmax with ⟨li, hli, hval⟩
    rw [lastPos, ← hval]
    exact (h.orderPos_inv li (h4.2 li hli)).2

/-- Membership in `cellConstraints` under well-formedness. -/
theorem mem_cellConstraints_iff {E : EnumIn} (h : EnumWF E) (c : ℕ)
    (hc : c < E.compSize) (ci : ℕ) :
    ci ∈ E.cellConstraints.getD c [] ↔
      ci < E.localConstraints.length ∧
        c ∈ (E.localConstraints.getD ci default).localIdx := by
  rw [h.2.2.2.2.2 c hc, List.mem_filter, List.mem_range]
  constructor
  · rintro ⟨h1, h2⟩
    exact ⟨h1, by simpa using h2⟩
  · rintro ⟨h1, h2⟩
    exact ⟨h1, by simpa using h2⟩

/-! ## Characterizations of the acceptance predicates -/

theorem sum_map_split_p (l : List ℕ) (f : ℕ → ℕ) (p : ℕ → Prop)
    [DecidablePred p] :
    (l.map f).sum =
      (l.map fun c => if p c then f c else 0).sum +
      (l.map fun c => if p c then 0 else f c).sum := by
  induction l with
  | nil => rfl
  | cons a l ih =>
    by_cases hp : p a <;> simp [hp, ih] <;> omega

theorem sum_map_if_le_p (l : List ℕ) (f : ℕ → ℕ) (p : ℕ → Prop)
    [DecidablePred p] (h : ∀ c ∈ l, f c ≤ 1) :
    (l.map fun c => if p c then 0 else f c).sum ≤
      (l.filter fun c => ¬ p c).length := by
  induction l with
  | nil => exact le_refl _
  | cons a l ih =>
    have ha := h a (by simp)
    have ihl := ih fun c hc => h c (by simp [hc])
    simp only [decide_not] at ihl ⊢
    by_cases hp : p a <;> simp [List.filter_cons, hp] <;> omega

theorem satFrom_iff (E : EnumIn) (pos : ℕ) (x : List ℕ) :
    satFrom E pos x = true ↔
      ∀ ci < E.localConstraints.length, pos ≤ lastPos E ci →
        satisfiesLC (E.localConstraints.getD ci default) x = true := by
  rw [satFrom, List.all_eq_true]
  constructor
  · intro H ci hci hpos
    have h2 := H ci (by simpa using hci)
    rw [Bool.or_eq_true] at h2
    rcases h2 with h | h
    · have : lastPos E ci < pos := by simpa using h
      omega
    · exact h
  · intro H ci hcimem
    rw [Bool.or_eq_true]
    by_cases hlp : lastPos E ci < pos
    · left
      simpa using hlp
    · right
      exact H ci (by simpa using hcimem) (by omega)

theorem extFrom_iff (E : EnumIn) (pos : ℕ) (a x : List ℕ) :
    extFrom E pos a x = true ↔
      ∀ c < E.compSize, E.orderPos.getD c 0 < pos → x.getD c 0 = a.getD c 0 := by
  rw [extFrom, List.all_eq_true]
  constructor
  · intro H c hc hdec
    have h2 := H c (by simpa using hc)
    rw [Bool.or_eq_true] at h2
    rcases h2 with h | h
    · have : pos ≤ E.orderPos.getD c 0 := by simpa using h
      omega
    · simpa using h
  · intro H c hcmem
    rw [Bool.or_eq_true]
    by_cases hdec : E.orderPos.getD c 0 < pos
    · right
      exact decide_eq_true (H c (by simpa using hcmem) hdec)
    · left
      exact decide_eq_true (by omega)

theorem fullCount_bounds {E : EnumIn} (pos : ℕ) (av x : List ℕ)
    (lc : LocalConstraint)
    (hx1 : ∀ v ∈ x, v ≤ 1)
    (hagree : ∀ li ∈ lc.localIdx, E.orderPos.getD li 0 ≤ pos →
      x.getD li 0 = av.getD li 0) :
    badCountAt E pos av lc ≤ fullCount lc x ∧
    fullCount lc x ≤ badCountAt E pos av lc + unassignedAt E pos lc := by
  have hsplit := sum_map_split_p lc.localIdx (fun li => x.getD li 0)
    (fun li => E.orderPos.getD li 0 ≤ pos)
  have hdec : (lc.localIdx.map fun li =>
      if E.orderPos.getD li 0 ≤ pos then x.getD li 0 else 0) =
      (lc.localIdx.map fun li =>
      if E.orderPos.getD li 0 ≤ pos then av.getD li 0 else 0) := by
    apply List.map_congr_left
    intro li hli
    by_cases hp : E.orderPos.getD li 0 ≤ pos
    · rw [if_pos hp, if_pos hp, hagree li hli hp]
    · rw [if_neg hp, if_neg hp]
  have hundec := sum_map_if_le_p lc.localIdx (fun li => x.getD li 0)
    (fun li => E.orderPos.getD li 0 ≤ pos) (fun c _ => getD_le_one x hx1 c)
  beta_reduce at hundec
  rw [fullCount, hsplit, hdec]
  constructor
  · exact Nat.le_add_right _ _
  · rw [badCountAt, unassignedAt]
    omega

/-! ## Soundness and completeness of the incremental pruning -/

theorem sum_le_of_extFrom {E : EnumIn} (pos : ℕ) (a x : List ℕ)
    (hlen : a.length = E.compSize) (hxlen : x.length = E.compSize)
    (hzero : ∀ c < E.compSize, pos ≤ E.orderPos.getD c 0 → a.getD c 0 = 0)
    (hext : extFrom E pos a x = true) : a.sum ≤ x.sum := by
  rw [list_sum_eq_range a, list_sum_eq_range x, hlen, hxlen]
  apply Finset.sum_le_sum
  intro i hi
  rw [Finset.mem_range] at hi
  by_cases hdec : E.orderPos.getD i 0 < pos
  · rw [(extFrom_iff E pos a x).mp hext i hi hdec]
  · rw [hzero i hi (by omega)]
    exact Nat.zero_le _

theorem extFrom_compSize_iff {E : EnumIn} (hwf : EnumWF E) (a x : List ℕ)
    (hlen : a.length = E.compSize) (hxlen : x.length = E.compSize) :
    extFrom E E.compSize a x = true ↔ x = a := by
  rw [extFrom_iff]
  constructor
  · intro H
    apply List.ext_getElem (by rw [hlen, hxlen])
    intro i h1 h2
    have hi : i < E.compSize := by rw [← hxlen]; exact h1
    have := H i hi (hwf.orderPos_inv i hi).2
    rw [List.getD_eq_getElem _ _ h1, List.getD_eq_getElem _ _ h2] at this
    exact this
  · rintro rfl
    intro c _ _
    rfl

theorem satFrom_compSize {E : EnumIn} (hwf : EnumWF E) (x : List ℕ) :
    satFrom E E.compSize x = true := by
  rw [satFrom_iff]
  intro ci hci hle
  have := (lastPos_spec hwf ci hci).2.2
  omega

theorem satFrom_zero (E : EnumIn) (x : List ℕ) :
    satFrom E 0 x = satisfiesAll E.localConstraints x := by
  rw [← Bool.coe_iff_coe, satFrom_iff, satisfiesAll, List.all_eq_true]
  constructor
  · intro H lc hmem
    rcases List.mem_iff_getElem.mp hmem with ⟨ci, hci, hgi⟩
    have := H ci hci (Nat.zero_le _)
    rw [List.getD_eq_getElem _ _ hci, hgi] at this
    exact this
  · intro H ci hci _
    rw [List.getD_eq_getElem _ _ hci]
    exact H _ (List.getElem_mem hci)

theorem check_fail_no_sat {E : EnumIn} (hwf : EnumWF E) (pos : ℕ)
    (hpos : pos < E.compSize) (av x : List ℕ)
    (hcheck : checkCell E pos av (E.order.getD pos 0) = false)
    (hx : x ∈ allAssignments E.compSize)
    (hext : extFrom E (pos + 1) av x = true) :
    satFrom E pos x = false := by
  have hcell : E.order.getD pos 0 < E.compSize := hwf.order_getD_lt pos hpos
  have hopc : E.orderPos.getD (E.order.getD pos 0) 0 = pos := hwf.2.2.1 pos hpos
  rw [checkCell, List.all_eq_false] at hcheck
  rcases hcheck with ⟨ci, hcimem, hbad⟩
  rcases (mem_cellConstraints_iff hwf _ hcell ci).mp hcimem with ⟨hcilt, hmemidx⟩
  have hlcmem : E.localConstraints.getD ci default ∈ E.localConstraints := by
    rw [List.getD_eq_getElem _ _ hcilt]
    exact List.getElem_mem hcilt
  have hWF4 := hwf.2.2.2.1 _ hlcmem
  have hlp : pos ≤ lastPos E ci := by
    have := (lastPos_spec hwf ci hcilt).1 _ hmemidx
    omega
  rw [Bool.eq_false_iff]
  intro hsat
  have hsatci := (satFrom_iff E pos x).mp hsat ci hcilt hlp
  rw [satisfiesLC] at hsatci
  simp only [Bool.and_eq_true, decide_eq_true_eq] at hsatci
  have hx1 : ∀ v ∈ x, v ≤ 1 := ((mem_allAssignments _ x).mp hx).2
  have hbounds := fullCount_bounds (E := E) pos av x
    (E.localConstraints.getD ci default) hx1 ?hagree
  case hagree =>
    intro li hli hdec
    exact (extFrom_iff E (pos + 1) av x).mp hext li (hWF4.2 li hli) (by omega)
  revert hbad
  simp only [Bool.not_eq_true]
  by_cases h1 : (badCountAt E pos av (E.localConstraints.getD ci default) : ℤ) >
      (E.localConstraints.getD ci default).maxBad
  · intro _
    omega
  · rw [if_neg h1]
    by_cases h2 : unassignedAt E pos (E.localConstraints.getD ci default) = 0
    · rw [if_pos h2]
      intro hlt
      have hlt2 : (badCountAt E pos av (E.localConstraints.getD ci default) : ℤ) <
          (E.localConstraints.getD ci default).minBad := by
        simpa using hlt
      omega
    · rw [if_neg h2]
      intro hlt
      have hlt2 : (badCountAt E pos av (E.localConstraints.getD ci default) : ℤ) +
          (unassignedAt E pos (E.localConstraints.getD ci default) : ℤ) <
          (E.localConstraints.getD ci default).minBad := by
        simpa using hlt
      omega

theorem check_pass_sat {E : EnumIn} (hwf : EnumWF E) (pos : ℕ)
    (hpos : pos < E.compSize) (av x : List ℕ)
    (hcheck : checkCell E pos av (E.order.getD pos 0) = true)
    (hx : x ∈ allAssignments E.compSize)
    (hext : extFrom E (pos + 1) av x = true) :
    satFrom E pos x = satFrom E (pos + 1) x := by
  have hcell : E.order.getD pos 0 < E.compSize := hwf.order_getD_lt pos hpos
  have hopc : E.orderPos.getD (E.order.getD pos 0) 0 = pos := hwf.2.2.1 pos hpos
  rw [← Bool.coe_iff_coe, satFrom_iff, satFrom_iff]
  constructor
  · intro H ci hci hle
    exact H ci hci (by omega)
  · intro H ci hci hle
    by_cases hgt : pos + 1 ≤ lastPos E ci
    · exact H ci hci hgt
    · have heq : lastPos E ci = pos := by omega
      have hlcmem : E.localConstraints.getD ci default ∈ E.localConstraints := by
        rw [List.getD_eq_getElem _ _ hci]
        exact List.getElem_mem hci
      have hWF4 := hwf.2.2.2.1 _ hlcmem
      -- the constraint's last member is exactly the cell assigned at `pos`
      rcases (lastPos_spec hwf ci hci).2.1 with ⟨li, hli, hlival⟩
      have hlicell : li = E.order.getD pos 0 := by
        have := (hwf.orderPos_inv li (hWF4.2 li hli)).1
        rw [hlival, heq] at this
        rw [← this]
      have hmemcell : E.order.getD pos 0 ∈
          (E.localConstraints.getD ci default).localIdx := hlicell ▸ hli
      have hcimem : ci ∈ E.cellConstraints.getD (E.order.getD pos 0) [] :=
        (mem_cellConstraints_iff hwf _ hcell ci).mpr ⟨hci, hmemcell⟩
      have hcheckci := List.all_eq_true.mp (by rw [checkCell] at hcheck; exact hcheck)
        ci hcimem
      have hun : unassignedAt E pos (E.localConstraints.getD ci default) = 0 := by
        rw [unassignedAt, List.length_eq_zero, List.filter_eq_nil_iff]
        intro li2 hli2
        have h1 := (lastPos_spec hwf ci hci).1 li2 hli2
        rw [heq] at h1
        simp only [decide_not, Bool.not_eq_true', decide_eq_false_iff_not, Classical.not_not]
        exact h1
      have hx1 : ∀ v ∈ x, v ≤ 1 := ((mem_allAssignments _ x).mp hx).2
      have hbounds := fullCount_bounds (E := E) pos av x
        (E.localConstraints.getD ci default) hx1 ?hagree2
      case hagree2 =>
        intro li2 hli2 hdec
        exact (extFrom_iff E (pos + 1) av x).mp hext li2 (hWF4.2 li2 hli2) (by omega)
      revert hcheckci
      simp only
      by_cases h1 : (badCountAt E pos av (E.localConstraints.getD ci default) : ℤ) >
          (E.localConstraints.getD ci default).maxBad
      · rw [if_pos h1]
        intro hfalse
        exact absurd hfalse (by simp)
      · rw [if_neg h1, if_pos hun]
        simp only [decide_not, Bool.not_eq_true', decide_eq_false_iff_not, Classical.not_not]
        intro hge
        rw [satisfiesLC]
        simp only [Bool.and_eq_true, decide_eq_true_eq]
        rw [hun] at hbounds
        constructor
        · omega
        · omega

theorem extFrom_succ_iff {E : EnumIn} (hwf : EnumWF E) (pos : ℕ)
    (hpos : pos < E.compSize) (a x : List ℕ) (hlen : a.length = E.compSize)
    (v : ℕ) :
    extFrom E (pos + 1) (a.set (E.order.getD pos 0) v) x = true ↔
      (extFrom E pos a x = true ∧ x.getD (E.order.getD pos 0) 0 = v) := by
  have hcell : E.order.getD pos 0 < E.compSize := hwf.order_getD_lt pos hpos
  have hopc : E.orderPos.getD (E.order.getD pos 0) 0 = pos := hwf.2.2.1 pos hpos
  rw [extFrom_iff, extFrom_iff]
  constructor
  · intro H
    constructor
    · intro c hc hdec
      have hne : ¬ (c = E.order.getD pos 0) := by
        intro he
        rw [he, hopc] at hdec
        omega
      have := H c hc (by omega)
      rw [getD_set_general, if_neg (fun hco => hne hco.1)] at this
      exact this
    · have := H _ hcell (by omega)
      rw [getD_set_general, if_pos ⟨rfl, by rw [hlen]; exact hcell⟩] at this
      exact this
  · rintro ⟨H, hv⟩ c hc hdec
    rcases eq_or_ne c (E.order.getD pos 0) with rfl | hne
    · rw [getD_set_general, if_pos ⟨rfl, by rw [hlen]; exact hcell⟩]
      exact hv
    · rw [getD_set_general, if_neg (fun hco => hne hco.1)]
      have hdec2 : E.orderPos.getD c 0 < pos := by
        rcases Nat.lt_or_ge (E.orderPos.getD c 0) pos with h | h
        · exact h
        · have hco : E.orderPos.getD c 0 = pos := by omega
          have := (hwf.orderPos_inv c hc).1
          rw [hco] at this
          exact absurd this.symm hne
      exact H c hc hdec2

theorem deltaCount_compSize {E : EnumIn} (hwf : EnumWF E) (a : List ℕ)
    (q : List ℕ → Bool) (hlen : a.length = E.compSize) (ha1 : ∀ v ∈ a, v ≤ 1) :
    deltaCount E E.compSize a q = if q a then 1 else 0 := by
  have hmem : a ∈ allAssignments E.compSize :=
    (mem_allAssignments _ a).mpr ⟨hlen, ha1⟩
  rw [deltaCount, length_filter_nodup_unique _ _ a (nodup_allAssignments _) hmem ?uniq]
  case uniq =>
    intro x hx hpx
    simp only [Bool.and_eq_true] at hpx
    exact (extFrom_compSize_iff hwf a x hlen
      ((mem_allAssignments _ x).mp hx).1).mp hpx.1.1
  have hext : extFrom E E.compSize a a = true :=
    (extFrom_compSize_iff hwf a a hlen hlen).mpr rfl
  rw [hext, satFrom_compSize hwf, Bool.true_and, Bool.true_and]

theorem deltaCount_succ {E : EnumIn} (hwf : EnumWF E) (pos : ℕ)
    (hpos : pos < E.compSize) (a : List ℕ) (hlen : a.length = E.compSize)
    (q : List ℕ → Bool) :
    deltaCount E pos a q =
      (if checkCell E pos (a.set (E.order.getD pos 0) 1) (E.order.getD pos 0) then
        deltaCount E (pos + 1) (a.set (E.order.getD pos 0) 1) q else 0) +
      (if checkCell E pos (a.set (E.order.getD pos 0) 0) (E.order.getD pos 0) then
        deltaCount E (pos + 1) (a.set (E.order.getD pos 0) 0) q else 0) := by
  have hB : ∀ v : ℕ,
      ((allAssignments E.compSize).filter fun x =>
        extFrom E (pos + 1) (a.set (E.order.getD pos 0) v) x &&
          satFrom E pos x && q x).length =
      (if checkCell E pos (a.set (E.order.getD pos 0) v) (E.order.getD pos 0) then
        deltaCount E (pos + 1) (a.set (E.order.getD pos 0) v) q else 0) := by
    intro v
    by_cases hchk : checkCell E pos (a.set (E.order.getD pos 0) v) (E.order.getD pos 0)
    · rw [if_pos hchk, deltaCount]
      apply congrArg List.length
      apply List.filter_congr
      intro x hx
      rcases Bool.eq_false_or_eq_true
          (extFrom E (pos + 1) (a.set (E.order.getD pos 0) v) x) with hext | hext
      · rw [hext, check_pass_sat hwf pos hpos _ x hchk hx hext]
      · rw [hext]
        simp
    · rw [if_neg hchk]
      rw [List.length_eq_zero, List.filter_eq_nil_iff]
      intro x hx hpx
      simp only [Bool.and_eq_true] at hpx
      have hsat := check_fail_no_sat hwf pos hpos _ x
        (Bool.eq_false_iff.mpr hchk) hx hpx.1.1
      rw [hsat] at hpx
      exact absurd hpx.1.2 (by simp)
  rw [deltaCount,
    length_filter_split _ _ (fun x => decide (x.getD (E.order.getD pos 0) 0 = 1)),
    ← hB 1, ← hB 0]
  congr 1
  · apply congrArg List.length
    apply List.filter_congr
    intro x hx
    rw [← Bool.coe_iff_coe]
    simp only [Bool.and_eq_true, decide_eq_true_eq]
    constructor
    · rintro ⟨⟨⟨hext, hsat⟩, hq⟩, hv⟩
      exact ⟨⟨(extFrom_succ_iff hwf pos hpos a x hlen 1).mpr ⟨hext, hv⟩, hsat⟩, hq⟩
    · rintro ⟨⟨hext, hsat⟩, hq⟩
      rcases (extFrom_succ_iff hwf pos hpos a x hlen 1).mp hext with ⟨h1, h2⟩
      exact ⟨⟨⟨h1, hsat⟩, hq⟩, h2⟩
  · apply congrArg List.length
    apply List.filter_congr
    intro x hx
    have hle1 : x.getD (E.order.getD pos 0) 0 ≤ 1 :=
      getD_le_one x ((mem_allAssignments _ x).mp hx).2 _
    rw [← Bool.coe_iff_coe]
    simp only [Bool.and_eq_true, Bool.not_eq_true', decide_eq_false_iff_not]
    constructor
    · rintro ⟨⟨⟨hext, hsat⟩, hq⟩, hv⟩
      have hv0 : x.getD (E.order.getD pos 0) 0 = 0 := by omega
      exact ⟨⟨(extFrom_succ_iff hwf pos hpos a x hlen 0).mpr ⟨hext, hv0⟩, hsat⟩, hq⟩
    · rintro ⟨⟨hext, hsat⟩, hq⟩
      rcases (extFrom_succ_iff hwf pos hpos a x hlen 0).mp hext with ⟨h1, h2⟩
      exact ⟨⟨⟨h1, hsat⟩, hq⟩, by omega⟩

/-! ## The leaf bookkeeping, characterized -/

theorem bumpRows_length (a : List ℕ) (numBad : ℕ) (bc : List (List ℚ)) (n : ℕ) :
    ((List.range n).foldl
      (fun bc i =>
        if a.getD i 0 ≠ 0 then
          bc.set i ((bc.getD i []).set numBad ((bc.getD i []).getD numBad 0 + 1))
        else bc)
      bc).length = bc.length := by
  induction n generalizing bc with
  | zero => rfl
  | succ n ih =>
    rw [List.range_succ, List.foldl_append]
    simp only [List.foldl_cons, List.foldl_nil]
    by_cases hn : a.getD n 0 ≠ 0
    · rw [if_pos hn, List.length_set, ih]
    · rw [if_neg hn, ih]

theorem bumpRows_getD_char (a : List ℕ) (numBad : ℕ) (bc : List (List ℚ))
    (n : ℕ) (hn : n ≤ bc.length) (j : ℕ) :
    ((List.range n).foldl
      (fun bc i =>
        if a.getD i 0 ≠ 0 then
          bc.set i ((bc.getD i []).set numBad ((bc.getD i []).getD numBad 0 + 1))
        else bc)
      bc).getD j [] =
      if j < n ∧ a.getD j 0 ≠ 0 then
        (bc.getD j []).set numBad ((bc.getD j []).getD numBad 0 + 1)
      else bc.getD j [] := by
  induction n generalizing j with
  | zero =>
    rw [if_neg (by omega)]
    rfl
  | succ n ih =>
    rw [List.range_succ, List.foldl_append]
    simp only [List.foldl_cons, List.foldl_nil]
    have hlen : ((List.range n).foldl
        (fun bc i =>
          if a.getD i 0 ≠ 0 then
            bc.set i ((bc.getD i []).set numBad ((bc.getD i []).getD numBad 0 + 1))
          else bc)
        bc).length = bc.length := bumpRows_length a numBad bc n
    by_cases hb : a.getD n 0 ≠ 0
    · rw [if_pos hb, getD_set_general]
      by_cases hj : j = n
      · subst hj
        rw [if_pos ⟨rfl, by omega⟩, ih (by omega) j, if_neg (by omega),
          if_pos ⟨by omega, hb⟩]
      · rw [if_neg (fun hc => hj hc.1), ih (by omega) j]
        by_cases hjn : j < n ∧ a.getD j 0 ≠ 0
        · rw [if_pos hjn, if_pos ⟨by omega, hjn.2⟩]
        · have hneg : ¬ (j < n + 1 ∧ a.getD j 0 ≠ 0) := by
            rw [not_and_or] at hjn ⊢
            rcases hjn with h | h
            · left
              omega
            · right
              exact h
          rw [if_neg hjn, if_neg hneg]
    · rw [if_neg hb, ih (by omega) j]
      by_cases hjn : j < n ∧ a.getD j 0 ≠ 0
      · rw [if_pos hjn, if_pos ⟨by omega, hjn.2⟩]
      · rw [if_neg hjn]
        rw [not_and_or] at hjn
        rcases hjn with h | h
        · by_cases hj : j = n
          · subst hj
            rw [if_neg (fun hc => hb hc.2)]
          · rw [if_neg (by rw [not_and_or]; left; omega)]
        · rw [if_neg (by rw [not_and_or]; right; exact h)]

theorem deltaCount_zero_of_budget {E : EnumIn} (pos : ℕ) (a : List ℕ)
    (hlen : a.length = E.compSize)
    (hzero : ∀ c < E.compSize, pos ≤ E.orderPos.getD c 0 → a.getD c 0 = 0)
    (hnb : E.remainingBad < a.sum)
    (q : List ℕ → Bool) (hq : ∀ x, q x = true → x.sum ≤ E.remainingBad) :
    deltaCount E pos a q = 0 := by
  rw [deltaCount, List.length_eq_zero, List.filter_eq_nil_iff]
  intro x hx hpx
  simp only [Bool.and_eq_true] at hpx
  have hxlen := ((mem_allAssignments _ x).mp hx).1
  have hle := sum_le_of_extFrom pos a x hlen hxlen hzero hpx.1.1
  have hqx := hq x hpx.2
  omega

theorem bumpLeaf_char (E : EnumIn) (numBad : ℕ) (a : List ℕ) (st : EnumState)
    (hL1 : st.1.length = E.compSize + 1)
    (hL2 : st.2.length = E.compSize)
    (hL3 : ∀ r ∈ st.2, r.length = E.compSize + 1)
    (hnb : numBad ≤ E.compSize) :
    ((bumpLeaf E numBad a st).1.length = E.compSize + 1 ∧
     (bumpLeaf E numBad a st).2.length = E.compSize ∧
     (∀ r ∈ (bumpLeaf E numBad a st).2, r.length = E.compSize + 1)) ∧
    (∀ k, (bumpLeaf E numBad a st).1.getD k 0 =
       st.1.getD k 0 + if k = numBad then 1 else 0) ∧
    (∀ i, i < E.compSize → ∀ k,
       ((bumpLeaf E numBad a st).2.getD i []).getD k 0 =
       (st.2.getD i []).getD k 0 +
         if k = numBad ∧ a.getD i 0 ≠ 0 then 1 else 0) := by
  have hrow : ∀ j, j < E.compSize → (st.2.getD j []).length = E.compSize + 1 := by
    intro j hj
    have hjl : j < st.2.length := by omega
    rw [List.getD_eq_getElem _ _ hjl]
    exact hL3 _ (List.getElem_mem hjl)
  refine ⟨⟨?_, ?_, ?_⟩, ?_, ?_⟩
  · simp only [bumpLeaf, List.length_set]
    exact hL1
  · simp only [bumpLeaf]
    rw [bumpRows_length]
    exact hL2
  · intro r hr
    simp only [bumpLeaf] at hr
    rcases List.mem_iff_getElem.mp hr with ⟨j, hjlen, hjval⟩
    rw [bumpRows_length] at hjlen
    have hjs : j < E.compSize := by omega
    rw [← List.getD_eq_getElem _ [] (by rw [bumpRows_length]; exact hjlen)] at hjval
    rw [bumpRows_getD_char a numBad st.2 E.compSize (by omega) j] at hjval
    by_cases hcond : j < E.compSize ∧ a.getD j 0 ≠ 0
    · rw [if_pos hcond] at hjval
      rw [← hjval, List.length_set]
      exact hrow j hjs
    · rw [if_neg hcond] at hjval
      rw [← hjval]
      exact hrow j hjs
  · intro k
    simp only [bumpLeaf]
    rw [getD_set_general]
    by_cases hk : k = numBad
    · rw [if_pos ⟨hk, by omega⟩, if_pos hk, hk]
    · rw [if_neg (fun hc => hk hc.1), if_neg hk, add_zero]
  · intro i hi k
    simp only [bumpLeaf]
    rw [bumpRows_getD_char a numBad st.2 E.compSize (by omega) i]
    by_cases hcond : i < E.compSize ∧ a.getD i 0 ≠ 0
    · rw [if_pos hcond, getD_set_general]
      by_cases hk : k = numBad
      · rw [if_pos ⟨hk, by rw [hrow i hi]; omega⟩, if_pos ⟨hk, hcond.2⟩, hk]
      · rw [if_neg (fun hc => hk hc.1), if_neg (fun hc => hk hc.1), add_zero]
    · have hai : ¬ a.getD i 0 ≠ 0 := by
        intro hne
        exact hcond ⟨hi, hne⟩
      rw [if_neg hcond, if_neg (fun hc => hai hc.2), add_zero]

/-- The conclusion of the master run lemma: the enumeration adds to each
`counts[k]` the number of accepted completions with `k` bad cells, and to
each `badCnts[i][k]` the number of those in which cell `i` is bad. -/
def MasterOut (E : EnumIn) (pos : ℕ) (a : List ℕ) (st res : EnumState) : Prop :=
  (res.1.length = E.compSize + 1 ∧ res.2.length = E.compSize ∧
    (∀ r ∈ res.2, r.length = E.compSize + 1)) ∧
  (∀ k, res.1.getD k 0 = st.1.getD k 0 +
     (deltaCount E pos a (fun x => x.sum == k && decide (k ≤ E.remainingBad)) : ℚ)) ∧
  (∀ i, i < E.compSize → ∀ k,
     (res.2.getD i []).getD k 0 = (st.2.getD i []).getD k 0 +
     (deltaCount E pos a
       (fun x => x.sum == k && decide (k ≤ E.remainingBad) && x.getD i 0 == 1) : ℚ))

theorem masterOut_prune {E : EnumIn} (pos : ℕ) (a : List ℕ) (st : EnumState)
    (hlen : a.length = E.compSize)
    (hzero : ∀ c < E.compSize, pos ≤ E.orderPos.getD c 0 → a.getD c 0 = 0)
    (hgt : E.remainingBad < a.sum)
    (hL1 : st.1.length = E.compSize + 1) (hL2 : st.2.length = E.compSize)
    (hL3 : ∀ r ∈ st.2, r.length = E.compSize + 1) :
    MasterOut E pos a st st := by
  refine ⟨⟨hL1, hL2, hL3⟩, ?_, ?_⟩
  · intro k
    rw [deltaCount_zero_of_budget pos a hlen hzero hgt _ ?_]
    · simp
    · intro x hx
      simp only [Bool.and_eq_true, beq_iff_eq, decide_eq_true_eq] at hx
      omega
  · intro i _ k
    rw [deltaCount_zero_of_budget pos a hlen hzero hgt _ ?_]
    · simp
    · intro x hx
      simp only [Bool.and_eq_true, beq_iff_eq, decide_eq_true_eq] at hx
      omega

theorem masterOut_leaf {E : EnumIn} (hwf : EnumWF E) (numBad : ℕ)
    (a : List ℕ) (st : EnumState)
    (hlen : a.length = E.compSize) (ha1 : ∀ v ∈ a, v ≤ 1)
    (hnb : numBad = a.sum) (hle : ¬ numBad > E.remainingBad)
    (hL1 : st.1.length = E.compSize + 1) (hL2 : st.2.length = E.compSize)
    (hL3 : ∀ r ∈ st.2, r.length = E.compSize + 1) :
    MasterOut E E.compSize a st (bumpLeaf E numBad a st) := by
  have hnbs : numBad ≤ E.compSize := by
    rw [hnb]
    exact le_trans (sum_le_length a ha1) (le_of_eq hlen)
  obtain ⟨hLs, hCs, hRs⟩ := bumpLeaf_char E numBad a st hL1 hL2 hL3 hnbs
  refine ⟨hLs, ?_, ?_⟩
  · intro k
    rw [hCs k, deltaCount_compSize hwf a _ hlen ha1]
    by_cases hk : k = numBad
    · have hq : (a.sum == k && decide (k ≤ E.remainingBad)) = true := by
        simp only [Bool.and_eq_true, beq_iff_eq, decide_eq_true_eq]
        omega
      rw [hq, if_pos hk]
      norm_num
    · have hq : (a.sum == k && decide (k ≤ E.remainingBad)) = false := by
        rw [Bool.and_eq_false_iff]
        left
        simp only [beq_eq_false_iff_ne, ne_eq]
        omega
      rw [hq, if_neg hk]
      norm_num
  · intro i hi k
    rw [hRs i hi k, deltaCount_compSize hwf a _ hlen ha1]
    have hai : a.getD i 0 ≤ 1 := getD_le_one a ha1 i
    by_cases hcond : k = numBad ∧ a.getD i 0 ≠ 0
    · have hq : (a.sum == k && decide (k ≤ E.remainingBad) && a.getD i 0 == 1) = true := by
        simp only [Bool.and_eq_true, beq_iff_eq, decide_eq_true_eq]
        refine ⟨⟨by omega, by omega⟩, by omega⟩
      rw [hq, if_pos hcond]
      norm_num
    · have hq : (a.sum == k && decide (k ≤ E.remainingBad) && a.getD i 0 == 1) = false := by
        rw [Bool.and_eq_false_iff]
        rw [not_and_or] at hcond
        rcases hcond with h | h
        · left
          rw [Bool.and_eq_false_iff]
          left
          simp only [beq_eq_false_iff_ne, ne_eq]
          omega
        · right
          simp only [beq_eq_false_iff_ne, ne_eq]
          omega
      rw [hq, if_neg hcond]
      norm_num

theorem enumerateComponent_master {E : EnumIn} (hwf : EnumWF E) :
    ∀ (fuel pos numBad : ℕ) (a : List ℕ) (st : EnumState),
      E.compSize ≤ fuel + pos → pos ≤ E.compSize →
      a.length = E.compSize → (∀ v ∈ a, v ≤ 1) →
      (∀ c < E.compSize, pos ≤ E.orderPos.getD c 0 → a.getD c 0 = 0) →
      numBad = a.sum →
      st.1.length = E.compSize + 1 → st.2.length = E.compSize →
      (∀ r ∈ st.2, r.length = E.compSize + 1) →
      MasterOut E pos a st (enumerateComponent E fuel pos numBad a st) := by
  intro fuel
  induction fuel with
  | zero =>
    intro pos numBad a st hfuel hpos hlen ha1 hzero hnb hL1 hL2 hL3
    have hpe : pos = E.compSize := by omega
    subst hpe
    rw [enumerateComponent]
    by_cases hgt : numBad > E.remainingBad
    · rw [if_pos hgt]
      exact masterOut_prune _ a st hlen hzero (by omega) hL1 hL2 hL3
    · rw [if_neg hgt, if_pos rfl]
      exact masterOut_leaf hwf numBad a st hlen ha1 hnb hgt hL1 hL2 hL3
  | succ fuel ih =>
    intro pos numBad a st hfuel hpos hlen ha1 hzero hnb hL1 hL2 hL3
    rw [enumerateComponent]
    by_cases hgt : numBad > E.remainingBad
    · rw [if_pos hgt]
      exact masterOut_prune _ a st hlen hzero (by omega) hL1 hL2 hL3
    · by_cases hpe : pos = E.compSize
      · rw [if_neg hgt, if_pos hpe]
        subst hpe
        exact masterOut_leaf hwf numBad a st hlen ha1 hnb hgt hL1 hL2 hL3
      · rw [if_neg hgt, if_neg hpe]
        simp only
        have hpos2 : pos < E.compSize := by omega
        have hcell : E.order.getD pos 0 < E.compSize := hwf.order_getD_lt pos hpos2
        have hopc : E.orderPos.getD (E.order.getD pos 0) 0 = pos := hwf.2.2.1 pos hpos2
        have hacell : a.getD (E.order.getD pos 0) 0 = 0 :=
          hzero _ hcell (by omega)
        have hcla : E.order.getD pos 0 < a.length := by omega
        -- invariants for the two updated partial assignments
        have hAv : ∀ v : ℕ, v ≤ 1 →
            ((a.set (E.order.getD pos 0) v).length = E.compSize ∧
             (∀ w ∈ a.set (E.order.getD pos 0) v, w ≤ 1) ∧
             (∀ c < E.compSize, pos + 1 ≤ E.orderPos.getD c 0 →
               (a.set (E.order.getD pos 0) v).getD c 0 = 0) ∧
             (a.set (E.order.getD pos 0) v).sum = a.sum + v) := by
          intro v hv
          refine ⟨by rw [List.length_set]; exact hlen, ?_, ?_, ?_⟩
          · intro w hw
            rcases List.mem_or_eq_of_mem_set hw with h | h
            · exact ha1 w h
            · omega
          · intro c hc hge
            have hne : ¬ (c = E.order.getD pos 0) := by
              intro he
              rw [he, hopc] at hge
              omega
            rw [getD_set_general, if_neg (fun hco => hne hco.1)]
            exact hzero c hc (by omega)
          · rw [sum_set_add a _ v hcla hacell]
        -- the state after the val = 0 branch
        have hst0 : ((if checkCell E pos (a.set (E.order.getD pos 0) 0) (E.order.getD pos 0) then
              enumerateComponent E fuel (pos + 1) numBad (a.set (E.order.getD pos 0) 0) st
            else st).1.length = E.compSize + 1 ∧
            (if checkCell E pos (a.set (E.order.getD pos 0) 0) (E.order.getD pos 0) then
              enumerateComponent E fuel (pos + 1) numBad (a.set (E.order.getD pos 0) 0) st
            else st).2.length = E.compSize ∧
            (∀ r ∈ (if checkCell E pos (a.set (E.order.getD pos 0) 0) (E.order.getD pos 0) then
              enumerateComponent E fuel (pos + 1) numBad (a.set (E.order.getD pos 0) 0) st
            else st).2, r.length = E.compSize + 1)) ∧
            (∀ k, (if checkCell E pos (a.set (E.order.getD pos 0) 0) (E.order.getD pos 0) then
              enumerateComponent E fuel (pos + 1) numBad (a.set (E.order.getD pos 0) 0) st
            else st).1.getD k 0 = st.1.getD k 0 +
              ((if checkCell E pos (a.set (E.order.getD pos 0) 0) (E.order.getD pos 0) then
                deltaCount E (pos + 1) (a.set (E.order.getD pos 0) 0)
                  (fun x => x.sum == k && decide (k ≤ E.remainingBad)) else 0 : ℕ) : ℚ)) ∧
            (∀ i, i < E.compSize → ∀ k,
              ((if checkCell E pos (a.set (E.order.getD pos 0) 0) (E.order.getD pos 0) then
                enumerateComponent E fuel (pos + 1) numBad (a.set (E.order.getD pos 0) 0) st
              else st).2.getD i []).getD k 0 = (st.2.getD i []).getD k 0 +
              ((if checkCell E pos (a.set (E.order.getD pos 0) 0) (E.order.getD pos 0) then
                deltaCount E (pos + 1) (a.set (E.order.getD pos 0) 0)
                  (fun x => x.sum == k && decide (k ≤ E.remainingBad) && x.getD i 0 == 1)
                else 0 : ℕ) : ℚ)) := by
          by_cases hchk : checkCell E pos (a.set (E.order.getD pos 0) 0) (E.order.getD pos 0)
          · simp only [if_pos hchk]
            obtain ⟨hA1, hA2, hA3, hA4⟩ := hAv 0 (by omega)
            have := ih (pos + 1) numBad (a.set (E.order.getD pos 0) 0) st
              (by omega) (by omega) hA1 hA2 hA3 (by omega) hL1 hL2 hL3
            exact ⟨this.1, this.2.1, this.2.2⟩
          · simp only [if_neg hchk]
            refine ⟨⟨hL1, hL2, hL3⟩, ?_, ?_⟩
            · intro k
              norm_num
            · intro i _ k
              norm_num
        obtain ⟨⟨hs01, hs02, hs03⟩, hs0C, hs0R⟩ := hst0
        by_cases hchk1 : checkCell E pos (a.set (E.order.getD pos 0) 1) (E.order.getD pos 0)
        · rw [if_pos hchk1]
          obtain ⟨hB1, hB2, hB3, hB4⟩ := hAv 1 (by omega)
          have hres := ih (pos + 1) (numBad + 1) (a.set (E.order.getD pos 0) 1) _
            (by omega) (by omega) hB1 hB2 hB3 (by omega) hs01 hs02 hs03
          refine ⟨hres.1, ?_, ?_⟩
          · intro k
            rw [hres.2.1 k, hs0C k,
              deltaCount_succ hwf pos hpos2 a hlen
                (fun x => x.sum == k && decide (k ≤ E.remainingBad)),
              if_pos hchk1]
            push_cast
            ring
          · intro i hi k
            rw [hres.2.2 i hi k, hs0R i hi k,
              deltaCount_succ hwf pos hpos2 a hlen
                (fun x => x.sum == k && decide (k ≤ E.remainingBad) && x.getD i 0 == 1),
              if_pos hchk1]
            push_cast
            ring
        · rw [if_neg hchk1]
          refine ⟨⟨hs01, hs02, hs03⟩, ?_, ?_⟩
          · intro k
            rw [hs0C k,
              deltaCount_succ hwf pos hpos2 a hlen
                (fun x => x.sum == k && decide (k ≤ E.remainingBad)),
              if_neg hchk1]
            push_cast
            ring
          · intro i hi k
            rw [hs0R i hi k,
              deltaCount_succ hwf pos hpos2 a hlen
                (fun x => x.sum == k && decide (k ≤ E.remainingBad) && x.getD i 0 == 1),
              if_neg hchk1]
            push_cast
            ring

/-! ## Claim C3: the pruned enumeration is exact -/

/-- The number of complete bad/safe assignments of the component's cells
that satisfy all local constraints and have exactly `k` bad cells. -/
def modelCount (E : EnumIn) (k : ℕ) : ℕ :=
  ((allAssignments E.compSize).filter fun x =>
    satisfiesAll E.localConstraints x && x.sum == k).length

/-- Among the assignments counted by `modelCount E k`, those in which cell
`i` is bad. -/
def modelBadCount (E : EnumIn) (i k : ℕ) : ℕ :=
  ((allAssignments E.compSize).filter fun x =>
    satisfiesAll E.localConstraints x && x.sum == k && x.getD i 0 == 1).length

theorem extFrom_zero (E : EnumIn) (a x : List ℕ) : extFrom E 0 a x = true :=
  (extFrom_iff E 0 a x).mpr fun _ _ h => absurd h (Nat.not_lt_zero _)

theorem enumRun_spec {E : EnumIn} (hwf : EnumWF E) :
    MasterOut E 0 (List.replicate E.compSize 0)
      (List.replicate (E.compSize + 1) 0,
       List.replicate E.compSize (List.replicate (E.compSize + 1) 0))
      (enumRun E) := by
  apply enumerateComponent_master hwf E.compSize 0 0
  · omega
  · exact Nat.zero_le _
  · exact List.length_replicate _ _
  · intro v hv
    rw [List.eq_of_mem_replicate hv]
    exact Nat.zero_le 1
  · intro c _ _
    rw [getD_replicate, ite_self]
  · rw [List.sum_replicate]
    simp
  · exact List.length_replicate _ _
  · exact List.length_replicate _ _
  · intro r hr
    rw [List.eq_of_mem_replicate hr]
    exact List.length_replicate _ _

/-- C3: under the well-formedness of the inputs that `solve` constructs
(`order` a permutation with inverse `orderPos`, nonempty in-range
constraints, `cellConstraints` the exact incidence lists), the backtracking
enumeration with cell-ordering heuristic, incremental range pruning and
global budget pruning produces exact counts: for every `k ≤ remainingBad`,
`counts[k]` is the number of complete assignments satisfying all local
constraints with exactly `k` bad cells, `badCnts[i][k]` is the number of
those with cell `i` bad, and `badCnts[i][k] ≤ counts[k]` for every cell
and every `k`. -/
theorem C3_enumeration_exact (E : EnumIn) (hwf : EnumWF E) :
    (∀ k, k ≤ E.remainingBad → (enumRun E).1.getD k 0 = (modelCount E k : ℚ)) ∧
    (∀ i, i < E.compSize → ∀ k, k ≤ E.remainingBad →
      ((enumRun E).2.getD i []).getD k 0 = (modelBadCount E i k : ℚ)) ∧
    (∀ i, i < E.compSize → ∀ k,
      ((enumRun E).2.getD i []).getD k 0 ≤ (enumRun E).1.getD k 0) := by
  obtain ⟨-, hC, hR⟩ := enumRun_spec hwf
  have hinitC : ∀ k, (List.replicate (E.compSize + 1) (0 : ℚ)).getD k 0 = 0 := by
    intro k
    rw [getD_replicate, ite_self]
  have hinitR : ∀ i k,
      ((List.replicate E.compSize (List.replicate (E.compSize + 1) (0:ℚ))).getD i []).getD k 0 = 0 := by
    intro i k
    rw [getD_replicate]
    by_cases hi : i < E.compSize
    · rw [if_pos hi, getD_replicate, ite_self]
    · rw [if_neg hi]
      rfl
  refine ⟨?_, ?_, ?_⟩
  · intro k hk
    rw [hC k, hinitC, zero_add]
    congr 1
    rw [deltaCount, modelCount]
    apply congrArg List.length
    apply List.filter_congr
    intro x hx
    rw [extFrom_zero, satFrom_zero, Bool.true_and, decide_eq_true hk, Bool.and_true]
  · intro i hi k hk
    rw [hR i hi k, hinitR, zero_add]
    congr 1
    rw [deltaCount, modelBadCount]
    apply congrArg List.length
    apply List.filter_congr
    intro x hx
    rw [extFrom_zero, satFrom_zero, Bool.true_and, decide_eq_true hk]
    rw [← Bool.coe_iff_coe]
    simp only [Bool.and_eq_true, Bool.and_true]
    tauto
  · intro i hi k
    rw [hC k, hR i hi k, hinitC, hinitR, zero_add, zero_add]
    rw [Nat.cast_le]
    rw [deltaCount, deltaCount]
    have hcong :
        ((allAssignments E.compSize).filter fun x =>
          extFrom E 0 (List.replicate E.compSize 0) x && satFrom E 0 x &&
            (x.sum == k && decide (k ≤ E.remainingBad) && x.getD i 0 == 1)) =
        ((allAssignments E.compSize).filter fun x =>
          (extFrom E 0 (List.replicate E.compSize 0) x && satFrom E 0 x &&
            (x.sum == k && decide (k ≤ E.remainingBad))) && x.getD i 0 == 1) := by
      apply List.filter_congr
      intro x hx
      rw [← Bool.coe_iff_coe]
      simp only [Bool.and_eq_true]
      tauto
    rw [hcong]
    exact length_filter_and_le _ _ _

/-- Witness for C3: a two-cell component with one constraint requiring
exactly one bad cell among both cells, budget 2. -/
theorem C3_witness :
    EnumWF ⟨2, 2, [0, 1], [0, 1], [[0], [0]], [⟨[0, 1], 1, 1⟩]⟩ ∧
    ((∀ k, k ≤ (⟨2, 2, [0, 1], [0, 1], [[0], [0]], [⟨[0, 1], 1, 1⟩]⟩ : EnumIn).remainingBad →
      (enumRun ⟨2, 2, [0, 1], [0, 1], [[0], [0]], [⟨[0, 1], 1, 1⟩]⟩).1.getD k 0 =
        (modelCount ⟨2, 2, [0, 1], [0, 1], [[0], [0]], [⟨[0, 1], 1, 1⟩]⟩ k : ℚ)) ∧
    (∀ i, i < (⟨2, 2, [0, 1], [0, 1], [[0], [0]], [⟨[0, 1], 1, 1⟩]⟩ : EnumIn).compSize →
      ∀ k, k ≤ (⟨2, 2, [0, 1], [0, 1], [[0], [0]], [⟨[0, 1], 1, 1⟩]⟩ : EnumIn).remainingBad →
      ((enumRun ⟨2, 2, [0, 1], [0, 1], [[0], [0]], [⟨[0, 1], 1, 1⟩]⟩).2.getD i []).getD k 0 =
        (modelBadCount ⟨2, 2, [0, 1], [0, 1], [[0], [0]], [⟨[0, 1], 1, 1⟩]⟩ i k : ℚ)) ∧
    (∀ i, i < (⟨2, 2, [0, 1], [0, 1], [[0], [0]], [⟨[0, 1], 1, 1⟩]⟩ : EnumIn).compSize →
      ∀ k, ((enumRun ⟨2, 2, [0, 1], [0, 1], [[0], [0]], [⟨[0, 1], 1, 1⟩]⟩).2.getD i []).getD k 0 ≤
        (enumRun ⟨2, 2, [0, 1], [0, 1], [[0], [0]], [⟨[0, 1], 1, 1⟩]⟩).1.getD k 0)) :=
  ⟨by decide, C3_enumeration_exact _ (by decide)⟩

/-! ## The early return paths of `solve` -/

theorem nodup_unknownCells (g : ℕ → CellContent) : (unknownCells g).Nodup :=
  (List.nodup_range _).filter _

theorem applyWrites_const_at (bp : ℕ → ℚ) (l : List ℕ) (v : ℚ) (j : ℕ)
    (hnd : l.Nodup) :
    applyWrites bp (l.map fun i => (i, v)) j = if j ∈ l then v else bp j := by
  have hfst : (List.map (fun i => (i, v)) l).map Prod.fst = l := by
    simp [List.map_map, Function.comp_def]
  by_cases hj : j ∈ l
  · rw [if_pos hj]
    exact applyWrites_eq_of_mem bp _ j v (by rw [hfst]; exact hnd)
      (List.mem_map.mpr ⟨j, hj, rfl⟩)
  · rw [if_neg hj]
    exact applyWrites_of_not_mem bp _ j (by rw [hfst]; exact hj)

theorem solveProb_remZero (g : ℕ → CellContent) (p : ℕ → ℚ)
    (h2 : remainingBadI g ≤ 0) (i : ℕ) (hi : i ∈ unknownCells g) :
    solveProb g p i = 0 := by
  rw [solveProb]
  simp only
  rw [if_neg (by simp [List.isEmpty_iff]; exact List.ne_nil_of_mem hi),
    if_pos h2, applyWrites_const_at _ _ _ _ (nodup_unknownCells g), if_pos hi]

theorem solveProb_noClue (g : ℕ → CellContent) (p : ℕ → ℚ)
    (h2 : ¬ remainingBadI g ≤ 0) (h3 : (constraintCells g).isEmpty)
    (i : ℕ) (hi : i ∈ unknownCells g) :
    solveProb g p i = uniformProb g := by
  rw [solveProb]
  simp only
  rw [if_neg (by simp [List.isEmpty_iff]; exact List.ne_nil_of_mem hi),
    if_neg h2, if_pos h3, applyWrites_const_at _ _ _ _ (nodup_unknownCells g),
    if_pos hi]

theorem solveProb_fallback (g : ℕ → CellContent) (p : ℕ → ℚ)
    (h2 : ¬ remainingBadI g ≤ 0) (h3 : ¬ (constraintCells g).isEmpty)
    (h4 : worldsTotal g ≤ 0)
    (i : ℕ) (hi : i ∈ unknownCells g) :
    solveProb g p i = uniformProb g := by
  rw [solveProb]
  simp only
  rw [if_neg (by simp [List.isEmpty_iff]; exact List.ne_nil_of_mem hi),
    if_neg h2, if_neg h3, if_pos h4,
    applyWrites_const_at _ _ _ _ (nodup_unknownCells g), if_pos hi]

/-- C7: when all `TOTAL_BAD` bad items are revealed (`remainingBad = 0`),
every still-hidden cell's probability is exactly 0 after `solve`. -/
theorem C7_all_bad_found (g : ℕ → CellContent) (p : ℕ → ℚ)
    (hkb : knownBad g = TOTAL_BAD) (i : ℕ) (hi : i < TOTAL_CELLS)
    (hU : g i = Undug) : solveProb g p i = 0 := by
  apply solveProb_remZero g p (by rw [remainingBadI, hkb]; omega)
  exact (mem_unknownCells g i).mpr ⟨hi, by rw [hU]; rfl, by rw [hU]; rfl⟩

/-- A concrete board with all 16 bad items revealed: bombs on cells 0–15. -/
def gAllFound : ℕ → CellContent := fun i => if i < 16 then Bomb else Undug

/-- Witness for C7: on `gAllFound`, the hidden cell 39 gets probability 0. -/
theorem C7_witness :
    knownBad gAllFound = TOTAL_BAD ∧ 39 < TOTAL_CELLS ∧ gAllFound 39 = Undug ∧
    solveProb gAllFound (fun _ => 0) 39 = 0 :=
  ⟨by decide, by decide, by decide,
   C7_all_bad_found gAllFound (fun _ => 0) (by decide) 39 (by decide) (by decide)⟩

/-- C4: when the main solver path detects a contradiction (`totalWays ≤ 0`
at the global combination step), every hidden cell is assigned the uniform
fallback `remainingBad / |hiddenCells|`, and `solve` completes (it is a
total function producing no NaN: over `ℚ` the division is exact and
`|hiddenCells| > 0` on this path). -/
theorem C4_contradiction_fallback (g : ℕ → CellContent) (p : ℕ → ℚ)
    (h2 : 0 < remainingBadI g) (h3 : constraintCells g ≠ [])
    (h4 : worldsTotal g ≤ 0) (i : ℕ) (hi : i < TOTAL_CELLS)
    (hU : g i = Undug) :
    solveProb g p i =
      (remainingBadI g : ℚ) / ((unknownCells g).length : ℚ) := by
  have := solveProb_fallback g p (by omega) (by simpa [List.isEmpty_iff] using h3)
    h4 i ((mem_unknownCells g i).mpr ⟨hi, by rw [hU]; rfl, by rw [hU]; rfl⟩)
  rw [this, uniformProb]

/-! ## Concrete contradictory board: 39 Green clues and one hidden cell -/

theorem convolve_length (a b : List ℚ) (ha : a ≠ []) (hb : b ≠ []) :
    (convolve a b).length = a.length + b.length - 1 := by
  rw [convolve, if_neg (by simp [List.isEmpty_iff, ha, hb])]
  simp

theorem clampQ_bounds (x : ℚ) : 0 ≤ clampQ x ∧ clampQ x ≤ 1 := by
  rw [clampQ]
  by_cases h1 : x < 0
  · rw [if_pos h1]
    norm_num
  · rw [if_neg h1]
    by_cases h2 : x > 1
    · rw [if_pos h2]
      norm_num
    · rw [if_neg h2]
      exact ⟨le_of_not_lt h1, le_of_not_lt h2⟩

/-- The board with a single hidden cell (index 39) and Green clues
everywhere else.  The clues adjacent to cell 39 force it safe, but the
global budget demands 16 more bad items in a single hidden cell: the state
is contradictory, `totalWays = 0`. -/
def gOneHidden : ℕ → CellContent := fun i => if i = 39 then Undug else Green

theorem gOneHidden_members : compMembers gOneHidden 0 = [0] := by decide

theorem gOneHidden_roots : compRoots gOneHidden = [0] := by decide

theorem gOneHidden_enumIn :
    enumInOf gOneHidden 0 =
      ⟨1, 16, [0], [0], [[0, 1, 2]],
       [⟨[0], 0, 0⟩, ⟨[0], 0, 0⟩, ⟨[0], 0, 0⟩]⟩ := by
  have hccs : cellConstraintsOf gOneHidden 0 = [[0, 1, 2]] := by decide
  have hlcs : localConstraintsOf gOneHidden 0 =
      [⟨[0], 0, 0⟩, ⟨[0], 0, 0⟩, ⟨[0], 0, 0⟩] := by decide
  have hord : orderOf gOneHidden 0 = [0] := by
    rw [orderOf, gOneHidden_members]
    norm_num [List.range_succ]
  have hop : orderPosOf gOneHidden 0 = [0] := by
    rw [orderPosOf, gOneHidden_members, hord]
    decide
  rw [enumInOf, gOneHidden_members, hord, hop, hccs, hlcs]
  have hrem : remainingBadN gOneHidden = 16 := by decide
  rw [hrem]
  rfl

theorem gOneHidden_worldsTotal : worldsTotal gOneHidden ≤ 0 := by
  have hwfE : EnumWF (⟨1, 16, [0], [0], [[0, 1, 2]],
      [⟨[0], 0, 0⟩, ⟨[0], 0, 0⟩, ⟨[0], 0, 0⟩]⟩ : EnumIn) := by decide
  have hcountslen :
      (enumRun (⟨1, 16, [0], [0], [[0, 1, 2]],
        [⟨[0], 0, 0⟩, ⟨[0], 0, 0⟩, ⟨[0], 0, 0⟩]⟩ : EnumIn)).1.length = 2 :=
    (enumRun_spec hwfE).1.1
  have hcr : (compResultOf gOneHidden 0).1.counts.length = 2 := by
    rw [compResultOf, gOneHidden_members]
    simp only [List.length_cons, List.length_nil]
    rw [if_pos (by omega), gOneHidden_enumIn]
    exact hcountslen
  have hcrs : compResultsOf gOneHidden = [(compResultOf gOneHidden 0).1] := by
    rw [compResultsOf, gOneHidden_roots]
    rfl
  have hne : (compResultOf gOneHidden 0).1.counts ≠ [] := by
    intro h
    rw [h] at hcr
    simp at hcr
  have hprod : (compProdOf gOneHidden).length = 2 := by
    rw [compProdOf, hcrs, List.foldl_cons, List.foldl_nil,
      if_neg (by simp [List.isEmpty_iff, hne]),
      convolve_length _ _ (by simp) hne, hcr]
    rfl
  have hint : interiorPolyOf gOneHidden = [binomial 0 0] := by
    have : interior gOneHidden = [] := by decide
    rw [interiorPolyOf, this]
    rfl
  have htot : (totalPolyOf gOneHidden).length = 2 := by
    rw [totalPolyOf, convolve_length _ _ (by rw [hint]; simp)
      (by intro h; rw [h] at hprod; simp at hprod), hint]
    simp only [List.length_cons, List.length_nil]
    omega
  rw [worldsTotal]
  have hrem : remainingBadI gOneHidden = 16 := by decide
  have hremN : remainingBadN gOneHidden = 16 := by decide
  rw [if_neg (by rw [hrem]; omega), hremN,
    List.getD_eq_default _ _ (by rw [htot]; omega)]

/-- Witness for C4: on `gOneHidden` the main path is reached, `totalWays`
is 0, and the hidden cell 39 receives the uniform fallback. -/
theorem C4_witness :
    (0 < remainingBadI gOneHidden ∧ constraintCells gOneHidden ≠ [] ∧
     worldsTotal gOneHidden ≤ 0 ∧ 39 < TOTAL_CELLS ∧ gOneHidden 39 = Undug) ∧
    solveProb gOneHidden (fun _ => 0) 39 =
      (remainingBadI gOneHidden : ℚ) / ((unknownCells gOneHidden).length : ℚ) :=
  ⟨⟨by decide, by decide, gOneHidden_worldsTotal, by decide, by decide⟩,
   C4_contradiction_fallback gOneHidden (fun _ => 0) (by decide) (by decide)
     gOneHidden_worldsTotal 39 (by decide) (by decide)⟩

/-- C1, counterexample: the claim "every entry of `badProb` lies in [0,1]
on every return path of `solve`" is false on the board `gOneHidden`: the
contradiction-fallback return path assigns `remainingBad/|hidden| = 16/1 = 16`
to cell 39 and returns without clamping. -/
theorem C1_counterexample :
    39 < TOTAL_CELLS ∧ ¬ solveProb gOneHidden (fun _ => 0) 39 ≤ 1 := by
  refine ⟨by decide, ?_⟩
  have h := solveProb_fallback gOneHidden (fun _ => 0) (by decide) (by decide)
    gOneHidden_worldsTotal 39 (by decide)
  rw [h, uniformProb]
  have h1 : remainingBadI gOneHidden = 16 := by decide
  have h2 : (unknownCells gOneHidden).length = 1 := by decide
  rw [h1, h2]
  norm_num

/-- C1, amended: `solve` always completes (every path of the embedding is a
total function), and on the normal completion path — the path that reaches
the global combination with `totalWays > 0` — every cell's probability is
clamped into [0, 1] before returning.  (The early-return paths do not run
the clamp loop, and the contradiction-fallback value can exceed 1, as the
counterexample shows.) -/
theorem C1_clamp_main_path (g : ℕ → CellContent) (p : ℕ → ℚ)
    (h1 : (unknownCells g).isEmpty = false) (h2 : ¬ remainingBadI g ≤ 0)
    (h3 : (constraintCells g).isEmpty = false) (h4 : ¬ worldsTotal g ≤ 0)
    (i : ℕ) (hi : i < TOTAL_CELLS) :
    0 ≤ solveProb g p i ∧ solveProb g p i ≤ 1 := by
  rw [solveProb]
  simp only
  rw [if_neg (by rw [h1]; exact Bool.false_ne_true), if_neg h2,
    if_neg (by rw [h3]; exact Bool.false_ne_true), if_neg h4, if_pos hi]
  exact clampQ_bounds _

/-- A concrete consistent board on the main solver path: 15 bombs (cells
0–11 and 30, 31, 38), Green clues elsewhere, and the single hidden cell 39
surrounded by bombs only (so there are no frontier cells and one interior
cell that must hold the one remaining bad item). -/
def gMainPath : ℕ → CellContent := fun i =>
  if i = 39 then Undug
  else if i < 12 ∨ i = 30 ∨ i = 31 ∨ i = 38 then Bomb
  else Green

theorem gMainPath_roots : compRoots gMainPath = [] := by decide

theorem gMainPath_worldsTotal : ¬ worldsTotal gMainPath ≤ 0 := by
  have hcrs : compResultsOf gMainPath = [] := by
    rw [compResultsOf, gMainPath_roots]
    rfl
  have hprod : compProdOf gMainPath = [1] := by
    rw [compProdOf, hcrs]
    rfl
  have hint : interiorPolyOf gMainPath = [1, 1] := by
    have h1 : interior gMainPath = [39] := by decide
    rw [interiorPolyOf, h1]
    decide
  have htot : totalPolyOf gMainPath = [1, 1] := by
    rw [totalPolyOf, hint, hprod, convolve]
    norm_num [List.range_succ]
  rw [worldsTotal]
  have hrem : remainingBadI gMainPath = 1 := by decide
  have hremN : remainingBadN gMainPath = 1 := by decide
  rw [if_neg (by rw [hrem]; omega), hremN, htot]
  norm_num

/-- Witness for the amended C1 on the main-path board `gMainPath`. -/
theorem C1_witness :
    ((unknownCells gMainPath).isEmpty = false ∧ ¬ remainingBadI gMainPath ≤ 0 ∧
     (constraintCells gMainPath).isEmpty = false ∧ ¬ worldsTotal gMainPath ≤ 0 ∧
     39 < TOTAL_CELLS) ∧
    (0 ≤ solveProb gMainPath (fun _ => 0) 39 ∧
     solveProb gMainPath (fun _ => 0) 39 ≤ 1) :=
  ⟨⟨by decide, by decide, by decide, gMainPath_worldsTotal, by decide⟩,
   C1_clamp_main_path gMainPath (fun _ => 0) (by decide) (by decide) (by decide)
     gMainPath_worldsTotal 39 (by decide)⟩

/-! ## Coverage of the probability writes (towards idempotence and
conservation) -/

theorem applyWrites_congr_at (p q : ℕ → ℚ) (ws : List (ℕ × ℚ)) (i : ℕ)
    (h : p i = q i ∨ i ∈ ws.map Prod.fst) :
    applyWrites p ws i = applyWrites q ws i := by
  induction ws generalizing p q with
  | nil =>
    rcases h with h | h
    · exact h
    · exact absurd h (List.not_mem_nil _)
  | cons iv ws ih =>
    rw [applyWrites_cons, applyWrites_cons]
    apply ih
    by_cases hmem : i ∈ ws.map Prod.fst
    · right
      exact hmem
    · left
      rcases h with h | h
      · by_cases he : i = iv.1
        · simp [he]
        · simp [he, h]
      · simp only [List.map_cons, List.mem_cons] at h
        rcases h with h | h
        · subst h
          simp
        · exact absurd h hmem

theorem mem_step1Writes_fst (g : ℕ → CellContent) (i : ℕ) :
    i ∈ (step1Writes g).map Prod.fst ↔
      i < TOTAL_CELLS ∧ (isRevealedBad (g i) || isRevealedGood (g i)) := by
  rw [step1Writes]
  constructor
  · intro h
    rcases List.mem_map.mp h with ⟨iv, hiv, hfst⟩
    rcases List.mem_filterMap.mp hiv with ⟨j, hj, hjv⟩
    have hjlt : j < TOTAL_CELLS := by simpa [cellsList] using hj
    by_cases hb : isRevealedBad (g j)
    · rw [if_pos hb] at hjv
      rcases Option.some_injective _ hjv
      rw [← hfst]
      simp [hjlt, hb]
    · rw [if_neg hb] at hjv
      by_cases hg : isRevealedGood (g j)
      · rw [if_pos hg] at hjv
        rcases Option.some_injective _ hjv
        rw [← hfst]
        simp [hjlt, hg]
      · rw [if_neg hg] at hjv
        exact absurd hjv (by simp)
  · rintro ⟨hlt, hrev⟩
    rw [Bool.or_eq_true] at hrev
    apply List.mem_map.mpr
    rcases hrev with hb | hg
    · exact ⟨(i, 1), List.mem_filterMap.mpr
        ⟨i, by simpa [cellsList] using hlt, by rw [if_pos hb]⟩, rfl⟩
    · by_cases hb : isRevealedBad (g i)
      · exact ⟨(i, 1), List.mem_filterMap.mpr
          ⟨i, by simpa [cellsList] using hlt, by rw [if_pos hb]⟩, rfl⟩
      · exact ⟨(i, 0), List.mem_filterMap.mpr
          ⟨i, by simpa [cellsList] using hlt, by rw [if_neg hb, if_pos hg]⟩, rfl⟩

theorem enumerateComponent_counts_length (E : EnumIn) :
    ∀ (fuel pos numBad : ℕ) (a : List ℕ) (st : EnumState),
      (enumerateComponent E fuel pos numBad a st).1.length = st.1.length := by
  intro fuel
  induction fuel with
  | zero =>
    intro pos numBad a st
    rw [enumerateComponent]
    by_cases hgt : numBad > E.remainingBad
    · rw [if_pos hgt]
    · by_cases hpos : pos = E.compSize
      · rw [if_neg hgt, if_pos hpos]
        simp [bumpLeaf]
      · rw [if_neg hgt, if_neg hpos]
  | succ fuel ih =>
    intro pos numBad a st
    rw [enumerateComponent]
    by_cases hgt : numBad > E.remainingBad
    · rw [if_pos hgt]
    · by_cases hpos : pos = E.compSize
      · rw [if_neg hgt, if_pos hpos]
        simp [bumpLeaf]
      · rw [if_neg hgt, if_neg hpos]
        simp only
        by_cases hc1 : checkCell E pos (a.set (E.order.getD pos 0) 1) (E.order.getD pos 0)
        · rw [if_pos hc1, ih]
          by_cases hc0 : checkCell E pos (a.set (E.order.getD pos 0) 0) (E.order.getD pos 0)
          · rw [if_pos hc0, ih]
          · rw [if_neg hc0]
        · rw [if_neg hc1]
          by_cases hc0 : checkCell E pos (a.set (E.order.getD pos 0) 0) (E.order.getD pos 0)
          · rw [if_pos hc0, ih]
          · rw [if_neg hc0]

theorem enumRun_counts_length (E : EnumIn) :
    (enumRun E).1.length = E.compSize + 1 := by
  rw [enumRun, enumerateComponent_counts_length]
  exact List.length_replicate _ _

theorem mem_compMembers (g : ℕ → CellContent) (r fi : ℕ) :
    fi ∈ compMembers g r ↔ fi < (frontier g).length ∧ findRoot g fi = r := by
  rw [compMembers, findRoot]
  simp [List.mem_filter]

theorem findRoot_mem_compRoots (g : ℕ → CellContent) (fi : ℕ)
    (hfi : fi < (frontier g).length) : findRoot g fi ∈ compRoots g := by
  rw [compRoots, List.mem_dedup, findRoot]
  exact List.mem_map.mpr ⟨fi, by simpa using hfi, rfl⟩

theorem compResultOf_spec (g : ℕ → CellContent) (r : ℕ)
    (hsz : (compMembers g r).length ≤ 40) :
    (compResultOf g r).1 = ⟨(compMembers g r).length, (enumRun (enumInOf g r)).1,
      (enumRun (enumInOf g r)).2, compMembers g r⟩ ∧
    (compResultOf g r).2 = [] := by
  rw [compResultOf]
  simp only
  rw [if_pos hsz]
  exact ⟨rfl, rfl⟩

theorem compResultOf_fallback_spec (g : ℕ → CellContent) (r : ℕ)
    (hsz : ¬ (compMembers g r).length ≤ 40) :
    (compResultOf g r).1 = ⟨(compMembers g r).length, [], [], compMembers g r⟩ ∧
    (compResultOf g r).2 = (compMembers g r).map
      (fun mi => ((frontier g).getD mi 0,
        (remainingBadI g : ℚ) / ((unknownCells g).length : ℚ))) := by
  rw [compResultOf]
  simp only
  rw [if_neg hsz]
  exact ⟨rfl, rfl⟩

theorem mem_compResultsOf (g : ℕ → CellContent) (r : ℕ) (hr : r ∈ compRoots g) :
    ∃ j, ∃ hj : j < (compResultsOf g).length,
      (compResultsOf g)[j] = (compResultOf g r).1 ∧
      (j, (compResultOf g r).1) ∈ (compResultsOf g).enum := by
  rcases List.mem_iff_getElem.mp hr with ⟨j, hjlen, hjval⟩
  have hj2 : j < (compResultsOf g).length := by
    rw [compResultsOf, List.length_map]
    exact hjlen
  have hval : (compResultsOf g)[j] = (compResultOf g ((compRoots g)[j])).1 :=
    List.getElem_map _
  rw [hjval] at hval
  refine ⟨j, hj2, hval, ?_⟩
  have hj3 : j < (compResultsOf g).enum.length := by
    rw [List.enum_length]
    exact hj2
  have he : (compResultsOf g).enum[j] = (j, (compResultsOf g)[j]) :=
    List.getElem_enum _ _ _
  rw [hval] at he
  rw [← he]
  exact List.getElem_mem _

theorem frontier_covered (g : ℕ → CellContent) (fi : ℕ)
    (hfi : fi < (frontier g).length) :
    (frontier g).getD fi 0 ∈ (fallbackWrites g).map Prod.fst ∨
    (frontier g).getD fi 0 ∈ (step7Writes g).map Prod.fst := by
  have hrm : findRoot g fi ∈ compRoots g := findRoot_mem_compRoots g fi hfi
  have hfim : fi ∈ compMembers g (findRoot g fi) :=
    (mem_compMembers g _ fi).mpr ⟨hfi, rfl⟩
  by_cases hsz : (compMembers g (findRoot g fi)).length ≤ 40
  · right
    obtain ⟨hcr1, -⟩ := compResultOf_spec g (findRoot g fi) hsz
    have hgi : (compResultOf g (findRoot g fi)).1.globalIndices =
        compMembers g (findRoot g fi) := by
      rw [hcr1]
    have hsize : (compResultOf g (findRoot g fi)).1.size =
        (compMembers g (findRoot g fi)).length := by
      rw [hcr1]
    rcases mem_compResultsOf g (findRoot g fi) hrm with ⟨j, hj, -, henum⟩
    rcases List.mem_iff_getElem.mp hfim with ⟨li, hlilen, hlival⟩
    simp only [step7Writes]
    apply List.mem_map.mpr
    refine ⟨((frontier g).getD
        (((compResultOf g (findRoot g fi)).1.globalIndices).getD li 0) 0,
      numeratorOf g j (compResultOf g (findRoot g fi)).1 li / worldsTotal g),
      ?_, ?_⟩
    · apply List.mem_flatMap.mpr
      refine ⟨(j, (compResultOf g (findRoot g fi)).1), henum, ?_⟩
      have hcne : ((compResultOf g (findRoot g fi)).1.counts).isEmpty = false := by
        have hclen : (compResultOf g (findRoot g fi)).1.counts =
            (enumRun (enumInOf g (findRoot g fi))).1 := by
          rw [hcr1]
        rw [hclen, Bool.eq_false_iff]
        intro hc
        rw [List.isEmpty_iff] at hc
        have hl := enumRun_counts_length (enumInOf g (findRoot g fi))
        rw [hc] at hl
        simp at hl
      rw [if_neg (by rw [hcne]; exact Bool.false_ne_true)]
      apply List.mem_map.mpr
      refine ⟨li, ?_, rfl⟩
      rw [List.mem_range, hsize]
      exact hlilen
    · show (frontier g).getD
        (((compResultOf g (findRoot g fi)).1.globalIndices).getD li 0) 0 =
        (frontier g).getD fi 0
      rw [hgi, List.getD_eq_getElem _ _ hlilen, hlival]
  · left
    obtain ⟨-, hcr2⟩ := compResultOf_fallback_spec g (findRoot g fi) hsz
    rw [fallbackWrites]
    apply List.mem_map.mpr
    refine ⟨((frontier g).getD fi 0,
      (remainingBadI g : ℚ) / ((unknownCells g).length : ℚ)), ?_, rfl⟩
    apply List.mem_flatMap.mpr
    refine ⟨findRoot g fi, hrm, ?_⟩
    rw [hcr2]
    exact List.mem_map.mpr ⟨fi, hfim, rfl⟩

/-! ## Claim C5: idempotence of `solve` -/

theorem solveProb_congr (g : ℕ → CellContent) (p q : ℕ → ℚ) (i : ℕ)
    (hi : i < TOTAL_CELLS) : solveProb g p i = solveProb g q i := by
  have hrev_or : (isRevealedBad (g i) || isRevealedGood (g i)) = true ∨
      i ∈ unknownCells g := by
    by_cases hb : (isRevealedBad (g i) || isRevealedGood (g i)) = true
    · exact Or.inl hb
    · refine Or.inr ((mem_unknownCells g i).mpr ⟨hi, ?_, ?_⟩) <;>
        [rcases Bool.eq_false_or_eq_true (isRevealedBad (g i)) with h | h;
         rcases Bool.eq_false_or_eq_true (isRevealedGood (g i)) with h | h] <;>
        first
        | exact h
        | (exact absurd (by rw [h]; simp) hb)
  have hstep1 : (isRevealedBad (g i) || isRevealedGood (g i)) = true →
      applyWrites p (step1Writes g) i = applyWrites q (step1Writes g) i :=
    fun hcov => applyWrites_congr_at _ _ _ _
      (Or.inr ((mem_step1Writes_fst g i).mpr ⟨hi, hcov⟩))
  have hUcover : ∀ (v : ℚ), i ∈ unknownCells g →
      i ∈ ((unknownCells g).map fun j => (j, v)).map Prod.fst := by
    intro v h
    exact List.mem_map.mpr ⟨(i, v), List.mem_map.mpr ⟨i, h, rfl⟩, rfl⟩
  rw [solveProb, solveProb]
  simp only
  by_cases hA : (unknownCells g).isEmpty
  · rw [if_pos hA, if_pos hA]
    rcases hrev_or with h | h
    · exact hstep1 h
    · rw [List.isEmpty_iff] at hA
      rw [hA] at h
      exact absurd h (List.not_mem_nil _)
  · rw [if_neg hA, if_neg hA]
    by_cases hB : remainingBadI g ≤ 0
    · rw [if_pos hB, if_pos hB]
      apply applyWrites_congr_at
      rcases hrev_or with h | h
      · exact Or.inl (hstep1 h)
      · exact Or.inr (hUcover 0 h)
    · rw [if_neg hB, if_neg hB]
      by_cases hC : (constraintCells g).isEmpty
      · rw [if_pos hC, if_pos hC]
        apply applyWrites_congr_at
        rcases hrev_or with h | h
        · exact Or.inl (hstep1 h)
        · exact Or.inr (hUcover _ h)
      · rw [if_neg hC, if_neg hC]
        by_cases hD : worldsTotal g ≤ 0
        · rw [if_pos hD, if_pos hD]
          apply applyWrites_congr_at
          rcases hrev_or with h | h
          · exact Or.inl (applyWrites_congr_at _ _ _ _ (Or.inl (hstep1 h)))
          · exact Or.inr (hUcover _ h)
        · rw [if_neg hD, if_neg hD, if_pos hi, if_pos hi]
          apply congrArg clampQ
          -- the state after the interior write stage
          have hmain : applyWrites (applyWrites p (step1Writes g)) (fallbackWrites g) i =
                applyWrites (applyWrites q (step1Writes g)) (fallbackWrites g) i ∨
              (i ∈ (step7Writes g).map Prod.fst ∨ i ∈ interior g) := by
            rcases hrev_or with h | h
            · exact Or.inl (applyWrites_congr_at _ _ _ _ (Or.inl (hstep1 h)))
            · by_cases hf : isFrontier g i
              · have hfm : i ∈ frontier g := (mem_frontier g i).mpr ⟨h, hf⟩
                rcases List.mem_iff_getElem.mp hfm with ⟨fi, hfilen, hfival⟩
                have hgd : (frontier g).getD fi 0 = i := by
                  rw [List.getD_eq_getElem _ _ hfilen, hfival]
                rcases frontier_covered g fi hfilen with hcov | hcov
                · rw [hgd] at hcov
                  exact Or.inl (applyWrites_congr_at _ _ _ _ (Or.inr hcov))
                · rw [hgd] at hcov
                  exact Or.inr (Or.inl hcov)
              · exact Or.inr (Or.inr ((mem_interior g i).mpr
                  ⟨h, Bool.eq_false_iff.mpr hf⟩))
          by_cases hInt : 0 < (interior g).length
          · rw [if_pos hInt, if_pos hInt]
            apply applyWrites_congr_at
            rcases hmain with h | h | h
            · exact Or.inl (applyWrites_congr_at _ _ _ _ (Or.inl h))
            · exact Or.inl (applyWrites_congr_at _ _ _ _ (Or.inr h))
            · exact Or.inr (List.mem_map.mpr
                ⟨(i, interiorNumeratorOf g / worldsTotal g),
                 List.mem_map.mpr ⟨i, h, rfl⟩, rfl⟩)
          · rw [if_neg hInt, if_neg hInt]
            rcases hmain with h | h | h
            · exact applyWrites_congr_at _ _ _ _ (Or.inl h)
            · exact applyWrites_congr_at _ _ _ _ (Or.inr h)
            · exact absurd (List.length_pos_of_mem h) hInt

/-- C5: `solve` is idempotent — with no `setCell` between them, a second
`solve` leaves every entry of the 40-cell probability array exactly as the
first left it.  (The recomputation depends only on the grid, and every
cell of the array is overwritten on every path.) -/
theorem C5_solve_idempotent (s : ThrillDiggerSolver) (i : ℕ)
    (hi : i < TOTAL_CELLS) :
    s.solve.solve.badProb i = s.solve.badProb i := by
  show solveProb s.grid (solveProb s.grid s.badProb) i = solveProb s.grid s.badProb i
  exact solveProb_congr s.grid _ _ i hi

/-- Witness for C5 at the freshly reset solver and cell 0. -/
theorem C5_witness :
    0 < TOTAL_CELLS ∧
    mkSolver.solve.solve.badProb 0 = mkSolver.solve.badProb 0 :=
  ⟨by decide, C5_solve_idempotent mkSolver 0 (by decide)⟩

/-! ## `binomial` computes the binomial coefficient -/

theorem binomial_fold_eq_choose (n : ℕ) :
    ∀ j ≤ n, List.foldl
      (fun (result : ℚ) (i : ℚ) => result * ((n : ℚ) - i) / (i + 1)) 1
      ((List.range j).map (Nat.cast : ℕ → ℚ)) =
      (n.choose j : ℚ) := by
  intro j
  induction j with
  | zero =>
    intro _
    simp
  | succ j ih =>
    intro hj
    rw [List.range_succ, List.map_append, List.foldl_append, List.map_cons,
      List.map_nil, List.foldl_cons, List.foldl_nil, ih (by omega)]
    have hchoose := Nat.choose_succ_right_eq n j
    have hle : (j : ℚ) + 1 ≠ 0 := by positivity
    have hcast : ((n.choose j : ℚ)) * ((n : ℚ) - (j : ℚ)) =
        (n.choose (j+1) : ℚ) * ((j : ℚ) + 1) := by
      have hsub : (n : ℚ) - (j : ℚ) = ((n - j : ℕ) : ℚ) := by
        push_cast [Nat.cast_sub (by omega : j ≤ n)]
        ring
      rw [hsub, ← Nat.cast_mul, ← hchoose]
      push_cast
      ring
    field_simp
    linarith [hcast]

theorem binomial_eq_choose (n k : ℕ) : binomial n k = (n.choose k : ℚ) := by
  rw [binomial]
  by_cases h1 : k > n
  · rw [if_pos h1, Nat.choose_eq_zero_of_lt h1]
    simp
  · rw [if_neg h1]
    by_cases h2 : k = 0 ∨ k = n
    · rw [if_pos h2]
      rcases h2 with rfl | rfl <;> simp
    · rw [if_neg h2]
      simp only [bind_pure_comp, List.map_eq_map]
      by_cases h3 : k > n - k
      · rw [if_pos h3, binomial_fold_eq_choose n (n - k) (by omega),
          Nat.choose_symm (by omega)]
      · rw [if_neg h3, binomial_fold_eq_choose n k (by omega)]

/-! ## Generic list and summation helpers for the conservation proof -/

theorem list_range_map_sum_q (n : ℕ) (f : ℕ → ℚ) :
    ((List.range n).map f).sum = ∑ k ∈ Finset.range n, f k := rfl

theorem map_getD_range {α : Type} (l : List α) (d : α) :
    (List.range l.length).map (fun i => l.getD i d) = l := by
  apply List.ext_getElem
  · simp
  · intro i h1 h2
    simp [List.getD_eq_getElem?_getD, List.getElem?_eq_getElem h2]

theorem sum_map_flatMap_q {α β : Type} (l : List α) (f : α → List β)
    (g : β → ℚ) :
    ((l.flatMap f).map g).sum = (l.map (fun x => ((f x).map g).sum)).sum := by
  rw [List.map_flatMap]
  induction l with
  | nil => rfl
  | cons a l ih =>
    rw [List.flatMap_cons, List.sum_append, List.map_cons, List.sum_cons, ih]

theorem sum_map_filter_split_q {α : Type} (l : List α) (f : α → ℚ)
    (p : α → Bool) :
    (l.map f).sum =
      ((l.filter p).map f).sum + ((l.filter fun x => ¬ p x).map f).sum := by
  induction l with
  | nil => simp
  | cons a l ih =>
    rcases Bool.eq_false_or_eq_true (p a) with hp | hp <;>
      simp [List.filter_cons, hp, ih] <;> ring

theorem sum_map_const_q {α : Type} (l : List α) (v : ℚ) :
    ((l.map fun _ => v).sum) = (l.length : ℚ) * v := by
  induction l with
  | nil => simp
  | cons a l ih =>
    rw [List.map_cons, List.sum_cons, ih, List.length_cons]
    push_cast
    ring

theorem clampQ_id (x : ℚ) (h0 : 0 ≤ x) (h1 : x ≤ 1) : clampQ x = x := by
  simp only [clampQ]
  rw [if_neg (by linarith : ¬ x < 0), if_neg (by linarith : ¬ x > 1)]

theorem getD_nonneg (l : List ℚ) (h : ∀ v ∈ l, 0 ≤ v) (k : ℕ) :
    0 ≤ l.getD k 0 := by
  by_cases hk : k < l.length
  · rw [List.getD_eq_getElem _ _ hk]
    exact h _ (List.getElem_mem hk)
  · rw [List.getD_eq_default _ _ (by omega)]

theorem convolve_nonneg (a b : List ℚ) (ha : ∀ v ∈ a, 0 ≤ v)
    (hb : ∀ v ∈ b, 0 ≤ v) : ∀ v ∈ convolve a b, 0 ≤ v := by
  intro v hv
  rw [convolve] at hv
  by_cases he : a.isEmpty ∨ b.isEmpty
  · rw [if_pos he] at hv
    exact absurd hv (List.not_mem_nil _)
  · rw [if_neg he] at hv
    rcases List.mem_map.mp hv with ⟨t, -, hval⟩
    rw [← hval]
    apply List.sum_nonneg
    intro q hq
    rcases List.mem_map.mp hq with ⟨i, -, hq2⟩
    rw [← hq2]
    exact mul_nonneg (getD_nonneg a ha i) (getD_nonneg b hb (t - i))

/-! ## Shared characterization of a full enumeration run

Restatements of the content of the enumeration analysis as standalone
helpers (used by the conservation proof). -/

theorem enumRun_lengths {E : EnumIn} (hwf : EnumWF E) :
    (enumRun E).1.length = E.compSize + 1 ∧
    (enumRun E).2.length = E.compSize ∧
    (∀ r ∈ (enumRun E).2, r.length = E.compSize + 1) :=
  (enumRun_spec hwf).1

theorem enumRun_counts_eq {E : EnumIn} (hwf : EnumWF E) (k : ℕ)
    (hk : k ≤ E.remainingBad) :
    (enumRun E).1.getD k 0 = (modelCount E k : ℚ) := by
  obtain ⟨-, hC, -⟩ := enumRun_spec hwf
  rw [hC k, getD_replicate, ite_self, zero_add]
  congr 1
  rw [deltaCount, modelCount]
  apply congrArg List.length
  apply List.filter_congr
  intro x hx
  rw [extFrom_zero, satFrom_zero, Bool.true_and, decide_eq_true hk, Bool.and_true]

theorem enumRun_badCounts_eq {E : EnumIn} (hwf : EnumWF E) (i : ℕ)
    (hi : i < E.compSize) (k : ℕ) (hk : k ≤ E.remainingBad) :
    ((enumRun E).2.getD i []).getD k 0 = (modelBadCount E i k : ℚ) := by
  obtain ⟨-, -, hR⟩ := enumRun_spec hwf
  rw [hR i hi k, getD_replicate, if_pos hi, getD_replicate, ite_self, zero_add]
  congr 1
  rw [deltaCount, modelBadCount]
  apply congrArg List.length
  apply List.filter_congr
  intro x hx
  rw [extFrom_zero, satFrom_zero, Bool.true_and, decide_eq_true hk]
  rw [← Bool.coe_iff_coe]
  simp only [Bool.and_eq_true, Bool.and_true]
  tauto

theorem enumRun_counts_above {E : EnumIn} (hwf : EnumWF E) (k : ℕ)
    (hk : E.remainingBad < k) : (enumRun E).1.getD k 0 = 0 := by
  obtain ⟨-, hC, -⟩ := enumRun_spec hwf
  rw [hC k, getD_replicate, ite_self, zero_add, deltaCount]
  rw [List.filter_congr (fun x _ => ?_), List.filter_false, List.length_nil,
    Nat.cast_zero]
  rw [Bool.and_eq_false_iff]
  right
  rw [Bool.and_eq_false_iff]
  right
  simpa using Nat.not_le.mpr hk

theorem enumRun_badCounts_above {E : EnumIn} (hwf : EnumWF E) (i : ℕ)
    (hi : i < E.compSize) (k : ℕ) (hk : E.remainingBad < k) :
    ((enumRun E).2.getD i []).getD k 0 = 0 := by
  obtain ⟨-, -, hR⟩ := enumRun_spec hwf
  rw [hR i hi k, getD_replicate, if_pos hi, getD_replicate, ite_self, zero_add,
    deltaCount]
  rw [List.filter_congr (fun x _ => ?_), List.filter_false, List.length_nil,
    Nat.cast_zero]
  rw [Bool.and_eq_false_iff]
  right
  rw [Bool.and_eq_false_iff]
  left
  rw [Bool.and_eq_false_iff]
  right
  simpa using Nat.not_le.mpr hk

theorem modelBadCount_le (E : EnumIn) (i k : ℕ) :
    modelBadCount E i k ≤ modelCount E k := by
  rw [modelBadCount, modelCount]
  exact length_filter_and_le _ _ _

/-! ## Double counting: summing per-cell bad counts over the component -/

theorem sum_indicator_eq_sum (s : ℕ) (x : List ℕ) (hlen : x.length = s)
    (h1 : ∀ v ∈ x, v ≤ 1) :
    ∑ i ∈ Finset.range s, (if x.getD i 0 == 1 then 1 else 0) = x.sum := by
  rw [list_sum_eq_range, hlen]
  apply Finset.sum_congr rfl
  intro i _
  have := getD_le_one x h1 i
  rcases Nat.lt_or_ge (x.getD i 0) 1 with h | h
  · have h0 : x.getD i 0 = 0 := by omega
    rw [h0]
    simp
  · have h0 : x.getD i 0 = 1 := by omega
    rw [h0]
    simp

theorem sum_badcount_aux (s k : ℕ) (P : List ℕ → Bool) :
    ∀ L : List (List ℕ),
      (∀ x ∈ L, x.length = s ∧ (∀ v ∈ x, v ≤ 1) ∧ (P x = true → x.sum = k)) →
      ∑ i ∈ Finset.range s, (L.filter fun x => P x && x.getD i 0 == 1).length
        = k * (L.filter P).length := by
  intro L
  induction L with
  | nil => simp
  | cons x L ih =>
    intro h
    have hx := h x (List.mem_cons_self _ _)
    have ihL := ih fun y hy => h y (List.mem_cons_of_mem _ hy)
    rcases Bool.eq_false_or_eq_true (P x) with hPt | hPf
    · have hsum : x.sum = k := hx.2.2 hPt
      have hsplit : ∀ i, ((x :: L).filter fun y => P y && y.getD i 0 == 1).length
          = (if x.getD i 0 == 1 then 1 else 0)
            + (L.filter fun y => P y && y.getD i 0 == 1).length := by
        intro i
        rw [List.filter_cons]
        by_cases hgi : x.getD i 0 == 1
        · rw [if_pos (by rw [hPt, hgi]; rfl), if_pos hgi, List.length_cons]
          omega
        · rw [if_neg (by simp only [hPt, Bool.true_and]; exact hgi),
            if_neg hgi]
          omega
      calc ∑ i ∈ Finset.range s,
            ((x :: L).filter fun y => P y && y.getD i 0 == 1).length
          = ∑ i ∈ Finset.range s, ((if x.getD i 0 == 1 then 1 else 0)
              + (L.filter fun y => P y && y.getD i 0 == 1).length) :=
            Finset.sum_congr rfl fun i _ => hsplit i
        _ = x.sum + ∑ i ∈ Finset.range s,
              (L.filter fun y => P y && y.getD i 0 == 1).length := by
            rw [Finset.sum_add_distrib,
              sum_indicator_eq_sum s x hx.1 hx.2.1]
        _ = k * ((x :: L).filter P).length := by
            rw [ihL, hsum, List.filter_cons, if_pos hPt, List.length_cons]
            ring
    · have hsplit : ∀ i, ((x :: L).filter fun y => P y && y.getD i 0 == 1)
          = L.filter fun y => P y && y.getD i 0 == 1 := by
        intro i
        rw [List.filter_cons, if_neg (by rw [hPf, Bool.false_and]; simp)]
      calc ∑ i ∈ Finset.range s,
            ((x :: L).filter fun y => P y && y.getD i 0 == 1).length
          = ∑ i ∈ Finset.range s,
              (L.filter fun y => P y && y.getD i 0 == 1).length :=
            Finset.sum_congr rfl fun i _ => by rw [hsplit i]
        _ = k * ((x :: L).filter P).length := by
            rw [ihL, List.filter_cons, if_neg (by rw [hPf]; simp)]

theorem sum_modelBadCount (E : EnumIn) (k : ℕ) :
    ∑ i ∈ Finset.range E.compSize, modelBadCount E i k
      = k * modelCount E k := by
  have := sum_badcount_aux E.compSize k
    (fun x => satisfiesAll E.localConstraints x && x.sum == k)
    (allAssignments E.compSize)
    (fun x hx => by
      obtain ⟨h1, h2⟩ := (mem_allAssignments _ x).mp hx
      refine ⟨h1, h2, fun hP => ?_⟩
      have hs : (x.sum == k) = true := by
        simp only [Bool.and_eq_true] at hP
        exact hP.2
      exact Nat.eq_of_beq_eq_true (by simpa using hs))
  rw [modelCount]
  rw [← this]
  apply Finset.sum_congr rfl
  intro i _
  rfl

/-! ## The polynomial view of the convolution layer

`convolve` is polynomial multiplication on coefficient lists; the
conservation argument runs through `Polynomial ℚ`. -/

noncomputable def toPoly (l : List ℚ) : Polynomial ℚ :=
  ∑ i ∈ Finset.range l.length, Polynomial.C (l.getD i 0) * Polynomial.X ^ i

theorem getD_map_range {α : Type} (m n : ℕ) (f : ℕ → α) (d : α) :
    ((List.range m).map f).getD n d = if n < m then f n else d := by
  by_cases h : n < m
  · rw [if_pos h, List.getD_eq_getElem _ _ (by simpa using h)]
    simp
  · rw [if_neg h, List.getD_eq_default _ _ (by simpa using h)]

theorem coeff_toPoly (l : List ℚ) (n : ℕ) :
    (toPoly l).coeff n = l.getD n 0 := by
  rw [toPoly, Polynomial.finset_sum_coeff]
  simp only [Polynomial.coeff_C_mul, Polynomial.coeff_X_pow]
  rw [Finset.sum_congr rfl
    (fun i _ => by rw [mul_ite, mul_one, mul_zero] : ∀ i ∈ Finset.range l.length,
      l.getD i 0 * (if n = i then (1:ℚ) else 0) =
        if n = i then l.getD i 0 else 0)]
  rw [Finset.sum_ite_eq]
  by_cases hn : n < l.length
  · rw [if_pos (Finset.mem_range.mpr hn)]
  · rw [if_neg (fun hc => hn (Finset.mem_range.mp hc)),
      List.getD_eq_default _ _ (by omega)]

theorem toPoly_nil : toPoly [] = 0 := by
  simp [toPoly]

theorem toPoly_one : toPoly [1] = 1 := by
  apply Polynomial.ext
  intro n
  rw [coeff_toPoly]
  cases n with
  | zero => simp
  | succ m => simp [Polynomial.coeff_one]

theorem toPoly_convolve (a b : List ℚ) :
    toPoly (convolve a b) = toPoly a * toPoly b := by
  by_cases he : a.isEmpty ∨ b.isEmpty
  · rw [convolve, if_pos he, toPoly_nil]
    rcases he with h | h
    · rw [List.isEmpty_iff.mp h, toPoly_nil, zero_mul]
    · rw [List.isEmpty_iff.mp h, toPoly_nil, mul_zero]
  · have hla : 0 < a.length := by
      rcases not_or.mp he with ⟨h1, -⟩
      cases a with
      | nil => simp at h1
      | cons x t => simp
    have hlb : 0 < b.length := by
      rcases not_or.mp he with ⟨-, h2⟩
      cases b with
      | nil => simp at h2
      | cons x t => simp
    apply Polynomial.ext
    intro n
    rw [coeff_toPoly, Polynomial.coeff_mul,
      Finset.Nat.sum_antidiagonal_eq_sum_range_succ_mk]
    simp only [coeff_toPoly]
    rw [convolve, if_neg he, getD_map_range]
    by_cases hn : n < a.length + b.length - 1
    · rw [if_pos hn, list_range_map_sum_q]
    · rw [if_neg hn]
      symm
      apply Finset.sum_eq_zero
      intro k hk
      by_cases hka : k < a.length
      · have : b.length ≤ n - k := by omega
        rw [List.getD_eq_default b _ this, mul_zero]
      · rw [List.getD_eq_default a _ (by omega), zero_mul]

theorem coeff_X_mul_derivative (Q : Polynomial ℚ) (R : ℕ) :
    (Polynomial.X * Polynomial.derivative Q).coeff R = R * Q.coeff R := by
  cases R with
  | zero =>
    rw [Polynomial.mul_coeff_zero, Polynomial.coeff_X_zero, zero_mul,
      Nat.cast_zero, zero_mul]
  | succ n =>
    rw [Polynomial.coeff_X_mul, Polynomial.coeff_derivative]
    push_cast
    ring

theorem derivative_list_prod (ps : List (Polynomial ℚ)) :
    Polynomial.derivative ps.prod =
      ∑ j ∈ Finset.range ps.length,
        Polynomial.derivative (ps.getD j 1) * (ps.set j 1).prod := by
  induction ps with
  | nil => simp
  | cons p ps ih =>
    rw [List.prod_cons, Polynomial.derivative_mul, ih, List.length_cons,
      Finset.sum_range_succ']
    have h0 : Polynomial.derivative ((p :: ps).getD 0 1) *
        ((p :: ps).set 0 1).prod = Polynomial.derivative p * ps.prod := by
      rw [List.getD_cons_zero]
      show _ * ((1 : Polynomial ℚ) :: ps).prod = _
      rw [List.prod_cons, one_mul]
    rw [h0, Finset.mul_sum, add_comm (Polynomial.derivative p * ps.prod)]
    congr 1
    apply Finset.sum_congr rfl
    intro j _
    have hset : (p :: ps).set (j+1) 1 = p :: ps.set j 1 := rfl
    rw [List.getD_cons_succ, hset, List.prod_cons]
    ring

theorem sum_X_mul_derivative_set_prod (ps : List (Polynomial ℚ)) (R : ℕ) :
    ∑ j ∈ Finset.range ps.length,
      (Polynomial.X * Polynomial.derivative (ps.getD j 1) *
        (ps.set j 1).prod).coeff R
    = R * ps.prod.coeff R := by
  rw [← Polynomial.finset_sum_coeff]
  have hsum : ∑ j ∈ Finset.range ps.length,
      Polynomial.X * Polynomial.derivative (ps.getD j 1) * (ps.set j 1).prod
      = Polynomial.X * Polynomial.derivative ps.prod := by
    rw [derivative_list_prod, Finset.mul_sum]
    apply Finset.sum_congr rfl
    intro j _
    ring
  rw [hsum, coeff_X_mul_derivative]

theorem coeff_X_mul_derivative_toPoly_mul (c : List ℚ) (W : Polynomial ℚ)
    (R : ℕ) :
    (Polynomial.X * Polynomial.derivative (toPoly c) * W).coeff R
      = ∑ k ∈ Finset.range (R+1), (k : ℚ) * c.getD k 0 * W.coeff (R - k) := by
  rw [Polynomial.coeff_mul, Finset.Nat.sum_antidiagonal_eq_sum_range_succ_mk]
  apply Finset.sum_congr rfl
  intro k _
  rw [coeff_X_mul_derivative, coeff_toPoly]

theorem getD_mul_set_one_prod (ps : List (Polynomial ℚ)) (j : ℕ)
    (hj : j < ps.length) :
    ps.getD j 1 * (ps.set j 1).prod = ps.prod := by
  induction ps generalizing j with
  | nil => simp at hj
  | cons p ps ih =>
    cases j with
    | zero =>
      rw [List.getD_cons_zero]
      show p * ((1 : Polynomial ℚ) :: ps).prod = _
      rw [List.prod_cons, one_mul, List.prod_cons]
    | succ j =>
      rw [List.getD_cons_succ]
      show ps.getD j 1 * (p :: ps.set j 1).prod = _
      rw [List.prod_cons, List.prod_cons,
        ← ih j (by simpa using hj)]
      ring

/-! ## Polynomial identities for the convolution folds of `solve` -/

noncomputable def compPolys (g : ℕ → CellContent) : List (Polynomial ℚ) :=
  (compResultsOf g).map fun cr =>
    if cr.counts.isEmpty then 1 else toPoly cr.counts

theorem toPoly_fold_convolve (l : List ComponentResult) :
    ∀ init : List ℚ,
      toPoly (l.foldl
        (fun acc cr => if cr.counts.isEmpty then acc else convolve acc cr.counts)
        init)
      = toPoly init *
        (l.map fun cr =>
          if cr.counts.isEmpty then (1 : Polynomial ℚ) else toPoly cr.counts).prod := by
  induction l with
  | nil =>
    intro init
    rw [List.foldl_nil, List.map_nil, List.prod_nil, mul_one]
  | cons cr l ih =>
    intro init
    rw [List.foldl_cons, List.map_cons, List.prod_cons]
    by_cases he : cr.counts.isEmpty
    · rw [if_pos he, if_pos he, ih, one_mul]
    · rw [if_neg he, if_neg he, ih, toPoly_convolve]
      ring

theorem toPoly_compProdOf (g : ℕ → CellContent) :
    toPoly (compProdOf g) = (compPolys g).prod := by
  rw [compProdOf, compPolys, toPoly_fold_convolve, toPoly_one, one_mul]

theorem toPoly_fold_convolve_skip (l : List ComponentResult) (ci : ℕ) :
    ∀ (s : ℕ) (init : List ℚ),
      toPoly ((l.enumFrom s).foldl
        (fun acc jc =>
          if jc.1 = ci ∨ jc.2.counts.isEmpty then acc
          else convolve acc jc.2.counts)
        init)
      = toPoly init *
        ((l.enumFrom s).map fun jc =>
          if jc.1 = ci then (1 : Polynomial ℚ)
          else if jc.2.counts.isEmpty then 1 else toPoly jc.2.counts).prod := by
  induction l with
  | nil =>
    intro s init
    rw [List.enumFrom_nil, List.foldl_nil, List.map_nil, List.prod_nil, mul_one]
  | cons cr l ih =>
    intro s init
    rw [List.enumFrom_cons, List.foldl_cons, List.map_cons, List.prod_cons]
    by_cases hci : s = ci
    · rw [if_pos (Or.inl hci), if_pos hci, ih, one_mul]
    · by_cases he : cr.counts.isEmpty
      · rw [if_pos (Or.inr he), if_neg hci, if_pos he, ih, one_mul]
      · rw [if_neg (by rw [not_or]; exact ⟨hci, he⟩), if_neg hci, if_neg he,
          ih, toPoly_convolve]
        ring

theorem map_enum_if_eq_set (l : List ComponentResult) (ci : ℕ)
    (f : ComponentResult → Polynomial ℚ) :
    ((l.enum).map fun jc => if jc.1 = ci then (1 : Polynomial ℚ) else f jc.2)
      = (l.map f).set ci 1 := by
  apply List.ext_getElem
  · simp [List.enum_length]
  · intro j h1 h2
    have hj : j < l.length := by simpa [List.enum_length] using h1
    have hjm : j < (l.map f).length := by simpa using hj
    have hje : j < l.enum.length := by
      simpa [List.enum_length] using hj
    have hset : ((l.map f).set ci 1)[j] =
        if ci = j then 1 else (l.map f)[j] :=
      List.getElem_set h2
    rw [hset]
    have henum : ((l.enum).map fun jc =>
        if jc.1 = ci then (1 : Polynomial ℚ) else f jc.2)[j] =
        (fun jc => if jc.1 = ci then (1 : Polynomial ℚ) else f jc.2)
          ((l.enum)[j]) :=
      List.getElem_map _
    rw [henum, List.getElem_enum]
    show (if j = ci then (1 : Polynomial ℚ) else f (l[j])) = _
    by_cases hc : j = ci
    · rw [if_pos hc, if_pos hc.symm]
    · rw [if_neg hc, if_neg (fun h => hc h.symm)]
      exact (List.getElem_map _).symm

theorem toPoly_withoutCompOf (g : ℕ → CellContent) (ci : ℕ) :
    toPoly (withoutCompOf g ci) = ((compPolys g).set ci 1).prod := by
  rw [withoutCompOf]
  show toPoly (((compResultsOf g).enumFrom 0).foldl _ [1]) = _
  rw [toPoly_fold_convolve_skip, toPoly_one, one_mul, compPolys,
    ← map_enum_if_eq_set]
  rfl

theorem toPoly_totalPolyOf (g : ℕ → CellContent) :
    toPoly (totalPolyOf g) =
      toPoly (interiorPolyOf g) * (compPolys g).prod := by
  rw [totalPolyOf, toPoly_convolve, toPoly_compProdOf]

theorem toPoly_totalWithoutOf (g : ℕ → CellContent) (ci : ℕ) :
    toPoly (totalWithoutOf g ci) =
      ((compPolys g).set ci 1).prod * toPoly (interiorPolyOf g) := by
  rw [totalWithoutOf, toPoly_convolve, toPoly_withoutCompOf]

theorem interiorPolyOf_getD (g : ℕ → CellContent) (m : ℕ) :
    (interiorPolyOf g).getD m 0 =
      if m < (interior g).length + 1 then binomial (interior g).length m
      else 0 := by
  rw [interiorPolyOf, getD_map_range]

/-! ## Well-formedness of the inputs `solve` hands to the enumeration -/

theorem findIdx_eq_of_nodup (l : List ℕ) (hnd : l.Nodup) :
    ∀ (i : ℕ) (hi : i < l.length), (l.findIdx fun x => x = l[i]) = i := by
  induction l with
  | nil =>
    intro i hi
    simp at hi
  | cons a l ih =>
    rw [List.nodup_cons] at hnd
    intro i hi
    cases i with
    | zero =>
      rw [List.findIdx_cons]
      simp
    | succ i =>
      have hil : i < l.length := by simpa using hi
      rw [List.getElem_cons_succ, List.findIdx_cons]
      have hpa : (decide (a = l[i])) = false := by
        apply decide_eq_false
        intro hc
        exact hnd.1 (hc ▸ List.getElem_mem hil)
      rw [hpa, Bool.cond_false, ih hnd.2 i hil]

theorem findIdx?_some_bounds {α : Type} (p : α → Bool) :
    ∀ (l : List α) (s i : ℕ), List.findIdx? p l s = some i →
      s ≤ i ∧ i < s + l.length := by
  intro l
  induction l with
  | nil =>
    intro s i h
    rw [List.findIdx?_nil] at h
    exact absurd h (by simp)
  | cons x l ih =>
    intro s i h
    rw [List.findIdx?_cons] at h
    by_cases hp : p x = true
    · rw [if_pos hp] at h
      have : s = i := Option.some_injective _ h
      subst this
      simp
    · rw [if_neg hp] at h
      have := ih (s + 1) i h
      constructor
      · omega
      · rw [List.length_cons]
        omega

theorem findIdx?_some_of_mem {α : Type} (p : α → Bool) :
    ∀ (l : List α) (s : ℕ), (∃ x ∈ l, p x = true) →
      ∃ i, List.findIdx? p l s = some i := by
  intro l
  induction l with
  | nil =>
    rintro s ⟨x, hx, -⟩
    exact absurd hx (List.not_mem_nil _)
  | cons y l ih =>
    rintro s ⟨x, hx, hpx⟩
    rw [List.findIdx?_cons]
    by_cases hp : p y = true
    · exact ⟨s, by rw [if_pos hp]⟩
    · rcases List.mem_cons.mp hx with rfl | hxl
      · exact absurd hpx hp
      · rcases ih (s + 1) ⟨x, hxl, hpx⟩ with ⟨i, hi⟩
        exact ⟨i, by rw [if_neg hp]; exact hi⟩

theorem constraintsOf_localIdx_lt (g : ℕ → CellContent) (con : Constraint)
    (hcon : con ∈ constraintsOf g) (fi : ℕ)
    (hfi : fi ∈ con.frontierLocalIdx) : fi < (frontier g).length := by
  rw [constraintsOf] at hcon
  rcases List.mem_filterMap.mp hcon with ⟨ci, -, hci⟩
  rw [constraintOfClue] at hci
  by_cases he : ((getNeighbors ci).filterMap fun n =>
      if isRevealedBad (g n) then none
      else if (frontier g).contains n then some ((frontier g).indexOf n)
      else none).isEmpty
  · rw [if_pos he] at hci
    exact absurd hci (by simp)
  · rw [if_neg he] at hci
    have hclc : con.frontierLocalIdx = (getNeighbors ci).filterMap fun n =>
        if isRevealedBad (g n) then none
        else if (frontier g).contains n then some ((frontier g).indexOf n)
        else none := by
      rw [← Option.some_injective _ hci]
    rw [hclc] at hfi
    rcases List.mem_filterMap.mp hfi with ⟨n, -, hn⟩
    by_cases hb : isRevealedBad (g n)
    · rw [if_pos hb] at hn
      exact absurd hn (by simp)
    · rw [if_neg hb] at hn
      by_cases hcont : (frontier g).contains n
      · rw [if_pos hcont] at hn
        rw [← Option.some_injective _ hn]
        exact List.indexOf_lt_length.mpr (by simpa using hcont)
      · rw [if_neg hcont] at hn
        exact absurd hn (by simp)

theorem localConstraintsOf_wf (g : ℕ → CellContent) (r : ℕ) :
    ∀ lc ∈ localConstraintsOf g r,
      lc.localIdx ≠ [] ∧ ∀ li ∈ lc.localIdx, li < (compMembers g r).length := by
  intro lc hlc
  rw [localConstraintsOf] at hlc
  rcases List.mem_filterMap.mp hlc with ⟨con, hcon, hcono⟩
  by_cases hrel : con.frontierLocalIdx.any fun fi =>
    ufFind (ufParent g) (ufParent g).length fi = r
  · rw [if_pos hrel] at hcono
    have hlceq : lc.localIdx = con.frontierLocalIdx.filterMap
        (fun fi => (compMembers g r).findIdx? fun m => m = fi) := by
      rw [← Option.some_injective _ hcono]
    constructor
    · rcases List.any_eq_true.mp hrel with ⟨fi, hfim, hfir⟩
      have hfilt : fi < (frontier g).length :=
        constraintsOf_localIdx_lt g con hcon fi hfim
      have hfimem : fi ∈ compMembers g r := (mem_compMembers g r fi).mpr
        ⟨hfilt, by rw [findRoot]; exact of_decide_eq_true hfir⟩
      rcases findIdx?_some_of_mem (fun m => decide (m = fi)) (compMembers g r) 0
          ⟨fi, hfimem, decide_eq_true rfl⟩ with ⟨i, hfound⟩
      have : i ∈ lc.localIdx := by
        rw [hlceq]
        exact List.mem_filterMap.mpr ⟨fi, hfim, hfound⟩
      exact List.ne_nil_of_mem this
    · intro li hli
      rw [hlceq] at hli
      rcases List.mem_filterMap.mp hli with ⟨fi, -, hfound⟩
      have := findIdx?_some_bounds _ (compMembers g r) 0 li hfound
      omega
  · rw [if_neg hrel] at hcono
    exact absurd hcono (by simp)

theorem enumInOf_wf (g : ℕ → CellContent) (r : ℕ) : EnumWF (enumInOf g r) := by
  have hperm : (orderOf g r).Perm (List.range (compMembers g r).length) :=
    List.mergeSort_perm _ _
  have hnd : (orderOf g r).Nodup :=
    hperm.nodup_iff.mpr (List.nodup_range _)
  have horderlen : (orderOf g r).length = (compMembers g r).length := by
    simpa using hperm.length_eq
  refine ⟨hperm,
    by show (orderPosOf g r).length = (compMembers g r).length;
       rw [orderPosOf]; simp, ?_, ?_,
    by show (cellConstraintsOf g r).length = (compMembers g r).length;
       rw [cellConstraintsOf]; simp, ?_⟩
  · -- orderPos inverts order
    intro i hi
    show (orderPosOf g r).getD ((orderOf g r).getD i 0) 0 = i
    have hi2 : i < (compMembers g r).length := hi
    have hilt : i < (orderOf g r).length := by omega
    have hc : (orderOf g r).getD i 0 = (orderOf g r)[i] :=
      List.getD_eq_getElem _ _ hilt
    have hclt : (orderOf g r)[i] < (compMembers g r).length := by
      have : (orderOf g r)[i] ∈ (orderOf g r) := List.getElem_mem hilt
      simpa using hperm.mem_iff.mp this
    rw [hc, orderPosOf, getD_map_range, if_pos hclt]
    exact findIdx_eq_of_nodup _ hnd i hilt
  · -- local constraints are nonempty and in range
    intro lc hlc
    exact localConstraintsOf_wf g r lc hlc
  · -- cellConstraints are the incidence filters
    intro c hc
    have hc2 : c < (compMembers g r).length := hc
    show (cellConstraintsOf g r).getD c [] = _
    rw [cellConstraintsOf]
    show ((List.range (compMembers g r).length).map _).getD c [] = _
    rw [getD_map_range, if_pos hc2]
    rfl

/-! ## The frontier is partitioned by the components -/

theorem nodup_frontier (g : ℕ → CellContent) : (frontier g).Nodup :=
  (nodup_unknownCells g).filter _

theorem nodup_compRoots (g : ℕ → CellContent) : (compRoots g).Nodup := by
  rw [compRoots]
  exact List.nodup_dedup _

theorem flatMap_compMembers_perm (g : ℕ → CellContent) :
    ((compRoots g).flatMap (compMembers g)).Perm
      (List.range (frontier g).length) := by
  apply List.perm_of_nodup_nodup_toFinset_eq
  · rw [List.nodup_flatMap]
    constructor
    · intro r _
      rw [compMembers]
      exact (List.nodup_range _).filter _
    · apply List.Pairwise.imp ?_ (nodup_compRoots g)
      intro r1 r2 hne fi h1 h2
      have e1 := ((mem_compMembers g r1 fi).mp h1).2
      have e2 := ((mem_compMembers g r2 fi).mp h2).2
      exact hne (e1 ▸ e2)
  · exact List.nodup_range _
  · apply Finset.ext
    intro fi
    rw [List.mem_toFinset, List.mem_toFinset, List.mem_flatMap, List.mem_range]
    constructor
    · rintro ⟨r, -, hmem⟩
      exact ((mem_compMembers g r fi).mp hmem).1
    · intro hfi
      exact ⟨findRoot g fi, findRoot_mem_compRoots g fi hfi,
        (mem_compMembers g _ fi).mpr ⟨hfi, rfl⟩⟩

theorem compMembers_length_le (g : ℕ → CellContent) (r : ℕ) :
    (compMembers g r).length ≤ 40 := by
  have h1 : (compMembers g r).length ≤ (frontier g).length := by
    rw [compMembers]
    calc ((List.range (frontier g).length).filter _).length
        ≤ (List.range (frontier g).length).length := List.length_filter_le _ _
      _ = (frontier g).length := List.length_range _
  have h2 : (frontier g).length ≤ (unknownCells g).length := by
    rw [frontier]
    exact List.length_filter_le _ _
  have h3 : (unknownCells g).length ≤ 40 := by
    rw [unknownCells]
    calc (cellsList.filter _).length ≤ cellsList.length :=
        List.length_filter_le _ _
      _ = 40 := by rw [cellsList]; rfl
  omega

theorem fallbackWrites_nil (g : ℕ → CellContent) : fallbackWrites g = [] := by
  rw [fallbackWrites]
  apply List.flatMap_eq_nil_iff.mpr
  intro r _
  exact (compResultOf_spec g r (compMembers_length_le g r)).2

theorem enumFrom_flatMap_snd {α β : Type} (l : List α) (h : α → List β) :
    ∀ s : ℕ, ((l.enumFrom s).flatMap fun jc => h jc.2) = l.flatMap h := by
  induction l with
  | nil =>
    intro s
    rw [List.enumFrom_nil]
    rfl
  | cons a l ih =>
    intro s
    rw [List.enumFrom_cons, List.flatMap_cons, List.flatMap_cons, ih]

theorem enum_flatMap_snd {α β : Type} (l : List α) (h : α → List β) :
    ((l.enum).flatMap fun jc => h jc.2) = l.flatMap h :=
  enumFrom_flatMap_snd l h 0

theorem step7Writes_fst (g : ℕ → CellContent) :
    (step7Writes g).map Prod.fst =
      ((compRoots g).flatMap (compMembers g)).map
        fun m => (frontier g).getD m 0 := by
  rw [step7Writes, List.map_flatMap]
  have hfun : (fun (jc : ℕ × ComponentResult) =>
      (if jc.2.counts.isEmpty then []
       else (List.range jc.2.size).map fun li =>
         ((frontier g).getD (jc.2.globalIndices.getD li 0) 0,
          numeratorOf g jc.1 jc.2 li / worldsTotal g)).map Prod.fst)
      = fun jc =>
        if jc.2.counts.isEmpty then []
        else (List.range jc.2.size).map fun li =>
          (frontier g).getD (jc.2.globalIndices.getD li 0) 0 := by
    funext jc
    rw [apply_ite (List.map Prod.fst), List.map_nil, List.map_map]
    rfl
  rw [hfun, enum_flatMap_snd (compResultsOf g) (fun cr =>
    if cr.counts.isEmpty then []
    else (List.range cr.size).map fun li =>
      (frontier g).getD (cr.globalIndices.getD li 0) 0)]
  rw [compResultsOf, List.flatMap_map]
  have hroot : (fun r => (fun cr =>
      if ComponentResult.counts cr |>.isEmpty then ([] : List ℕ)
      else (List.range cr.size).map fun li =>
        (frontier g).getD (cr.globalIndices.getD li 0) 0) ((compResultOf g r).1))
      = fun r => (compMembers g r).map fun m => (frontier g).getD m 0 := by
    funext r
    obtain ⟨hcr, -⟩ := compResultOf_spec g r (compMembers_length_le g r)
    rw [hcr]
    simp only
    rw [if_neg ?_]
    · have hlen : (List.range (compMembers g r).length).map
          (fun li => (frontier g).getD ((compMembers g r).getD li 0) 0)
          = ((List.range (compMembers g r).length).map
              (fun li => (compMembers g r).getD li 0)).map
              (fun m => (frontier g).getD m 0) := by
        rw [List.map_map]
        rfl
      rw [hlen, map_getD_range]
    · rw [List.isEmpty_iff]
      intro hc
      have hl := enumRun_counts_length (enumInOf g r)
      rw [hc] at hl
      simp at hl
  rw [hroot, ← List.map_flatMap]

theorem step7Writes_fst_perm (g : ℕ → CellContent) :
    ((step7Writes g).map Prod.fst).Perm (frontier g) := by
  rw [step7Writes_fst]
  have hperm := (flatMap_compMembers_perm g).map
    fun m => (frontier g).getD m 0
  rw [map_getD_range (frontier g) 0] at hperm
  exact hperm

theorem step7Writes_fst_nodup (g : ℕ → CellContent) :
    ((step7Writes g).map Prod.fst).Nodup :=
  (step7Writes_fst_perm g).nodup_iff.mpr (nodup_frontier g)

/-! ## Nonnegativity of all count vectors -/

theorem enumRun_counts_nonneg {E : EnumIn} (hwf : EnumWF E) :
    ∀ v ∈ (enumRun E).1, 0 ≤ v := by
  intro v hv
  rcases List.mem_iff_getElem.mp hv with ⟨k, hk, rfl⟩
  rw [← List.getD_eq_getElem _ 0 hk]
  rcases le_or_lt k E.remainingBad with h | h
  · rw [enumRun_counts_eq hwf k h]
    positivity
  · rw [enumRun_counts_above hwf k h]

theorem compResultsOf_counts_nonneg (g : ℕ → CellContent) :
    ∀ cr ∈ compResultsOf g, ∀ v ∈ cr.counts, 0 ≤ v := by
  intro cr hcr
  rw [compResultsOf] at hcr
  rcases List.mem_map.mp hcr with ⟨r, -, hval⟩
  obtain ⟨hcr1, -⟩ := compResultOf_spec g r (compMembers_length_le g r)
  rw [← hval, hcr1]
  intro v hv
  exact enumRun_counts_nonneg (enumInOf_wf g r) v hv

theorem interiorPolyOf_nonneg (g : ℕ → CellContent) :
    ∀ v ∈ interiorPolyOf g, 0 ≤ v := by
  intro v hv
  rw [interiorPolyOf] at hv
  rcases List.mem_map.mp hv with ⟨m, -, hval⟩
  rw [← hval, binomial_eq_choose]
  positivity

theorem fold_convolve_nonneg (l : List ComponentResult)
    (hl : ∀ cr ∈ l, ∀ v ∈ cr.counts, 0 ≤ v) :
    ∀ init, (∀ v ∈ init, 0 ≤ v) →
    ∀ v ∈ l.foldl
      (fun acc cr => if cr.counts.isEmpty then acc else convolve acc cr.counts)
      init, 0 ≤ v := by
  induction l with
  | nil =>
    intro init hinit v hv
    exact hinit v hv
  | cons cr t ih =>
    intro init hinit v hv
    rw [List.foldl_cons] at hv
    have hlt := fun c hc => hl c (List.mem_cons_of_mem _ hc)
    by_cases he : cr.counts.isEmpty
    · rw [if_pos he] at hv
      exact ih hlt init hinit v hv
    · rw [if_neg he] at hv
      exact ih hlt _ (convolve_nonneg init cr.counts hinit
        (hl cr (List.mem_cons_self _ _))) v hv

theorem fold_convolve_skip_nonneg (ci : ℕ) :
    ∀ (l : List (ℕ × ComponentResult)),
    (∀ jc ∈ l, ∀ v ∈ (jc : ℕ × ComponentResult).2.counts, 0 ≤ v) →
    ∀ init, (∀ v ∈ init, 0 ≤ v) →
    ∀ v ∈ l.foldl
      (fun acc jc => if jc.1 = ci ∨ jc.2.counts.isEmpty then acc
        else convolve acc jc.2.counts)
      init, 0 ≤ v := by
  intro l
  induction l with
  | nil =>
    intro _ init hinit v hv
    exact hinit v hv
  | cons jc t ih =>
    intro hl init hinit v hv
    rw [List.foldl_cons] at hv
    have hlt := fun c hc => hl c (List.mem_cons_of_mem _ hc)
    by_cases he : jc.1 = ci ∨ jc.2.counts.isEmpty
    · rw [if_pos he] at hv
      exact ih hlt init hinit v hv
    · rw [if_neg he] at hv
      exact ih hlt _ (convolve_nonneg init jc.2.counts hinit
        (hl jc (List.mem_cons_self _ _))) v hv

theorem mem_enumFrom_snd {α : Type} :
    ∀ (l : List α) (s : ℕ) (jc : ℕ × α), jc ∈ l.enumFrom s → jc.2 ∈ l := by
  intro l
  induction l with
  | nil =>
    intro s jc h
    rw [List.enumFrom_nil] at h
    exact absurd h (List.not_mem_nil _)
  | cons a t ih =>
    intro s jc h
    rw [List.enumFrom_cons] at h
    rcases List.mem_cons.mp h with rfl | hm
    · exact List.mem_cons_self _ _
    · exact List.mem_cons_of_mem _ (ih (s + 1) jc hm)

theorem mem_enum_snd {α : Type} (l : List α) (jc : ℕ × α) (h : jc ∈ l.enum) :
    jc.2 ∈ l :=
  mem_enumFrom_snd l 0 jc h

theorem compProdOf_nonneg (g : ℕ → CellContent) :
    ∀ v ∈ compProdOf g, 0 ≤ v := by
  rw [compProdOf]
  apply fold_convolve_nonneg _ (compResultsOf_counts_nonneg g)
  intro v hv
  rw [List.mem_singleton.mp hv]
  norm_num

theorem withoutCompOf_nonneg (g : ℕ → CellContent) (ci : ℕ) :
    ∀ v ∈ withoutCompOf g ci, 0 ≤ v := by
  rw [withoutCompOf]
  apply fold_convolve_skip_nonneg ci _
    (fun jc hjc => compResultsOf_counts_nonneg g jc.2 (mem_enum_snd _ jc hjc))
  intro v hv
  rw [List.mem_singleton.mp hv]
  norm_num

theorem totalWithoutOf_nonneg (g : ℕ → CellContent) (ci : ℕ) :
    ∀ v ∈ totalWithoutOf g ci, 0 ≤ v := by
  rw [totalWithoutOf]
  exact convolve_nonneg _ _ (withoutCompOf_nonneg g ci) (interiorPolyOf_nonneg g)

theorem totalPolyOf_nonneg (g : ℕ → CellContent) :
    ∀ v ∈ totalPolyOf g, 0 ≤ v := by
  rw [totalPolyOf]
  exact convolve_nonneg _ _ (interiorPolyOf_nonneg g) (compProdOf_nonneg g)

/-! ## The marginal numerators, summed over one component -/

theorem numeratorOf_eval (g : ℕ → CellContent) (ci : ℕ) (cr : ComponentResult)
    (li : ℕ) :
    numeratorOf g ci cr li =
      ∑ k ∈ Finset.range (min cr.size (remainingBadN g) + 1),
        (if remainingBadN g - k < (totalWithoutOf g ci).length then
          (cr.badCounts.getD li []).getD k 0 *
            (totalWithoutOf g ci).getD (remainingBadN g - k) 0
        else 0) := rfl

theorem numeratorOf_eq_sum (g : ℕ → CellContent) (j r li : ℕ)
    (hli : li < (compMembers g r).length) :
    numeratorOf g j (compResultOf g r).1 li =
      ∑ k ∈ Finset.range (remainingBadN g + 1),
        ((enumRun (enumInOf g r)).2.getD li []).getD k 0 *
          (totalWithoutOf g j).getD (remainingBadN g - k) 0 := by
  obtain ⟨hcr, -⟩ := compResultOf_spec g r (compMembers_length_le g r)
  rw [numeratorOf_eval, hcr]
  show ∑ k ∈ Finset.range
      (min (compMembers g r).length (remainingBadN g) + 1),
        (if remainingBadN g - k < (totalWithoutOf g j).length then
          ((enumRun (enumInOf g r)).2.getD li []).getD k 0 *
            (totalWithoutOf g j).getD (remainingBadN g - k) 0
        else 0) = _
  have hrow : ((enumRun (enumInOf g r)).2.getD li []).length =
      (compMembers g r).length + 1 := by
    obtain ⟨-, hlen2, hlen3⟩ := enumRun_lengths (enumInOf_wf g r)
    have hlilt : li < (enumRun (enumInOf g r)).2.length := by
      rw [hlen2]
      exact hli
    rw [List.getD_eq_getElem _ _ hlilt]
    exact hlen3 _ (List.getElem_mem hlilt)
  rw [Finset.sum_congr rfl (fun k _ => ?_)]
  · apply Finset.sum_subset
    · apply Finset.range_subset.mpr
      omega
    · intro k hk1 hk2
      rw [Finset.mem_range] at hk1
      rw [Finset.mem_range, not_lt] at hk2
      have hksz : (compMembers g r).length + 1 ≤ k := by omega
      rw [List.getD_eq_default _ _ (by omega), zero_mul]
  · by_cases hg : remainingBadN g - k < (totalWithoutOf g j).length
    · rw [if_pos hg]
    · rw [if_neg hg,
        List.getD_eq_default _ _ (by omega : (totalWithoutOf g j).length ≤ remainingBadN g - k),
        mul_zero]

theorem compPolys_def (g : ℕ → CellContent) :
    compPolys g = (compResultsOf g).map fun cr =>
      if cr.counts.isEmpty then 1 else toPoly cr.counts := rfl

theorem compPolys_getD (g : ℕ → CellContent) (j : ℕ)
    (hj : j < (compRoots g).length) :
    (compPolys g).getD j 1 =
      toPoly (enumRun (enumInOf g ((compRoots g)[j]))).1 := by
  have hjc : j < (compResultsOf g).length := by
    rw [compResultsOf, List.length_map]
    exact hj
  have hjp : j < (compPolys g).length := by
    rw [compPolys_def, List.length_map]
    exact hjc
  rw [List.getD_eq_getElem _ _ hjp]
  have h1 : (compPolys g)[j] =
      (fun cr => if cr.counts.isEmpty then 1 else toPoly cr.counts)
        ((compResultsOf g)[j]) := List.getElem_map _
  have h2 : (compResultsOf g)[j] =
      (compResultOf g ((compRoots g)[j])).1 := List.getElem_map _
  rw [h1, h2]
  obtain ⟨hcr, -⟩ := compResultOf_spec g ((compRoots g)[j])
    (compMembers_length_le g _)
  rw [hcr]
  show (if (enumRun (enumInOf g ((compRoots g)[j]))).1.isEmpty then 1
    else toPoly (enumRun (enumInOf g ((compRoots g)[j]))).1) = _
  rw [if_neg ?_]
  rw [List.isEmpty_iff]
  intro hc
  have hl := enumRun_counts_length (enumInOf g ((compRoots g)[j]))
  rw [hc] at hl
  simp at hl

theorem comp_numerator_sum (g : ℕ → CellContent) (j : ℕ)
    (hj : j < (compRoots g).length) :
    ∑ li ∈ Finset.range (compMembers g ((compRoots g)[j])).length,
      numeratorOf g j (compResultOf g ((compRoots g)[j])).1 li
    = (Polynomial.X *
        Polynomial.derivative ((compPolys g).getD j 1) *
        (((compPolys g).set j 1).prod * toPoly (interiorPolyOf g))).coeff
        (remainingBadN g) := by
  have hwf := enumInOf_wf g ((compRoots g)[j])
  calc ∑ li ∈ Finset.range (compMembers g ((compRoots g)[j])).length,
        numeratorOf g j (compResultOf g ((compRoots g)[j])).1 li
      = ∑ li ∈ Finset.range (compMembers g ((compRoots g)[j])).length,
          ∑ k ∈ Finset.range (remainingBadN g + 1),
            ((enumRun (enumInOf g ((compRoots g)[j]))).2.getD li []).getD k 0 *
              (totalWithoutOf g j).getD (remainingBadN g - k) 0 :=
        Finset.sum_congr rfl fun li hli =>
          numeratorOf_eq_sum g j _ li (Finset.mem_range.mp hli)
    _ = ∑ k ∈ Finset.range (remainingBadN g + 1),
          (∑ li ∈ Finset.range (compMembers g ((compRoots g)[j])).length,
            ((enumRun (enumInOf g ((compRoots g)[j]))).2.getD li []).getD k 0) *
            (totalWithoutOf g j).getD (remainingBadN g - k) 0 := by
        rw [Finset.sum_comm]
        exact Finset.sum_congr rfl fun k _ => (Finset.sum_mul _ _ _).symm
    _ = ∑ k ∈ Finset.range (remainingBadN g + 1),
          (k : ℚ) * (enumRun (enumInOf g ((compRoots g)[j]))).1.getD k 0 *
            (totalWithoutOf g j).getD (remainingBadN g - k) 0 := by
        apply Finset.sum_congr rfl
        intro k hk
        have hkle : k ≤ remainingBadN g := by
          have := Finset.mem_range.mp hk
          omega
        have hrows : (∑ li ∈ Finset.range
            (compMembers g ((compRoots g)[j])).length,
            ((enumRun (enumInOf g ((compRoots g)[j]))).2.getD li []).getD k 0)
            = (k : ℚ) *
              (enumRun (enumInOf g ((compRoots g)[j]))).1.getD k 0 := by
          have h0 : ∀ li ∈ Finset.range
              (compMembers g ((compRoots g)[j])).length,
              ((enumRun (enumInOf g ((compRoots g)[j]))).2.getD li []).getD k 0
              = (modelBadCount (enumInOf g ((compRoots g)[j])) li k : ℚ) :=
            fun li hli =>
              enumRun_badCounts_eq hwf li (Finset.mem_range.mp hli) k hkle
          rw [Finset.sum_congr rfl h0, ← Nat.cast_sum]
          have hnat : (∑ li ∈ Finset.range
              (compMembers g ((compRoots g)[j])).length,
              modelBadCount (enumInOf g ((compRoots g)[j])) li k)
              = k * modelCount (enumInOf g ((compRoots g)[j])) k :=
            sum_modelBadCount _ k
          rw [hnat, Nat.cast_mul, enumRun_counts_eq hwf k hkle]
        rw [hrows]
    _ = (Polynomial.X *
          Polynomial.derivative
            (toPoly (enumRun (enumInOf g ((compRoots g)[j]))).1) *
          toPoly (totalWithoutOf g j)).coeff (remainingBadN g) := by
        rw [coeff_X_mul_derivative_toPoly_mul]
        exact Finset.sum_congr rfl fun k _ => by rw [coeff_toPoly]
    _ = _ := by
        rw [toPoly_totalWithoutOf, compPolys_getD g j hj]

/-! ## The interior numerator, summed over the interior pool -/

theorem interiorNumeratorOf_eval (g : ℕ → CellContent) :
    interiorNumeratorOf g =
      ∑ m0 ∈ Finset.range (min (interior g).length (remainingBadN g)),
        (if remainingBadN g - (m0 + 1) < (compProdOf g).length then
          binomial ((interior g).length - 1) ((m0 + 1) - 1) *
            (compProdOf g).getD (remainingBadN g - (m0 + 1)) 0
        else 0) := rfl

theorem interiorPolyOf_getD_all (g : ℕ → CellContent) (m : ℕ) :
    (interiorPolyOf g).getD m 0 = binomial (interior g).length m := by
  rw [interiorPolyOf_getD]
  by_cases h : m < (interior g).length + 1
  · rw [if_pos h]
  · rw [if_neg h, binomial, if_pos (by omega)]

theorem nI_mul_binomial_succ (nI m0 : ℕ) (hm0 : m0 < nI) :
    (nI : ℚ) * binomial (nI - 1) m0 =
      ((m0 + 1 : ℕ) : ℚ) * binomial nI (m0 + 1) := by
  rw [binomial_eq_choose, binomial_eq_choose, ← Nat.cast_mul, ← Nat.cast_mul]
  congr 1
  have h1 : nI - 1 + 1 = nI := by omega
  have h := Nat.succ_mul_choose_eq (nI - 1) m0
  have h2 : nI * (nI - 1).choose m0 = nI.choose (m0 + 1) * (m0 + 1) := by
    simpa [Nat.succ_eq_add_one, h1] using h
  rw [h2]
  ring

theorem interior_numerator_sum (g : ℕ → CellContent) :
    ((interior g).length : ℚ) * interiorNumeratorOf g
    = (Polynomial.X * Polynomial.derivative (toPoly (interiorPolyOf g)) *
        (compPolys g).prod).coeff (remainingBadN g) := by
  calc ((interior g).length : ℚ) * interiorNumeratorOf g
      = ∑ m0 ∈ Finset.range (remainingBadN g),
          ((m0 + 1 : ℕ) : ℚ) * binomial (interior g).length (m0 + 1) *
            (compProdOf g).getD (remainingBadN g - (m0 + 1)) 0 := by
        rw [interiorNumeratorOf_eval, Finset.mul_sum]
        have hterm : ∀ m0 ∈ Finset.range
            (min (interior g).length (remainingBadN g)),
            ((interior g).length : ℚ) *
              (if remainingBadN g - (m0 + 1) < (compProdOf g).length then
                binomial ((interior g).length - 1) ((m0 + 1) - 1) *
                  (compProdOf g).getD (remainingBadN g - (m0 + 1)) 0
              else 0)
            = ((m0 + 1 : ℕ) : ℚ) * binomial (interior g).length (m0 + 1) *
                (compProdOf g).getD (remainingBadN g - (m0 + 1)) 0 := by
          intro m0 hm0
          rw [Finset.mem_range] at hm0
          have hm0I : m0 < (interior g).length := by omega
          by_cases hg : remainingBadN g - (m0 + 1) < (compProdOf g).length
          · rw [if_pos hg, Nat.add_sub_cancel, ← mul_assoc,
              nI_mul_binomial_succ _ _ hm0I]
          · rw [if_neg hg, mul_zero,
              List.getD_eq_default _ _ (by omega :
                (compProdOf g).length ≤ remainingBadN g - (m0 + 1)),
              mul_zero]
        rw [Finset.sum_congr rfl hterm]
        apply Finset.sum_subset
        · apply Finset.range_subset.mpr
          omega
        · intro m0 hm1 hm2
          rw [Finset.mem_range] at hm1
          rw [Finset.mem_range, not_lt] at hm2
          have hge : (interior g).length ≤ m0 := by omega
          rw [binomial, if_pos (by omega), mul_zero, zero_mul]
    _ = _ := by
        rw [show (compPolys g).prod = toPoly (compProdOf g) from
            (toPoly_compProdOf g).symm,
          coeff_X_mul_derivative_toPoly_mul]
        simp only [coeff_toPoly]
        rw [Finset.sum_range_succ']
        rw [Nat.cast_zero, zero_mul, zero_mul, add_zero]
        apply Finset.sum_congr rfl
        intro m0 _
        rw [interiorPolyOf_getD_all]

/-! ## The grand numerator identity -/

theorem enum_map_sum_q {α : Type} [Inhabited α] (l : List α) (f : ℕ × α → ℚ) :
    ((l.enum).map f).sum =
      ∑ j ∈ Finset.range l.length, f (j, l.getD j default) := by
  have hlist : (l.enum).map f =
      (List.range l.length).map fun j => f (j, l.getD j default) := by
    apply List.ext_getElem
    · simp [List.enum_length]
    · intro j h1 h2
      have hj : j < l.length := by simpa [List.enum_length] using h1
      rw [List.getElem_map, List.getElem_map, List.getElem_enum,
        List.getElem_range, List.getD_eq_getElem _ _ hj]
  rw [hlist, list_range_map_sum_q]

theorem compResultsOf_length (g : ℕ → CellContent) :
    (compResultsOf g).length = (compRoots g).length := by
  rw [compResultsOf, List.length_map]

theorem compPolys_length (g : ℕ → CellContent) :
    (compPolys g).length = (compRoots g).length := by
  rw [compPolys_def, List.length_map, compResultsOf_length]

theorem grand_numerator_sum (g : ℕ → CellContent) :
    (((compResultsOf g).enum).map (fun jc =>
        ((List.range jc.2.size).map fun li => numeratorOf g jc.1 jc.2 li).sum)).sum
      + ((interior g).length : ℚ) * interiorNumeratorOf g
    = (remainingBadN g : ℚ) * (totalPolyOf g).getD (remainingBadN g) 0 := by
  rw [enum_map_sum_q]
  have hstep : ∀ j ∈ Finset.range (compResultsOf g).length,
      ((List.range ((compResultsOf g).getD j default).size).map fun li =>
        numeratorOf g j ((compResultsOf g).getD j default) li).sum
      = (Polynomial.X *
          Polynomial.derivative ((compPolys g).getD j 1) *
          (((compPolys g).set j 1).prod * toPoly (interiorPolyOf g))).coeff
          (remainingBadN g) := by
    intro j hj
    have hjr : j < (compRoots g).length := by
      rw [← compResultsOf_length g]
      exact Finset.mem_range.mp hj
    have hget : (compResultsOf g).getD j default =
        (compResultOf g ((compRoots g)[j])).1 := by
      rw [List.getD_eq_getElem _ _ (by rw [compResultsOf_length]; exact hjr)]
      exact List.getElem_map _
    obtain ⟨hcr, -⟩ := compResultOf_spec g ((compRoots g)[j])
      (compMembers_length_le g _)
    have hsz : (compResultOf g ((compRoots g)[j])).1.size =
        (compMembers g ((compRoots g)[j])).length := by
      rw [hcr]
    rw [hget, hsz, list_range_map_sum_q]
    exact comp_numerator_sum g j hjr
  rw [Finset.sum_congr rfl hstep]
  have hcongr : (Finset.range (compResultsOf g).length) =
      (Finset.range (compPolys g).length) := by
    rw [compResultsOf_length, compPolys_length]
  rw [hcongr, interior_numerator_sum]
  have hkey := sum_X_mul_derivative_set_prod
    (toPoly (interiorPolyOf g) :: compPolys g) (remainingBadN g)
  rw [List.length_cons, Finset.sum_range_succ'] at hkey
  have hf0 : (Polynomial.X *
      Polynomial.derivative
        ((toPoly (interiorPolyOf g) :: compPolys g).getD 0 1) *
      ((toPoly (interiorPolyOf g) :: compPolys g).set 0 1).prod).coeff
      (remainingBadN g)
      = (Polynomial.X *
          Polynomial.derivative (toPoly (interiorPolyOf g)) *
          (compPolys g).prod).coeff (remainingBadN g) := by
    rw [List.getD_cons_zero]
    have hsetp : ((toPoly (interiorPolyOf g) :: compPolys g).set 0 1).prod =
        (compPolys g).prod := by
      show ((1 : Polynomial ℚ) :: compPolys g).prod = _
      rw [List.prod_cons, one_mul]
    rw [hsetp]
  have hfj : ∀ j ∈ Finset.range (compPolys g).length,
      (Polynomial.X *
        Polynomial.derivative
          ((toPoly (interiorPolyOf g) :: compPolys g).getD (j + 1) 1) *
        ((toPoly (interiorPolyOf g) :: compPolys g).set (j + 1) 1).prod).coeff
        (remainingBadN g)
      = (Polynomial.X *
          Polynomial.derivative ((compPolys g).getD j 1) *
          (((compPolys g).set j 1).prod * toPoly (interiorPolyOf g))).coeff
          (remainingBadN g) := by
    intro j _
    rw [List.getD_cons_succ]
    have hsetp : ((toPoly (interiorPolyOf g) :: compPolys g).set (j + 1) 1) =
        toPoly (interiorPolyOf g) :: (compPolys g).set j 1 := rfl
    rw [hsetp, List.prod_cons]
    apply congrArg (fun q => Polynomial.coeff q (remainingBadN g))
    ring
  rw [hf0, Finset.sum_congr rfl hfj] at hkey
  rw [hkey, List.prod_cons, ← toPoly_totalPolyOf, coeff_toPoly]

/-! ## The marginals lie between 0 and the total weight -/

theorem numeratorOf_bounds (g : ℕ → CellContent) (j : ℕ)
    (hj : j < (compRoots g).length) (li : ℕ)
    (hli : li < (compMembers g ((compRoots g)[j])).length) :
    0 ≤ numeratorOf g j (compResultOf g ((compRoots g)[j])).1 li ∧
    numeratorOf g j (compResultOf g ((compRoots g)[j])).1 li ≤
      (totalPolyOf g).getD (remainingBadN g) 0 := by
  have hwf := enumInOf_wf g ((compRoots g)[j])
  rw [numeratorOf_eq_sum g j _ li hli]
  constructor
  · apply Finset.sum_nonneg
    intro k hk
    have hkle : k ≤ remainingBadN g := by
      have := Finset.mem_range.mp hk
      omega
    apply mul_nonneg
    · rw [enumRun_badCounts_eq hwf li hli k hkle]
      positivity
    · exact getD_nonneg _ (totalWithoutOf_nonneg g j) _
  · have hstep1 : (∑ k ∈ Finset.range (remainingBadN g + 1),
        ((enumRun (enumInOf g ((compRoots g)[j]))).2.getD li []).getD k 0 *
          (totalWithoutOf g j).getD (remainingBadN g - k) 0)
        ≤ ∑ k ∈ Finset.range (remainingBadN g + 1),
            (enumRun (enumInOf g ((compRoots g)[j]))).1.getD k 0 *
              (totalWithoutOf g j).getD (remainingBadN g - k) 0 := by
      apply Finset.sum_le_sum
      intro k hk
      have hkle : k ≤ remainingBadN g := by
        have := Finset.mem_range.mp hk
        omega
      apply mul_le_mul_of_nonneg_right ?_
        (getD_nonneg _ (totalWithoutOf_nonneg g j) _)
      rw [enumRun_badCounts_eq hwf li hli k hkle,
        enumRun_counts_eq hwf k hkle, Nat.cast_le]
      exact modelBadCount_le _ li k
    have hstep2 : (∑ k ∈ Finset.range (remainingBadN g + 1),
        (enumRun (enumInOf g ((compRoots g)[j]))).1.getD k 0 *
          (totalWithoutOf g j).getD (remainingBadN g - k) 0)
        = (toPoly (enumRun (enumInOf g ((compRoots g)[j]))).1 *
            toPoly (totalWithoutOf g j)).coeff (remainingBadN g) := by
      rw [Polynomial.coeff_mul,
        Finset.Nat.sum_antidiagonal_eq_sum_range_succ_mk]
      exact Finset.sum_congr rfl fun k _ => by
        rw [coeff_toPoly, coeff_toPoly]
    have hstep3 : (toPoly (enumRun (enumInOf g ((compRoots g)[j]))).1 *
          toPoly (totalWithoutOf g j)).coeff (remainingBadN g)
        = (totalPolyOf g).getD (remainingBadN g) 0 := by
      rw [toPoly_totalWithoutOf, ← compPolys_getD g j hj, ← mul_assoc,
        getD_mul_set_one_prod _ j (by rw [compPolys_length]; exact hj),
        mul_comm, ← toPoly_totalPolyOf, coeff_toPoly]
    exact le_trans hstep1 (le_of_eq (hstep2.trans hstep3))

theorem interiorNumeratorOf_bounds (g : ℕ → CellContent) :
    0 ≤ interiorNumeratorOf g ∧
    interiorNumeratorOf g ≤ (totalPolyOf g).getD (remainingBadN g) 0 := by
  constructor
  · rw [interiorNumeratorOf_eval]
    apply Finset.sum_nonneg
    intro m0 _
    by_cases hg : remainingBadN g - (m0 + 1) < (compProdOf g).length
    · rw [if_pos hg]
      apply mul_nonneg
      · rw [binomial_eq_choose]
        positivity
      · exact getD_nonneg _ (compProdOf_nonneg g) _
    · rw [if_neg hg]
  · have hstep1 : interiorNumeratorOf g
        ≤ ∑ m0 ∈ Finset.range (min (interior g).length (remainingBadN g)),
            binomial (interior g).length (m0 + 1) *
              (compProdOf g).getD (remainingBadN g - (m0 + 1)) 0 := by
      rw [interiorNumeratorOf_eval]
      apply Finset.sum_le_sum
      intro m0 hm0
      have hm0I : m0 < (interior g).length := by
        have := Finset.mem_range.mp hm0
        omega
      have hnn : (0:ℚ) ≤ binomial (interior g).length (m0 + 1) *
          (compProdOf g).getD (remainingBadN g - (m0 + 1)) 0 := by
        apply mul_nonneg
        · rw [binomial_eq_choose]
          positivity
        · exact getD_nonneg _ (compProdOf_nonneg g) _
      by_cases hg : remainingBadN g - (m0 + 1) < (compProdOf g).length
      · rw [if_pos hg, Nat.add_sub_cancel]
        apply mul_le_mul_of_nonneg_right ?_
          (getD_nonneg _ (compProdOf_nonneg g) _)
        rw [binomial_eq_choose, binomial_eq_choose, Nat.cast_le]
        have h1 : (interior g).length - 1 + 1 = (interior g).length := by
          omega
        have hps := Nat.choose_succ_succ ((interior g).length - 1) m0
        simp only [Nat.succ_eq_add_one] at hps
        rw [h1] at hps
        rw [hps]
        omega
      · rw [if_neg hg]
        exact hnn
    have hstep2 : (∑ m0 ∈ Finset.range
        (min (interior g).length (remainingBadN g)),
        binomial (interior g).length (m0 + 1) *
          (compProdOf g).getD (remainingBadN g - (m0 + 1)) 0)
        ≤ ∑ m ∈ Finset.range (remainingBadN g + 1),
            binomial (interior g).length m *
              (compProdOf g).getD (remainingBadN g - m) 0 := by
      rw [Finset.sum_range_succ']
      have hsub : (∑ m0 ∈ Finset.range
          (min (interior g).length (remainingBadN g)),
          binomial (interior g).length (m0 + 1) *
            (compProdOf g).getD (remainingBadN g - (m0 + 1)) 0)
          ≤ ∑ m0 ∈ Finset.range (remainingBadN g),
              binomial (interior g).length (m0 + 1) *
                (compProdOf g).getD (remainingBadN g - (m0 + 1)) 0 := by
        apply Finset.sum_le_sum_of_subset_of_nonneg
        · apply Finset.range_subset.mpr
          omega
        · intro m0 _ _
          apply mul_nonneg
          · rw [binomial_eq_choose]
            positivity
          · exact getD_nonneg _ (compProdOf_nonneg g) _
      have hm0 : (0:ℚ) ≤ binomial (interior g).length 0 *
          (compProdOf g).getD (remainingBadN g - 0) 0 := by
        apply mul_nonneg
        · rw [binomial_eq_choose]
          positivity
        · exact getD_nonneg _ (compProdOf_nonneg g) _
      linarith
    have hstep3 : (∑ m ∈ Finset.range (remainingBadN g + 1),
        binomial (interior g).length m *
          (compProdOf g).getD (remainingBadN g - m) 0)
        = (totalPolyOf g).getD (remainingBadN g) 0 := by
      have hcm : (toPoly (interiorPolyOf g) *
          toPoly (compProdOf g)).coeff (remainingBadN g)
          = ∑ m ∈ Finset.range (remainingBadN g + 1),
            binomial (interior g).length m *
              (compProdOf g).getD (remainingBadN g - m) 0 := by
        rw [Polynomial.coeff_mul,
          Finset.Nat.sum_antidiagonal_eq_sum_range_succ_mk]
        exact Finset.sum_congr rfl fun m _ => by
          rw [coeff_toPoly, coeff_toPoly, interiorPolyOf_getD_all]
      rw [← hcm, toPoly_compProdOf, ← toPoly_totalPolyOf, coeff_toPoly]
    exact le_trans hstep1 (le_trans hstep2 (le_of_eq hstep3))

/-! ## Per-cell values on the main solver path -/

theorem nodup_interior (g : ℕ → CellContent) : (interior g).Nodup :=
  (nodup_unknownCells g).filter _

theorem worldsTotal_eq (g : ℕ → CellContent) (h : ¬ remainingBadI g < 0) :
    worldsTotal g = (totalPolyOf g).getD (remainingBadN g) 0 := by
  rw [worldsTotal, if_neg h]

theorem sum_map_div {α : Type} (l : List α) (f : α → ℚ) (c : ℚ) :
    (l.map fun x => f x / c).sum = (l.map f).sum / c := by
  induction l with
  | nil => simp
  | cons a t ih =>
    rw [List.map_cons, List.sum_cons, List.map_cons, List.sum_cons, ih,
      add_div]

theorem mem_enum_char {α : Type} (l : List α) (jc : ℕ × α)
    (h : jc ∈ l.enum) : ∃ hj : jc.1 < l.length, jc.2 = l[jc.1] := by
  rcases List.mem_iff_getElem.mp h with ⟨k, hk, hval⟩
  have hk2 : k < l.length := by simpa [List.enum_length] using hk
  rw [List.getElem_enum] at hval
  rcases jc with ⟨j, c⟩
  rcases Prod.mk.injEq .. |>.mp hval with ⟨h1, h2⟩
  subst h1
  exact ⟨hk2, h2.symm⟩

theorem compResultsOf_counts_ne (g : ℕ → CellContent) :
    ∀ cr ∈ compResultsOf g, cr.counts.isEmpty = false := by
  intro cr hcr
  rw [compResultsOf] at hcr
  rcases List.mem_map.mp hcr with ⟨r, -, hval⟩
  obtain ⟨hcr1, -⟩ := compResultOf_spec g r (compMembers_length_le g r)
  rw [← hval, hcr1]
  show (enumRun (enumInOf g r)).1.isEmpty = false
  rw [← Bool.not_eq_true, List.isEmpty_iff]
  intro hc
  have hl := enumRun_counts_length (enumInOf g r)
  rw [hc] at hl
  simp at hl

theorem mem_step7Writes (g : ℕ → CellContent) (iv : ℕ × ℚ)
    (hiv : iv ∈ step7Writes g) :
    ∃ (j : ℕ) (hj : j < (compRoots g).length)
      (li : ℕ) (_ : li < (compMembers g ((compRoots g)[j])).length),
      iv.2 = numeratorOf g j (compResultOf g ((compRoots g)[j])).1 li /
        worldsTotal g := by
  rw [step7Writes] at hiv
  rcases List.mem_flatMap.mp hiv with ⟨jc, hjc, hbody⟩
  rcases mem_enum_char _ jc hjc with ⟨hjlt, hjval⟩
  have hjr : jc.1 < (compRoots g).length := by
    rw [← compResultsOf_length g]
    exact hjlt
  have hcrv : jc.2 = (compResultOf g ((compRoots g)[jc.1])).1 := by
    rw [hjval]
    exact List.getElem_map _
  obtain ⟨hcr1, -⟩ := compResultOf_spec g ((compRoots g)[jc.1])
    (compMembers_length_le g _)
  have hne : jc.2.counts.isEmpty = false :=
    compResultsOf_counts_ne g jc.2 (mem_enum_snd _ jc hjc)
  rw [if_neg (by rw [hne]; exact Bool.false_ne_true)] at hbody
  rcases List.mem_map.mp hbody with ⟨li, hli, hval⟩
  have hlis : li < jc.2.size := by simpa using hli
  have hlim : li < (compMembers g ((compRoots g)[jc.1])).length := by
    have : jc.2.size = (compMembers g ((compRoots g)[jc.1])).length := by
      rw [hcrv, hcr1]
    omega
  refine ⟨jc.1, hjr, li, hlim, ?_⟩
  rw [← hval]
  show numeratorOf g jc.1 jc.2 li / worldsTotal g = _
  rw [hcrv]

theorem solveProb_main_eq (g : ℕ → CellContent) (p : ℕ → ℚ)
    (h2 : ¬ remainingBadI g ≤ 0) (h3 : ¬ (constraintCells g).isEmpty)
    (h4 : ¬ worldsTotal g ≤ 0) (i : ℕ) (hi : i ∈ unknownCells g) :
    solveProb g p i = clampQ
      ((if 0 < (interior g).length then
          applyWrites
            (applyWrites (applyWrites (applyWrites p (step1Writes g))
              (fallbackWrites g)) (step7Writes g))
            ((interior g).map fun x =>
              (x, interiorNumeratorOf g / worldsTotal g))
        else
          applyWrites (applyWrites (applyWrites p (step1Writes g))
            (fallbackWrites g)) (step7Writes g)) i) := by
  have hi40 : i < TOTAL_CELLS := ((mem_unknownCells g i).mp hi).1
  rw [solveProb]
  simp only
  rw [if_neg (by simp [List.isEmpty_iff]; exact List.ne_nil_of_mem hi),
    if_neg h2, if_neg h3, if_neg h4, if_pos hi40]

theorem solveProb_main_at_write (g : ℕ → CellContent) (p : ℕ → ℚ)
    (h2 : ¬ remainingBadI g ≤ 0) (h3 : ¬ (constraintCells g).isEmpty)
    (h4 : ¬ worldsTotal g ≤ 0) (iv : ℕ × ℚ) (hiv : iv ∈ step7Writes g) :
    solveProb g p iv.1 = clampQ iv.2 := by
  have hfr : iv.1 ∈ frontier g :=
    (step7Writes_fst_perm g).mem_iff.mp (List.mem_map.mpr ⟨iv, hiv, rfl⟩)
  have hunk : iv.1 ∈ unknownCells g := ((mem_frontier g iv.1).mp hfr).1
  have hnint : iv.1 ∉ interior g := by
    intro hc
    have h1 := ((mem_frontier g iv.1).mp hfr).2
    have h2i := ((mem_interior g iv.1).mp hc).2
    rw [h1] at h2i
    exact absurd h2i (by simp)
  have hval : applyWrites (applyWrites (applyWrites p (step1Writes g))
      (fallbackWrites g)) (step7Writes g) iv.1 = iv.2 :=
    applyWrites_eq_of_mem _ _ iv.1 iv.2 (step7Writes_fst_nodup g)
      (by rw [Prod.mk.eta]; exact hiv)
  rw [solveProb_main_eq g p h2 h3 h4 iv.1 hunk]
  by_cases hI : 0 < (interior g).length
  · rw [if_pos hI, applyWrites_const_at _ _ _ _ (nodup_interior g),
      if_neg hnint, hval]
  · rw [if_neg hI, hval]

theorem solveProb_main_at_interior (g : ℕ → CellContent) (p : ℕ → ℚ)
    (h2 : ¬ remainingBadI g ≤ 0) (h3 : ¬ (constraintCells g).isEmpty)
    (h4 : ¬ worldsTotal g ≤ 0) (i : ℕ) (hii : i ∈ interior g) :
    solveProb g p i = clampQ (interiorNumeratorOf g / worldsTotal g) := by
  have hunk : i ∈ unknownCells g := ((mem_interior g i).mp hii).1
  rw [solveProb_main_eq g p h2 h3 h4 i hunk,
    if_pos (List.length_pos_of_mem hii),
    applyWrites_const_at _ _ _ _ (nodup_interior g), if_pos hii]

/-! ## Conservation of probability mass -/

theorem step7Writes_eval (g : ℕ → CellContent) :
    step7Writes g = ((compResultsOf g).enum).flatMap fun jc =>
      if jc.2.counts.isEmpty then []
      else (List.range jc.2.size).map fun li =>
        ((frontier g).getD (jc.2.globalIndices.getD li 0) 0,
         numeratorOf g jc.1 jc.2 li / worldsTotal g) := rfl

theorem conservation_solveProb (g : ℕ → CellContent) (p : ℕ → ℚ)
    (hpos : 0 < worldsTotal g) :
    ((unknownCells g).map (solveProb g p)).sum = (remainingBadI g : ℚ) := by
  have hnegI : ¬ remainingBadI g < 0 := by
    intro hc
    rw [worldsTotal, if_pos hc] at hpos
    exact absurd hpos (lt_irrefl 0)
  have hWeq : worldsTotal g = (totalPolyOf g).getD (remainingBadN g) 0 :=
    worldsTotal_eq g hnegI
  have hIN : remainingBadI g = (remainingBadN g : ℤ) := by
    rw [remainingBadN]
    exact (Int.toNat_of_nonneg (by omega)).symm
  by_cases hA : (unknownCells g).isEmpty
  · -- no hidden cells: remainingBad must be 0 in a non-contradictory state
    have hun : unknownCells g = [] := List.isEmpty_iff.mp hA
    have hfr : frontier g = [] := by
      rw [frontier, hun]
      rfl
    have hintr : interior g = [] := by
      rw [interior, hun]
      rfl
    have hroots : compRoots g = [] := by
      rw [compRoots, hfr]
      rfl
    have hcrs : compResultsOf g = [] := by
      rw [compResultsOf, hroots]
      rfl
    have hcp : compProdOf g = [1] := by
      rw [compProdOf, hcrs]
      rfl
    have hb00 : binomial 0 0 = 1 := by
      rw [binomial]
      norm_num
    have hip : interiorPolyOf g = [1] := by
      rw [interiorPolyOf, hintr]
      show [binomial 0 0] = [1]
      rw [hb00]
    have hconv : convolve [(1:ℚ)] [1] = [1] := by
      rw [convolve, if_neg (by simp)]
      norm_num [List.range_succ]
    have htp : totalPolyOf g = [1] := by
      rw [totalPolyOf, hip, hcp, hconv]
    by_cases hrb : remainingBadN g = 0
    · rw [hun, hIN, hrb]
      simp
    · rw [hWeq, htp,
        List.getD_eq_default _ _ (by simp; omega)] at hpos
      exact absurd hpos (lt_irrefl 0)
  · by_cases hB : remainingBadI g ≤ 0
    · have hI0 : (remainingBadI g : ℚ) = 0 := by
        have : remainingBadI g = 0 := by omega
        rw [this]
        norm_num
      rw [hI0]
      apply List.sum_eq_zero
      intro x hx
      rcases List.mem_map.mp hx with ⟨i, hi, rfl⟩
      exact solveProb_remZero g p hB i hi
    · by_cases hC : (constraintCells g).isEmpty
      · have hcongr : (unknownCells g).map (solveProb g p) =
            (unknownCells g).map (fun _ => uniformProb g) :=
          List.map_congr_left fun i hi => solveProb_noClue g p hB hC i hi
        rw [hcongr, sum_map_const_q, uniformProb]
        have hne : unknownCells g ≠ [] := by
          simpa [List.isEmpty_iff] using hA
        have hlen : ((unknownCells g).length : ℚ) ≠ 0 :=
          Nat.cast_ne_zero.mpr (by
            have := List.length_pos.mpr hne
            omega)
        field_simp
      · -- the main solver path
        have hD : ¬ worldsTotal g ≤ 0 := not_le.mpr hpos
        have hsplit : ((unknownCells g).map (solveProb g p)).sum =
            ((frontier g).map (solveProb g p)).sum +
            ((interior g).map (solveProb g p)).sum :=
          sum_map_filter_split_q (unknownCells g) (solveProb g p)
            (isFrontier g)
        have hfr1 : ((frontier g).map (solveProb g p)).sum =
            (((step7Writes g).map Prod.fst).map (solveProb g p)).sum :=
          (((step7Writes_fst_perm g).map (solveProb g p)).sum_eq).symm
        have hfr2 : (((step7Writes g).map Prod.fst).map (solveProb g p)) =
            (step7Writes g).map (fun iv => solveProb g p iv.1) := by
          rw [List.map_map]
          rfl
        have hfr3 : (step7Writes g).map (fun iv => solveProb g p iv.1) =
            (step7Writes g).map (fun iv => iv.2) := by
          apply List.map_congr_left
          intro iv hiv
          rw [solveProb_main_at_write g p hB hC hD iv hiv]
          rcases mem_step7Writes g iv hiv with ⟨j, hj, li, hli, hval⟩
          obtain ⟨hnn, hle⟩ := numeratorOf_bounds g j hj li hli
          rw [hval]
          apply clampQ_id
          · exact div_nonneg hnn (le_of_lt hpos)
          · rw [div_le_one hpos, hWeq]
            exact hle
        have hW1 : ((step7Writes g).map (fun iv => iv.2)).sum =
            (((compResultsOf g).enum).map (fun jc =>
              ((List.range jc.2.size).map fun li =>
                numeratorOf g jc.1 jc.2 li).sum)).sum / worldsTotal g := by
          rw [step7Writes_eval, sum_map_flatMap_q]
          have hbody : ∀ jc ∈ (compResultsOf g).enum,
              (((if jc.2.counts.isEmpty then []
                else (List.range jc.2.size).map fun li =>
                  ((frontier g).getD (jc.2.globalIndices.getD li 0) 0,
                   numeratorOf g jc.1 jc.2 li / worldsTotal g)).map
                 (fun iv => iv.2)).sum)
              = ((List.range jc.2.size).map fun li =>
                  numeratorOf g jc.1 jc.2 li).sum / worldsTotal g := by
            intro jc hjc
            rw [if_neg (by
              rw [compResultsOf_counts_ne g jc.2 (mem_enum_snd _ jc hjc)]
              exact Bool.false_ne_true)]
            rw [List.map_map]
            have hcomp : ((fun iv : ℕ × ℚ => iv.2) ∘ fun li =>
                ((frontier g).getD (jc.2.globalIndices.getD li 0) 0,
                 numeratorOf g jc.1 jc.2 li / worldsTotal g))
                = fun li => numeratorOf g jc.1 jc.2 li / worldsTotal g := rfl
            rw [hcomp, sum_map_div]
          rw [List.map_congr_left hbody, sum_map_div]
        have hintsum : ((interior g).map (solveProb g p)).sum =
            ((interior g).length : ℚ) *
              (interiorNumeratorOf g / worldsTotal g) := by
          have hcongr2 : (interior g).map (solveProb g p) =
              (interior g).map
                (fun _ => interiorNumeratorOf g / worldsTotal g) := by
            apply List.map_congr_left
            intro i hi
            rw [solveProb_main_at_interior g p hB hC hD i hi]
            obtain ⟨hnn, hle⟩ := interiorNumeratorOf_bounds g
            apply clampQ_id
            · exact div_nonneg hnn (le_of_lt hpos)
            · rw [div_le_one hpos, hWeq]
              exact hle
          rw [hcongr2, sum_map_const_q]
        rw [hsplit, hfr1, hfr2, hfr3, hW1, hintsum, ← mul_div_assoc,
          div_add_div_same, grand_numerator_sum g, ← hWeq, mul_div_assoc,
          div_self (ne_of_gt hpos), mul_one, hIN]
        push_cast
        rfl

/-- C2: on every non-contradictory state (the convolved total number of
valid worlds at `remainingBad` is positive), the probabilities `solve`
assigns to the hidden cells sum exactly to
`remainingBad = TOTAL_BAD - knownBad` (exactly over `ℚ`; the C++ doubles
carry the same identity up to floating error). -/
theorem C2_conservation (s : ThrillDiggerSolver)
    (hpos : 0 < worldsTotal s.grid) :
    ((unknownCells s.grid).map s.solve.badProb).sum =
      (remainingBadI s.grid : ℚ) := by
  show ((unknownCells s.grid).map (solveProb s.grid s.badProb)).sum = _
  exact conservation_solveProb s.grid s.badProb hpos

/-- Witness for C2: the one-hidden-cell board `gMainPath` (15 bombs
revealed, one hidden interior cell) has a positive world count, and the
probability sum over its single hidden cell equals `remainingBad = 1`. -/
theorem C2_witness :
    0 < worldsTotal gMainPath ∧
    ((unknownCells gMainPath).map
      ({ grid := gMainPath, badProb := fun _ => 0 } :
        ThrillDiggerSolver).solve.badProb).sum
      = (remainingBadI gMainPath : ℚ) :=
  ⟨not_le.mp gMainPath_worldsTotal,
   C2_conservation ⟨gMainPath, fun _ => 0⟩ (not_le.mp gMainPath_worldsTotal)⟩

end ThrillDigger
